import Mathlib

/-!
Verification of the incremental simplicial-complex tracker of the
connectome-model repository (src/connectome-model/src/simplex.rs).

The Rust code is shallowly embedded as executable Lean definitions:

* nalgebra dynamic matrices of u64 become the RMat structure: explicit row
  and column counts plus row-major List (List Nat) data.  All entries the
  program ever stores are 0 or 1; arithmetic is written with explicit mod 2
  exactly where the source writes a mod 2.
* HashMap and HashSet become association lists and sorted duplicate-free
  lists of naturals.  Where the source iterates a HashSet (whose order Rust
  leaves unspecified) the embedding iterates in ascending numeric order,
  one of the admissible executions.
* Fallible operations (indexing that can go out of bounds in nalgebra,
  unwrap, assert) return Option; none models a panic.  The recursive
  insert/remove procedures take an explicit fuel argument and return none
  when it runs out, so every definition is a total computable function.
-/

set_option maxRecDepth 8192

/-- Row-major matrix over the naturals, mirroring the nalgebra dynamic
matrix of u64 used by the source (type GenericMatrix).  The row and column
counts are carried explicitly, as nalgebra does. -/
structure RMat where
  nr : Nat
  nc : Nat
  data : List (List Nat)
  deriving Repr, DecidableEq

/-- Row i of the raw data, defaulting to the empty row. -/
def rowGet (d : List (List Nat)) (i : Nat) : List Nat := d.getD i []

/-- Unchecked entry access used only where the source loop bounds already
guarantee the indices are inside the matrix. -/
def RMat.get (m : RMat) (i j : Nat) : Nat := (rowGet m.data i).getD j 0

/-- Bounds-checked entry access: nalgebra indexing panics outside the
logical dimensions, which the embedding models as none. -/
def RMat.getCk (m : RMat) (i j : Nat) : Option Nat :=
  if i < m.nr ∧ j < m.nc then some (m.get i j) else none

/-- Swap of two rows in the raw data (nalgebra swap_rows). -/
def swapRowsD (d : List (List Nat)) (a b : Nat) : List (List Nat) :=
  (d.set a (rowGet d b)).set b (rowGet d a)

/-- Swap of two columns in the raw data (nalgebra swap_columns). -/
def swapColsD (d : List (List Nat)) (a b : Nat) : List (List Nat) :=
  d.map (fun r => (r.set a (r.getD b 0)).set b (r.getD a 0))

/-- Pivot search of the rank routine: scan rows x.. over all columns and,
for every 1 found, swap its row with row x and its column with column x
(the source keeps scanning rather than breaking, and so does this fold). -/
def pivotSearch (m : RMat) (x : Nat) : RMat :=
  let pairs := (List.range' x (m.nr - x)).flatMap
    (fun i => (List.range m.nc).map (fun j => (i, j)))
  let d := pairs.foldl
    (fun d p =>
      if (rowGet d p.1).getD p.2 0 == 1 then swapColsD (swapRowsD d x p.1) x p.2
      else d)
    m.data
  { m with data := d }

/-- One row of the first elimination loop: entrywise sum with row x, mod 2. -/
def addRowMod2 (r rx : List Nat) (nc : Nat) : List Nat :=
  (List.range nc).map (fun j => (r.getD j 0 + rx.getD j 0) % 2)

/-- Second elimination loop of the source applied to one row: the source
adds entry (i, x) to every entry of row i sequentially, so the addend
changes once column x itself has been processed. -/
def selfAddLoop (r : List Nat) (x : Nat) (nc : Nat) : List Nat :=
  (List.range nc).foldl (fun r' j => r'.set j ((r'.getD j 0 + r'.getD x 0) % 2)) r

/-- Both elimination loops of the rank routine below the pivot (x, x). -/
def eliminate (m : RMat) (x : Nat) : RMat :=
  let d1 := (List.range' (x + 1) (m.nr - (x + 1))).foldl
    (fun d i =>
      if (rowGet d i).getD x 0 == 1 then
        d.set i (addRowMod2 (rowGet d i) (rowGet d x) m.nc)
      else d)
    m.data
  let d2 := (List.range' (x + 1) (m.nr - (x + 1))).foldl
    (fun d i =>
      if (rowGet d i).getD x 0 == 1 then d.set i (selfAddLoop (rowGet d i) x m.nc)
      else d)
    d1
  { m with data := d2 }

/-- Main loop of the rank routine.  The fuel argument counts the remaining
pivot columns, ncols - x, so running out of fuel is exactly the normal loop
exit at x = ncols.  The pivot read at (x, x) is bounds-checked because the
loop alone only guarantees x < ncols, not x < nrows; the source panics
there when a wide matrix has full row rank. -/
def rankGo : Nat → RMat → Nat → Nat → Option Nat
  | 0, _, _, r => some r
  | fuel + 1, m, x, r =>
    match (pivotSearch m x).getCk x x with
    | none => none
    | some e =>
      if e == 0 then some r
      else rankGo fuel (eliminate (pivotSearch m x) x) (x + 1) (r + 1)

/-- Rank of a matrix over GF(2) (function rank of simplex.rs), Gaussian
elimination with full pivoting; none models a panic. -/
def rank (m : RMat) : Option Nat := rankGo m.nc m 0 0

theorem pivotSearch_nr (m : RMat) (x : Nat) : (pivotSearch m x).nr = m.nr := rfl

theorem eliminate_nr (m : RMat) (x : Nat) : (eliminate m x).nr = m.nr := rfl

theorem RMat.getCk_lt {m : RMat} {i j : Nat} {e : Nat} (h : m.getCk i j = some e) :
    i < m.nr := by
  unfold RMat.getCk at h
  split at h
  · exact (by assumption : i < m.nr ∧ j < m.nc).1
  · exact absurd h (by simp)

theorem rankGo_bound :
    ∀ (fuel : Nat) (m : RMat) (x r : Nat), rankGo fuel m x x = some r →
      r ≤ x + fuel ∧ (r = x ∨ r ≤ m.nr) := by
  intro fuel
  induction fuel with
  | zero =>
    intro m x r h
    have hr : x = r := by simpa [rankGo] using h
    subst hr
    exact ⟨Nat.le_refl _, Or.inl rfl⟩
  | succ n ih =>
    intro m x r h
    unfold rankGo at h
    cases hck : (pivotSearch m x).getCk x x with
    | none => rw [hck] at h; exact absurd h (by simp)
    | some e =>
      rw [hck] at h
      have hxnr : x < m.nr := by
        have := RMat.getCk_lt hck
        rwa [pivotSearch_nr] at this
      have h' : (if (e == 0) = true then some x
          else rankGo n (eliminate (pivotSearch m x) x) (x + 1) (x + 1)) = some r := h
      by_cases he : (e == 0) = true
      · rw [if_pos he] at h'
        have hr : x = r := by simpa using h'
        subst hr
        exact ⟨Nat.le_add_right _ _, Or.inl rfl⟩
      · rw [if_neg he] at h'
        have hrec := ih (eliminate (pivotSearch m x) x) (x + 1) r h'
        refine ⟨by omega, Or.inr ?_⟩
        rcases hrec.2 with h1 | h2
        · omega
        · rwa [eliminate_nr, pivotSearch_nr] at h2

/-- Loop of betti_numbers.  The source keeps a growing vector whose last
element is always the entry pushed by the previous iteration; iteration i
pushes ncols - 1 - rank and then subtracts rank from the previous entry.
Here the previous entry is threaded as the accumulator named last, the
subtracted value is emitted, and the final accumulator closes the list.
A rank panic propagates as none. -/
def bettiLoop : List RMat → Int → Option (List Int)
  | [], last => some [last]
  | m :: ms, last =>
    match rank m with
    | none => none
    | some r =>
      match bettiLoop ms ((m.nc : Int) - 1 - (r : Int)) with
      | none => none
      | some rest => some ((last - (r : Int)) :: rest)

/-- Betti numbers of a complex state, a function of its list of boundary
matrices only (method betti_numbers of simplex.rs).  After the loop the
source removes the first element and the last element. -/
def bettiNumbers (ms : List RMat) : Option (List Int) :=
  (bettiLoop ms 0).map (fun l => l.tail.dropLast)

theorem list_tail_getElem? {α : Type} (l : List α) (i : Nat) : l.tail[i]? = l[i + 1]? := by
  cases l <;> simp

theorem list_dropLast_getElem? {α : Type} (l : List α) (i : Nat) (h : i + 1 < l.length) :
    l.dropLast[i]? = l[i]? := by
  rw [List.dropLast_eq_take, List.getElem?_take]
  simp only [if_pos (by omega : i < l.length - 1)]

theorem bettiLoop_length :
    ∀ (ms : List RMat) (last : Int) (l : List Int), bettiLoop ms last = some l →
      l.length = ms.length + 1 := by
  intro ms
  induction ms with
  | nil =>
    intro last l h
    simp [bettiLoop] at h
    simp [← h]
  | cons m ms ih =>
    intro last l h
    unfold bettiLoop at h
    cases hr : rank m with
    | none => rw [hr] at h; exact absurd h (by simp)
    | some r =>
      rw [hr] at h
      have hm : (match bettiLoop ms ((m.nc : Int) - 1 - (r : Int)) with
        | none => none
        | some rest => some ((last - (r : Int)) :: rest)) = some l := h
      cases hrest : bettiLoop ms ((m.nc : Int) - 1 - (r : Int)) with
      | none => rw [hrest] at hm; exact absurd hm (by simp)
      | some rest =>
        rw [hrest] at hm
        have hl : (last - (r : Int)) :: rest = l := by simpa using hm
        have := ih _ rest hrest
        simp [← hl, this]

theorem bettiLoop_get :
    ∀ (ms : List RMat) (last : Int) (l : List Int), bettiLoop ms last = some l →
      ∀ (d : Nat) (m1 m2 : RMat), ms[d]? = some m1 → ms[d + 1]? = some m2 →
        ∃ r1 r2 : Nat, rank m1 = some r1 ∧ rank m2 = some r2 ∧
          l[d + 1]? = some (((m1.nc : Int) - 1 - (r1 : Int)) - (r2 : Int)) := by
  intro ms
  induction ms with
  | nil => intro last l _ d m1 m2 h1; simp at h1
  | cons m ms ih =>
    intro last l h d m1 m2 h1 h2
    unfold bettiLoop at h
    cases hr : rank m with
    | none => rw [hr] at h; exact absurd h (by simp)
    | some r =>
      rw [hr] at h
      have hm : (match bettiLoop ms ((m.nc : Int) - 1 - (r : Int)) with
        | none => none
        | some rest => some ((last - (r : Int)) :: rest)) = some l := h
      cases hrest : bettiLoop ms ((m.nc : Int) - 1 - (r : Int)) with
      | none => rw [hrest] at hm; exact absurd hm (by simp)
      | some rest =>
        rw [hrest] at hm
        have hl : (last - (r : Int)) :: rest = l := by simpa using hm
        cases d with
        | zero =>
          have hm1 : m = m1 := by simpa using h1
          have hm2 : ms[0]? = some m2 := by simpa using h2
          cases ms with
          | nil => simp at hm2
          | cons m' ms' =>
            have hm2' : m' = m2 := by simpa using hm2
            unfold bettiLoop at hrest
            cases hr2 : rank m' with
            | none => rw [hr2] at hrest; exact absurd hrest (by simp)
            | some r2 =>
              rw [hr2] at hrest
              have hm2m : (match bettiLoop ms' ((m'.nc : Int) - 1 - (r2 : Int)) with
                | none => none
                | some rest2 =>
                  some ((((m.nc : Int) - 1 - (r : Int)) - (r2 : Int)) :: rest2)) = some rest := hrest
              cases hrest2 : bettiLoop ms' ((m'.nc : Int) - 1 - (r2 : Int)) with
              | none => rw [hrest2] at hm2m; exact absurd hm2m (by simp)
              | some rest2 =>
                rw [hrest2] at hm2m
                have hrl : (((m.nc : Int) - 1 - (r : Int)) - (r2 : Int)) :: rest2 = rest := by
                  simpa using hm2m
                refine ⟨r, r2, by rw [hm1] at hr; exact hr, by rw [hm2'] at hr2; exact hr2, ?_⟩
                rw [← hl, ← hrl, ← hm1]
                simp
        | succ d' =>
          have h1' : ms[d']? = some m1 := by simpa using h1
          have h2' : ms[d' + 1]? = some m2 := by simpa using h2
          obtain ⟨r1, r2, hr1, hr2, hget⟩ := ih _ rest hrest d' m1 m2 h1' h2'
          refine ⟨r1, r2, hr1, hr2, ?_⟩
          rw [← hl]
          simpa using hget

/-- C1: For every complex state (any list of boundary matrices, so in
particular every reachable one), whenever betti_numbers returns normally
its entry at output index d is
(columns(boundary[d]) - 1 - rank(boundary[d])) - rank(boundary[d+1]),
the kernel dimension of boundary[d] minus the image dimension of
boundary[d+1] with the sentinel column correction of minus one folded in,
and the output has one entry fewer than there are boundary matrices.  The
embedding is purely functional and rank works on a copy, so no store is
mutated. -/
theorem betti_numbers_formula (ms : List RMat) (bs : List Int)
    (hb : bettiNumbers ms = some bs) :
    bs.length = ms.length - 1 ∧
    ∀ (d : Nat) (m1 m2 : RMat), ms[d]? = some m1 → ms[d + 1]? = some m2 →
      ∃ r1 r2 : Nat, rank m1 = some r1 ∧ rank m2 = some r2 ∧
        bs[d]? = some (((m1.nc : Int) - 1 - (r1 : Int)) - (r2 : Int)) := by
  simp only [bettiNumbers, Option.map] at hb
  cases hl : bettiLoop ms 0 with
  | none => rw [hl] at hb; exact absurd hb (by simp)
  | some l =>
    rw [hl] at hb
    have hbs : l.tail.dropLast = bs := by simpa using hb
    have hlen := bettiLoop_length ms 0 l hl
    constructor
    · rw [← hbs]
      simp [hlen]
    · intro d m1 m2 h1 h2
      obtain ⟨r1, r2, hr1, hr2, hget⟩ := bettiLoop_get ms 0 l hl d m1 m2 h1 h2
      refine ⟨r1, r2, hr1, hr2, ?_⟩
      have hd1 : d + 1 < ms.length := by
        by_contra hcon
        have : ms[d + 1]? = none := by
          apply List.getElem?_eq_none
          omega
        rw [this] at h2
        exact absurd h2 (by simp)
      rw [← hbs]
      rw [list_dropLast_getElem? _ _ (by simp [hlen]; omega)]
      rw [list_tail_getElem?]
      exact hget

/-- Witness for betti_numbers_formula: the state of a fresh complex after
one edge insertion has boundary matrices of sizes 3 by 2 and 2 by 1, and
the theorem applies to it, giving betti output entry 0 equal to
(2 - 1 - 1) - 0 = 0. -/
theorem betti_numbers_formula_witness :
    bettiNumbers [⟨3, 2, [[0, 0], [0, 1], [0, 1]]⟩, ⟨2, 1, [[0], [0]]⟩] = some [0] ∧
    ([0] : List Int)[0]? = some ((((2 : Nat) : Int) - 1 - ((1 : Nat) : Int)) - ((0 : Nat) : Int)) := by
  refine ⟨by rfl, ?_⟩
  have := betti_numbers_formula [⟨3, 2, [[0, 0], [0, 1], [0, 1]]⟩, ⟨2, 1, [[0], [0]]⟩] [0] (by rfl)
  obtain ⟨-, hform⟩ := this
  obtain ⟨r1, r2, hr1, hr2, hget⟩ := hform 0 ⟨3, 2, [[0, 0], [0, 1], [0, 1]]⟩ ⟨2, 1, [[0], [0]]⟩
    (by rfl) (by rfl)
  have hr1' : r1 = 1 := by
    have : rank (⟨3, 2, [[0, 0], [0, 1], [0, 1]]⟩ : RMat) = some 1 := by rfl
    rw [this] at hr1; exact (Option.some.injEq _ _ ▸ hr1).symm
  have hr2' : r2 = 0 := by
    have : rank (⟨2, 1, [[0], [0]]⟩ : RMat) = some 0 := by rfl
    rw [this] at hr2; exact (Option.some.injEq _ _ ▸ hr2).symm
  rw [hr1', hr2'] at hget
  exact hget

/-- C5 counterexample: on the 1 by 2 matrix with entries 1 1 (a GF(2)
matrix with more columns than rows and full row rank) the rank routine
reaches the pivot read at position (1, 1), which is outside the single row,
so the source panics instead of returning a value. -/
theorem rank_panics_on_wide_full_row_rank : rank ⟨1, 2, [[1, 1]]⟩ = none := by rfl

/-- C5 amended: whenever the rank routine returns normally its result is at
most the minimum of the row and column counts (and at least 0 because it is
a natural number); on a matrix with more columns than rows whose rank
equals the row count the routine instead panics with an out-of-bounds
pivot access, as the counterexample shows. -/
theorem rank_le_min_dims (m : RMat) (r : Nat) (h : rank m = some r) :
    r ≤ min m.nr m.nc := by
  have hb := rankGo_bound m.nc m 0 r h
  have hnc : r ≤ m.nc := by omega
  rcases hb.2 with h0 | hnr
  · subst h0; exact Nat.zero_le _
  · exact Nat.le_min.mpr ⟨hnr, hnc⟩

/-- Witness for rank_le_min_dims at a concrete matrix of rank 2. -/
theorem rank_le_min_dims_witness :
    rank ⟨3, 2, [[1, 0], [0, 1], [1, 1]]⟩ = some 2 ∧ 2 ≤ min 3 2 :=
  ⟨by rfl, rank_le_min_dims ⟨3, 2, [[1, 0], [0, 1], [1, 1]]⟩ 2 (by rfl)⟩

/-- Simplices are ordered vertex sequences, as in the source (Vec of usize). -/
abbrev Simp := List Nat

/-- Sorted insertion into a duplicate-free ascending list; the embedding of
HashSet insertion with ascending order as the canonical iteration order. -/
def setInsert (x : Nat) : List Nat → List Nat
  | [] => [x]
  | y :: ys => if x < y then x :: y :: ys else if x = y then y :: ys else y :: setInsert x ys

/-- Canonical set of a list of naturals. -/
def mkSet (l : List Nat) : List Nat := l.foldl (fun s x => setInsert x s) []

/-- Set union, folding insertions of the right side into the left side. -/
def setUnion (a b : List Nat) : List Nat := b.foldl (fun s x => setInsert x s) a

/-- Set intersection, keeping the order of the left side. -/
def setInter (a b : List Nat) : List Nat := a.filter (fun x => b.contains x)

/-- Association list from simplices to cofacet vertex sets: the embedding
of one HashMap of the simplices store. -/
abbrev SMap := List (Simp × List Nat)

def mapLookup (m : SMap) (k : Simp) : Option (List Nat) :=
  (m.find? (fun p => p.1 == k)).map (fun p => p.2)

def mapContainsKey (m : SMap) (k : Simp) : Bool := m.any (fun p => p.1 == k)

/-- HashMap entry(k).or_insert(empty).insert(v): add v to the set at key k,
creating the key when absent. -/
def mapEntryInsert : SMap → Simp → Nat → SMap
  | [], k, v => [(k, [v])]
  | (k', s) :: rest, k, v =>
    if k' == k then (k', setInsert v s) :: rest else (k', s) :: mapEntryInsert rest k v

/-- HashMap insert of a whole value, overwriting an existing key. -/
def mapInsertSet : SMap → Simp → List Nat → SMap
  | [], k, v => [(k, v)]
  | (k', s) :: rest, k, v =>
    if k' == k then (k', v) :: rest else (k', s) :: mapInsertSet rest k v

/-- HashMap remove_entry: some with the key removed when present. -/
def mapRemoveEntry (m : SMap) (k : Simp) : Option SMap :=
  if mapContainsKey m k then some (m.filter (fun p => ¬(p.1 == k))) else none

/-- Bidirectional map between dense slot ids and simplices: the embedding
of one BiHashMap of the simplex_indices store. -/
abbrev BMap := List (Nat × Simp)

def bmapContainsRight (b : BMap) (s : Simp) : Bool := b.any (fun p => p.2 == s)

def bmapGetByRight (b : BMap) (s : Simp) : Option Nat :=
  (b.find? (fun p => p.2 == s)).map (fun p => p.1)

def bmapGetByLeft (b : BMap) (k : Nat) : Option Simp :=
  (b.find? (fun p => p.1 == k)).map (fun p => p.2)

/-- BiHashMap insert: any pair colliding on either side is discarded, then
the new pair is appended. -/
def bmapInsert (b : BMap) (k : Nat) (s : Simp) : BMap :=
  (b.filter (fun p => ¬(p.1 == k) && ¬(p.2 == s))) ++ [(k, s)]

def bmapRemoveByLeft (b : BMap) (k : Nat) : Option ((Nat × Simp) × BMap) :=
  match b.find? (fun p => p.1 == k) with
  | none => none
  | some pr => some (pr, b.filter (fun p => ¬(p.1 == k)))

def bmapRemoveByRight (b : BMap) (s : Simp) : Option ((Nat × Simp) × BMap) :=
  match b.find? (fun p => p.2 == s) with
  | none => none
  | some pr => some (pr, b.filter (fun p => ¬(p.2 == s)))

/-- The complex state: per-dimension cofacet tables, slot bijections and
boundary matrices, exactly the three fields of struct SimplicialComplex. -/
structure SC where
  simplices : List SMap
  simplex_indices : List BMap
  boundary_matrices : List RMat
  deriving Repr, DecidableEq

/-- Fresh complex (SimplicialComplex::new).  The vertex list argument of
the source is ignored by the source itself, so it is omitted here: the
stores start with a single empty dimension level and a 1 by 1 zero matrix. -/
def scNew : SC := ⟨[[]], [[]], [⟨1, 1, [[0]]⟩]⟩

/-- Zero-dimensional placeholder used only as a getD default for matrix
store reads; never reached by the executions considered. -/
def zeroMat : RMat := ⟨0, 0, []⟩

/-- Grow a matrix by one zero row (method add_row). -/
def matAddRow (m : RMat) : RMat := ⟨m.nr + 1, m.nc, m.data ++ [List.replicate m.nc 0]⟩

/-- Grow a matrix by one zero column, then set the rows listed in indices
to 1 in that new column (method add_column). -/
def matAddColumn (m : RMat) (indices : List Nat) : RMat :=
  let grown : RMat := ⟨m.nr, m.nc + 1, m.data.map (fun r => r ++ [0])⟩
  indices.foldl
    (fun mm idx => ⟨mm.nr, mm.nc, mm.data.set idx ((rowGet mm.data idx).set m.nc 1)⟩)
    grown

def matRemoveColumn (m : RMat) (j : Nat) : RMat :=
  ⟨m.nr, m.nc - 1, m.data.map (fun r => r.take j ++ r.drop (j + 1))⟩

def matRemoveRow (m : RMat) (i : Nat) : RMat :=
  ⟨m.nr - 1, m.nc, m.data.take i ++ m.data.drop (i + 1)⟩

/-- Remove the columns whose original indices are listed (nalgebra
remove_columns_at). -/
def matRemoveColumnsAt (m : RMat) (js : List Nat) : RMat :=
  ⟨m.nr, m.nc - js.length,
    m.data.map (fun r => ((r.enum.filter (fun p => ¬ js.contains p.1)).map (fun p => p.2)))⟩

/-- Column indices holding a 1 in row i, in ascending order (the row
iteration with enumerate and filter_map of the source). -/
def matRowOnes (m : RMat) (i : Nat) : List Nat :=
  (((rowGet m.data i).enum).filter (fun p => p.2 == 1)).map (fun p => p.1)

/-- Row indices holding a 1 in column j, in ascending order. -/
def matColOnes (m : RMat) (j : Nat) : List Nat :=
  ((m.data.enum).filter (fun p => p.2.getD j 0 == 1)).map (fun p => p.1)

def updSMaps (l : List SMap) (i : Nat) (f : SMap → SMap) : List SMap :=
  l.set i (f (l.getD i []))

def updBMaps (l : List BMap) (i : Nat) (f : BMap → BMap) : List BMap :=
  l.set i (f (l.getD i []))

def updMats (l : List RMat) (i : Nat) (f : RMat → RMat) : List RMat :=
  l.set i (f (l.getD i zeroMat))

/-- Facets of a simplex: delete the vertex at each position, keeping the
relative order of the rest (function faces of simplex.rs, whose loop body
concatenates the slice before position i with the slice after it). -/
def faces (s : Simp) : List Simp :=
  (List.range s.length).map (fun i => s.take i ++ s.drop (i + 1))

/-- Position of the first occurrence of x in l (iter().position of the
source); meaningful only when x is a member, as the source unwraps. -/
def posIn : List Nat → Nat → Nat
  | [], _ => 0
  | y :: ys, x => if y == x then 0 else posIn ys x + 1

/-- Association list for the pairwise order table of combine_simplices. -/
abbrev POrd := List ((Nat × Nat) × Bool)

def pordInsert : POrd → Nat × Nat → Bool → POrd
  | [], k, v => [(k, v)]
  | (k', v') :: rest, k, v =>
    if k' == k then (k', v) :: rest else (k', v') :: pordInsert rest k v

def pordLookup (p : POrd) (k : Nat × Nat) : Option Bool :=
  (p.find? (fun e => e.1 == k)).map (fun e => e.2)

/-- Innermost loop of the pairwise order table: for a fixed ordered pair,
record from every given sub-simplex containing both elements whether the
first strictly precedes the second there. -/
def pordCell (subs : List Simp) (p : POrd) (a b : Nat) : POrd :=
  subs.foldl
    (fun p sub =>
      if sub.contains a && sub.contains b then
        pordInsert p (a, b) (decide (posIn sub a < posIn sub b))
      else p)
    p

/-- Middle loop: fix the first element, run the cell loop over every
second element. -/
def pordRow (subs : List Simp) (elements : List Nat) (p : POrd) (a : Nat) : POrd :=
  elements.foldl (fun p b => pordCell subs p a b) p

/-- Pairwise order table of combine_simplices (its triple nested loop). -/
def buildPord (elements : List Nat) (subs : List Simp) : POrd :=
  elements.foldl (fun p a => pordRow subs elements p a) []

/-- Insertion into a list ordered by the partial-order comparator of
combine_simplices; a missing pair in the table is the panic of the source
comparator, modelled as none. -/
def insertOptCmp (cmp : Nat → Nat → Option Bool) (x : Nat) : List Nat → Option (List Nat)
  | [] => some [x]
  | y :: ys =>
    match cmp x y with
    | none => none
    | some true => some (x :: y :: ys)
    | some false => (insertOptCmp cmp x ys).map (fun zs => y :: zs)

/-- Comparator-driven sort (the sort_by call of combine_simplices; the
exact comparison sequence of the Rust sort is unspecified, so insertion
sort is used; for a comparator defined on every queried pair and induced
by a strict total order both return the unique sorted permutation, and a
missing pair panics in both). -/
def sortOptCmp (cmp : Nat → Nat → Option Bool) : List Nat → Option (List Nat)
  | [] => some []
  | x :: xs =>
    match sortOptCmp cmp xs with
    | none => none
    | some ys => insertOptCmp cmp x ys

/-- Reconstruction of a coface vertex sequence from its facets (function
combine_simplices): union of the first two sub-simplices, pairwise
directed order from all given sub-simplices, then a sort by that order.
Fewer than two sub-simplices panics on indexing, modelled as none. -/
def combineSimplices (subs : List Simp) : Option Simp :=
  match subs with
  | a :: b :: _ =>
    let elements := setUnion (mkSet a) b
    let pord := buildPord elements subs
    sortOptCmp (fun x y => pordLookup pord (x, y)) elements
  | _ => none

/-- Per-dimension simplex counts: the number of keys of each cofacet
table, as read by the driver (simplices.iter().map(len)). -/
def scCounts (st : SC) : List Nat := st.simplices.map (fun m => m.length)

/-- Store-growing step of method add: append one empty dimension level
when the stores are too short for the inserted simplex. -/
def scGrow (st0 : SC) (n : Nat) : SC :=
  if st0.simplices.length < n + 1 then
    { simplices := st0.simplices ++ [[]],
      simplex_indices := st0.simplex_indices ++ [[]],
      boundary_matrices := st0.boundary_matrices ++ [⟨1, 1, [[0]]⟩] }
  else st0

/-- Duplicate-edge check of method add, against the symmetric vertex
neighbour set. -/
def scDup (st : SC) (simplex : Simp) : Bool :=
  simplex.length == 2 &&
    ((mapLookup (st.simplices.getD 0 []) [simplex.getD 0 0]).getD []).contains
      (simplex.getD 1 0)

/-- Facet-registration loop of method add: register each facet in the
cofacet table, allocate a slot and a matrix row for every facet not seen
before, and collect the row indices bounding this simplex. -/
def scStep3 (st : SC) (simplex : Simp) : SC × List Nat :=
  (faces simplex).enum.foldl
    (fun (acc : SC × List Nat) p =>
      let st := acc.1
      let st := { st with
        simplices := updSMaps st.simplices (simplex.length - 2)
          (fun m => mapEntryInsert m p.2 (simplex.getD p.1 0)) }
      let bm := st.simplex_indices.getD (simplex.length - 2) []
      -- plus one for the sentinel entry of the matrix
      let index := bm.length + 1
      if bmapContainsRight bm p.2 then
        (st, acc.2 ++ [(bmapGetByRight bm p.2).getD 0])
      else
        let st := { st with
          simplex_indices := updBMaps st.simplex_indices (simplex.length - 2)
            (fun b => bmapInsert b index p.2) }
        let st := { st with
          boundary_matrices := updMats st.boundary_matrices (simplex.length - 2) matAddRow }
        (st, acc.2 ++ [index]))
    (st, [])

/-- Column append of method add, recording which facet rows bound the
inserted simplex. -/
def scColumn (st : SC) (simplex : Simp) (cols : List Nat) : SC :=
  { st with
    boundary_matrices := updMats st.boundary_matrices (simplex.length - 2)
      (fun m => matAddColumn m cols) }

/-- Extension-candidate set of method add: vertices in the cofacet set of
every facet, starting from the set of the prefix face. -/
def scOptions (st : SC) (simplex : Simp) : List Nat :=
  let dimMap := st.simplices.getD (simplex.length - 2) []
  let opts0 := setUnion [] ((mapLookup dimMap (simplex.drop 1)).getD [])
  (faces simplex).foldl (fun o face => setInter o ((mapLookup dimMap face).getD [])) opts0

/-- Coface sequence construction of method add: the candidate vertex is
placed before the first member it has a recorded directed edge towards,
else appended at the end. -/
def scSuper (st : SC) (simplex : Simp) (node : Nat) : Simp :=
  match (List.range simplex.length).find?
      (fun i => mapContainsKey (st.simplices.getD 1 []) [node, simplex.getD i 0]) with
  | some i => simplex.take i ++ node :: simplex.drop i
  | none => simplex ++ [node]

/-- Directedness rejection of method add: a candidate closing a directed
3-cycle with the inserted edge is skipped, not inserted. -/
def scCyc (st : SC) (simplex : Simp) (node : Nat) : Bool :=
  simplex.length == 2 &&
    mapContainsKey (st.simplices.getD 1 []) [simplex.getD 1 0, node] &&
    mapContainsKey (st.simplices.getD 1 []) [node, simplex.getD 0 0]

/-- Extension loop of method add over the candidate set, threading the
state and the count of accepted candidates; the addf argument is the
recursive insertion at the next lower fuel. -/
def scLoop (addf : SC → Simp → Option SC) (simplex : Simp) :
    List Nat → Option (SC × Nat) → Option (SC × Nat)
  | [], acc => acc
  | node :: rest, acc =>
    match acc with
    | none => none
    | some (st, cnt) =>
      if scCyc st simplex node then scLoop addf simplex rest (some (st, cnt))
      else
        match addf st (scSuper st simplex node) with
        | none => none
        | some st' => scLoop addf simplex rest (some (st', cnt + 1))

/-- Maximal registration of method add: when no coface absorbed the
simplex, give it its own slot, matrix row and cofacet-table key. -/
def scMaximal (st : SC) (simplex : Simp) : SC :=
  let bm := st.simplex_indices.getD (simplex.length - 1) []
  let index := bm.length + 1
  if bmapContainsRight bm simplex then st
  else
    let st := { st with
      simplex_indices := updBMaps st.simplex_indices (simplex.length - 1)
        (fun b => bmapInsert b index simplex) }
    let st := { st with
      boundary_matrices := updMats st.boundary_matrices (simplex.length - 1) matAddRow }
    { st with
      simplices := updSMaps st.simplices (simplex.length - 1)
        (fun m => mapInsertSet m simplex []) }

/-- Body of method add after the early returns: facet registration, the
boundary column, the extension cascade and the maximal registration. -/
def scAddCore (addf : SC → Simp → Option SC) (st : SC) (simplex : Simp) : Option SC :=
  let stepA := scStep3 st simplex
  let st := scColumn stepA.1 simplex stepA.2
  match scLoop addf simplex (scOptions st simplex) (some (st, 0)) with
  | none => none
  | some (st, cnt) => if cnt == 0 then some (scMaximal st simplex) else some st

/-- One insertion (method add of simplex.rs), with explicit fuel for the
recursion into cofaces; none is fuel exhaustion.  The extension-candidate
set is iterated in ascending vertex order, one admissible execution of the
unordered HashSet iteration of the source. -/
def scAdd : Nat → SC → Simp → Option SC
  | 0, _, _ => none
  | fuel + 1, st0, simplex =>
    if simplex.length < 2 then none
    else
      let st := scGrow st0 simplex.length
      if scDup st simplex then some st
      else scAddCore (scAdd fuel) st simplex

/-- Ascending insertion used to sort the slot keys, as the source sorts
the collected left values. -/
def insNat (x : Nat) : List Nat → List Nat
  | [] => [x]
  | y :: ys => if x ≤ y then x :: y :: ys else y :: insNat x ys

def sortNat (l : List Nat) : List Nat := l.foldr insNat []

/-- Renumber the slot bijection of one dimension to the dense range 1..n,
preserving order (method update_simplex_indices); the unwrap on the
removal is modelled as none. -/
def bmapRenumber (b : BMap) : Option BMap :=
  let keys := sortNat (b.map (fun p => p.1))
  (keys.foldl
    (fun acc key =>
      match acc with
      | none => none
      | some (b, old) =>
        if key ≠ old + 1 then
          match bmapRemoveByLeft b key with
          | none => none
          | some (pr, b') => some (bmapInsert b' (old + 1) pr.2, old + 1)
        else some (b, old + 1))
    (some (b, 0))).map (fun acc => acc.1)

/-- Edge-specific prologue of method remove: drop each endpoint from the
other endpoint's neighbour set (both drops asserted to succeed), locate
the unique boundary-matrix column shared by the two vertex rows (asserted
unique) and remove it from the dimension-0 matrix. -/
def scRemoveEdgePre (st : SC) (u v : Nat) : Option SC :=
  match mapLookup (st.simplices.getD 0 []) [u] with
  | none => none
  | some su =>
    if su.contains v then
      let st := { st with
        simplices := updSMaps st.simplices 0
          (fun m => mapInsertSet m [u] (su.filter (fun x => x ≠ v))) }
      match mapLookup (st.simplices.getD 0 []) [v] with
      | none => none
      | some sv =>
        if sv.contains u then
          let st := { st with
            simplices := updSMaps st.simplices 0
              (fun m => mapInsertSet m [v] (sv.filter (fun x => x ≠ u))) }
          match bmapGetByRight (st.simplex_indices.getD 0 []) [u] with
          | none => none
          | some rowU =>
            match bmapGetByRight (st.simplex_indices.getD 0 []) [v] with
            | none => none
            | some rowV =>
              let mat := st.boundary_matrices.getD 0 zeroMat
              if rowU < mat.nr && rowV < mat.nr then
                let inter := (matRowOnes mat rowU).filter
                  (fun j => (matRowOnes mat rowV).contains j)
                if inter.length == 1 then
                  some { st with
                    boundary_matrices := updMats st.boundary_matrices 0
                      (fun m => matRemoveColumn m (inter.getD 0 0)) }
                else none
              else none
        else none
    else none

/-- Turn a list of optional lookups into a list, none if any failed. -/
def allSome : List (Option Simp) → Option (List Simp)
  | [] => some []
  | none :: _ => none
  | some s :: rest =>
    match allSome rest with
    | none => none
    | some l => some (s :: l)

/-- One removal (method remove of simplex.rs) with explicit fuel: the
edge prologue when the simplex is an edge, then removal of the cofacet
key (asserted present), recursive removal of every coface read off the
boundary-matrix row, removal of the matrix row and the coface columns,
removal of the slot and dense renumbering. -/
def scRemove : Nat → SC → Simp → Option SC
  | 0, _, _ => none
  | fuel + 1, st0, simplex =>
    if simplex.length < 1 then none
    else
      let pre : Option SC :=
        if simplex.length == 2 then
          scRemoveEdgePre st0 (simplex.getD 0 0) (simplex.getD 1 0)
        else some st0
      match pre with
      | none => none
      | some st =>
        let dim := simplex.length - 1
        match mapRemoveEntry (st.simplices.getD dim []) simplex with
        | none => none
        | some m' =>
          let st := { st with simplices := st.simplices.set dim m' }
          match bmapGetByRight (st.simplex_indices.getD dim []) simplex with
          | none => none
          | some simplexRow =>
            let mat := st.boundary_matrices.getD dim zeroMat
            if simplexRow < mat.nr then
              let superIdxs := matRowOnes mat simplexRow
              let looped := superIdxs.foldl
                (fun (acc : Option SC) colIdx =>
                  match acc with
                  | none => none
                  | some st =>
                    let mat := st.boundary_matrices.getD dim zeroMat
                    let subRows := (matColOnes mat colIdx).take 3
                    match allSome (subRows.map
                        (fun j => bmapGetByLeft (st.simplex_indices.getD dim []) j)) with
                    | none => none
                    | some subs =>
                      match combineSimplices subs with
                      | none => none
                      | some sup => scRemove fuel st sup)
                (some st)
              match looped with
              | none => none
              | some st =>
                let mat := st.boundary_matrices.getD dim zeroMat
                let mat' := matRemoveColumnsAt (matRemoveRow mat simplexRow) superIdxs
                let st := { st with
                  boundary_matrices := st.boundary_matrices.set dim mat' }
                match bmapRemoveByRight (st.simplex_indices.getD dim []) simplex with
                | none => none
                | some (_, b') =>
                  let st := { st with simplex_indices := st.simplex_indices.set dim b' }
                  match bmapRenumber (st.simplex_indices.getD dim []) with
                  | none => none
                  | some b'' =>
                    some { st with simplex_indices := st.simplex_indices.set dim b'' }
            else none

/-- The triangle scenario of the spec: fresh complex, then edges (0,1),
(1,2), (2,0) in that order, a directed 3-cycle. -/
def triCycle : Option SC :=
  (scAdd 9 scNew [0, 1]).bind (fun st =>
    (scAdd 9 st [1, 2]).bind (fun st => scAdd 9 st [2, 0]))

/-- The transitively directed triangle: edges (0,1), (0,2), (1,2); this
one does produce the filled 2-simplex [0, 1, 2]. -/
def triFilled : Option SC :=
  (scAdd 9 scNew [0, 1]).bind (fun st =>
    (scAdd 9 st [0, 2]).bind (fun st => scAdd 9 st [1, 2]))

/-- C3 counterexample: after inserting (0,1), (1,2), (2,0) into a fresh
complex the dimension-2 store is empty (the cyclic orientation is rejected
by the directedness check), not the single 2-simplex the claim requires;
the dimension-0 boundary matrix is 4 by 4 (three vertices plus the
sentinel), not 3 by 3. -/
theorem tri_cycle_refutes_claim :
    triCycle.map (fun st => (st.simplices.getD 2 []).length) = some 0 ∧
    triCycle.map (fun st => (st.simplices.getD 2 []).length) ≠ some 1 ∧
    triCycle.map (fun st =>
      ((st.boundary_matrices.getD 0 zeroMat).nr,
       (st.boundary_matrices.getD 0 zeroMat).nc)) = some (4, 4) := by
  refine ⟨by rfl, ?_, by rfl⟩
  intro h
  rw [show triCycle.map (fun st => (st.simplices.getD 2 []).length) = some 0 from rfl] at h
  exact absurd h (by simp)

/-- C3 amended: the three cyclic insertions leave per-dimension simplex
counts 3, 3, 0 (vertices, edges, and no 2-simplex, since a directed
3-cycle admits no valid directed rotation and is rejected), a dimension-0
boundary matrix of 4 rows and 4 columns counting the sentinel row and
column, and that matrix has GF(2) rank 2. -/
theorem tri_cycle_state :
    triCycle.map scCounts = some [3, 3, 0] ∧
    triCycle.map (fun st =>
      ((st.boundary_matrices.getD 0 zeroMat).nr,
       (st.boundary_matrices.getD 0 zeroMat).nc)) = some (4, 4) ∧
    triCycle.bind (fun st => rank (st.boundary_matrices.getD 0 zeroMat)) = some 2 :=
  ⟨by rfl, by rfl, by rfl⟩

/-- C4: fresh complex, insert edge (0,1), remove edge (0,1). -/
def roundTrip : Option SC := (scAdd 9 scNew [0, 1]).bind (fun st => scRemove 9 st [0, 1])

/-- C4: inserting (0,1) into a fresh complex registers the two endpoint
vertices as 0-simplices, and removing the edge deletes the 1-simplex but
leaves both vertices registered, so the per-dimension counts do not return
to their pre-insertion values: they are 2, 0 instead of 0.  The spec lists
exact insert/remove cancellation as a property, so this is a divergence of
the code from the spec. -/
theorem insert_remove_not_cancelling :
    roundTrip.map scCounts = some [2, 0] ∧
    scCounts scNew = [0] ∧
    ([2, 0] : List Nat) ≠ [0] :=
  ⟨by rfl, by rfl, by simp⟩

/-- C8 counterexample: for the 1-simplex [0, 1] (k = 1, length k + 1 = 2)
the source returns one facet per position, so 2 facets, not the k = 1 the
claim states. -/
theorem faces_count_refutes_claim :
    (faces [0, 1]).length = 2 ∧ (faces [0, 1]).length ≠ 2 - 1 :=
  ⟨by rfl, by simp [faces]⟩

/-- C8 amended: faces is a total function returning exactly length-many
facets, one per position, the i-th being the sequence with the vertex at
position i deleted and the relative order of the rest preserved. -/
theorem faces_spec (s : Simp) :
    (faces s).length = s.length ∧
    ∀ i, i < s.length → (faces s)[i]? = some (s.eraseIdx i) := by
  constructor
  · simp [faces]
  · intro i hi
    simp [faces, List.getElem?_map, hi, List.eraseIdx_eq_take_drop_succ]

/-- Witness for faces_spec at the 2-simplex [5, 6, 7]. -/
theorem faces_spec_witness :
    (faces [5, 6, 7]).length = [5, 6, 7].length ∧
    (faces [5, 6, 7])[1]? = some ([5, 6, 7].eraseIdx 1) :=
  ⟨(faces_spec [5, 6, 7]).1, (faces_spec [5, 6, 7]).2 1 (by decide)⟩

/-- C7 failing input: insert (3,2), (1,2), (4,3), (4,2), (1,3) (forming two
filled triangles), remove (3,2) (cascading away both triangles), then
insert (1,4). -/
def phantomTrace : Option SC :=
  (scAdd 12 scNew [3, 2]).bind (fun st =>
    (scAdd 12 st [1, 2]).bind (fun st =>
      (scAdd 12 st [4, 3]).bind (fun st =>
        (scAdd 12 st [4, 2]).bind (fun st =>
          (scAdd 12 st [1, 3]).bind (fun st =>
            (scRemove 12 st [3, 2]).bind (fun st => scAdd 12 st [1, 4]))))))

/-- C7: the boundary matrices do not stay synchronized with the slot
tables.  On a fresh complex after one completed insertion the dimension-0
matrix has 3 rows while slots[0] has 2 entries (the sentinel offset alone
already refutes the stated equality).  Worse, after the phantomTrace
sequence (a completed remove followed by a completed insert) the stale
cofacet entries left behind by remove resurrect phantom 2-simplices, so
boundary[1] ends with 3 columns while slots[2] holds 4 simplices: the
counts agree with neither slots[2] nor slots[2] + 1, so no fixed sentinel
correction repairs the claim; the code violates the intended invariant. -/
theorem boundary_dims_desync :
    (scAdd 9 scNew [0, 1]).map (fun st =>
      ((st.boundary_matrices.getD 0 zeroMat).nr,
       (st.simplex_indices.getD 0 []).length)) = some (3, 2) ∧
    phantomTrace.map (fun st =>
      ((st.boundary_matrices.getD 1 zeroMat).nc,
       (st.simplex_indices.getD 2 []).length)) = some (3, 4) ∧
    phantomTrace.map (fun st => mapContainsKey (st.simplices.getD 2 []) [4, 3, 2]) =
      some true ∧
    phantomTrace.map (fun st => mapContainsKey (st.simplices.getD 1 []) [3, 2]) =
      some false ∧
    phantomTrace.map (fun st => mapContainsKey (st.simplices.getD 1 []) [2, 3]) =
      some false :=
  ⟨by rfl, by rfl, by rfl, by rfl, by rfl⟩

theorem list_getD_set_ne {α : Type} (l : List α) (i j : Nat) (x d : α) (hij : i ≠ j) :
    (l.set i x).getD j d = l.getD j d := by
  simp [List.getD, List.getElem?_set_ne hij]

/-- The edge prologue of remove only touches the dimension-0 cofacet table
and the dimension-0 boundary matrix, so the dimension-1 cofacet table is
unchanged whenever it completes. -/
theorem scRemoveEdgePre_keeps (st : SC) (u v : Nat) (st' : SC)
    (h : scRemoveEdgePre st u v = some st') :
    st'.simplices.getD 1 [] = st.simplices.getD 1 [] := by
  unfold scRemoveEdgePre at h
  repeat' (try dsimp only [] at h
           split at h)
  all_goals first
    | exact Option.noConfusion h
    | (injection h with h
       subst h
       simp [updSMaps, list_getD_set_ne _ 0 1 _ _ (by omega)])

/-- C9: removing an edge that is not present as a 1-simplex never returns
normally: whatever else the state holds, either one of the unwraps or
asserts of the edge prologue fires, or the asserted remove_entry on the
dimension-1 table fails, and the call panics (none in the embedding, for
every fuel). -/
theorem remove_missing_edge_panics (fuel : Nat) (st : SC) (u v : Nat)
    (h : mapContainsKey (st.simplices.getD 1 []) [u, v] = false) :
    scRemove fuel st [u, v] = none := by
  cases fuel with
  | zero => rfl
  | succ n =>
    unfold scRemove
    rw [if_neg (by simp : ¬ (([u, v] : Simp).length < 1))]
    simp only [show (([u, v] : Simp).length - 1) = 1 from rfl,
      show (([u, v] : Simp).length == 2) = true from rfl,
      show (([u, v] : Simp).getD 0 0) = u from rfl,
      show (([u, v] : Simp).getD 1 0) = v from rfl, if_true]
    split
    · rfl
    next st1 heq =>
      have hpre : scRemoveEdgePre st u v = some st1 := by
        simpa using heq
      have hkeys := scRemoveEdgePre_keeps st u v st1 hpre
      have hrm : mapRemoveEntry (st1.simplices.getD 1 []) [u, v] = none := by
        unfold mapRemoveEntry
        rw [hkeys, h]
        simp
      rw [hrm]

/-- Witness for remove_missing_edge_panics: removing (0, 1) from the fresh
complex panics. -/
theorem remove_missing_edge_panics_witness : scRemove 9 scNew [0, 1] = none :=
  remove_missing_edge_panics 9 scNew 0 1 (by rfl)

/-- C10 counterexample trace: insert (0, 1) into a fresh complex, then
insert the reversed edge (1, 0). -/
def revIns : Option SC := (scAdd 9 scNew [0, 1]).bind (fun st => scAdd 9 st [1, 0])

/-- C10 counterexample: with edge (0, 1) present, inserting (1, 0) does
not leave the stores untouched: the call first appends a fresh dimension
level (the store-growing step runs before the duplicate check), growing
boundary_matrices from 2 entries to 3, before returning without inserting
any simplex (the dimension-1 table still holds exactly [0, 1]). -/
theorem reverse_edge_appends_level :
    (scAdd 9 scNew [0, 1]).map (fun st => st.boundary_matrices.length) = some 2 ∧
    revIns.map (fun st => st.boundary_matrices.length) = some 3 ∧
    revIns.map (fun st => (st.simplices.getD 1 []).map (fun p => p.1)) = some [[0, 1]] ∧
    revIns ≠ scAdd 9 scNew [0, 1] := by
  refine ⟨by rfl, by rfl, by rfl, ?_⟩
  intro h
  have h2 : revIns.map (fun st => st.boundary_matrices.length) =
      (scAdd 9 scNew [0, 1]).map (fun st => st.boundary_matrices.length) := by rw [h]
  rw [show revIns.map (fun st => st.boundary_matrices.length) = some 3 from rfl,
    show (scAdd 9 scNew [0, 1]).map (fun st => st.boundary_matrices.length) = some 2
      from rfl] at h2
  exact absurd h2 (by simp)

set_option maxHeartbeats 2000000 in
/-- C10 amended: the duplicate check consults the symmetric neighbour set,
so when u is recorded as a neighbour of v (as every insertion of edge
(u, v) records) the insertion of the reversed edge (v, u) inserts nothing
and, provided the stores already have at least three dimension levels,
returns the state completely unchanged; with fewer levels the only effect
is the appended empty level of the counterexample.  In particular no
2-cycle of 1-simplices can be created. -/
theorem reverse_edge_noop (st : SC) (u v : Nat) (fuel : Nat)
    (hlen : 3 ≤ st.simplices.length)
    (hmem : ((mapLookup (st.simplices.getD 0 []) [v]).getD []).contains u = true) :
    scAdd (fuel + 1) st [v, u] = some st := by
  unfold scAdd
  have h1 : ¬ (([v, u] : Simp).length < 2) := by simp
  rw [if_neg h1]
  have hg : scGrow st ([v, u] : Simp).length = st := by
    have h2 : ¬ (st.simplices.length < ([v, u] : Simp).length + 1) := by
      simp only [List.length_cons, List.length_nil]
      omega
    unfold scGrow
    rw [if_neg h2]
  have h3 : scDup st [v, u] = true := by
    unfold scDup
    simp only [List.getD_cons_zero, List.getD_cons_succ]
    simpa using hmem
  simp only [hg, h3, if_true]

/-- Concrete three-level state with the edge (0, 1) recorded in the
symmetric neighbour sets, for the reverse_edge_noop witness. -/
def stThreeLevels : SC :=
  ⟨[[([0], [1]), ([1], [0])], [([0, 1], [])], []],
   [[(1, [1]), (2, [0])], [(1, [0, 1])], []],
   [⟨3, 2, [[0, 0], [0, 1], [0, 1]]⟩, ⟨2, 1, [[0], [0]]⟩, ⟨1, 1, [[0]]⟩]⟩

/-- Witness for reverse_edge_noop at stThreeLevels. -/
theorem reverse_edge_noop_witness : scAdd 1 stThreeLevels [1, 0] = some stThreeLevels :=
  reverse_edge_noop stThreeLevels 0 1 0 (by decide) (by rfl)

theorem mem_setInsert (a x : Nat) : ∀ s : List Nat, a ∈ setInsert x s ↔ a = x ∨ a ∈ s := by
  intro s
  induction s with
  | nil => simp [setInsert]
  | cons y ys ih =>
    unfold setInsert
    by_cases h1 : x < y
    · simp [h1]
    · rw [if_neg h1]
      by_cases h2 : x = y
      · subst h2
        simp
      · rw [if_neg h2]
        simp [ih]
        tauto

theorem sorted_setInsert (x : Nat) :
    ∀ s : List Nat, s.Sorted (· < ·) → (setInsert x s).Sorted (· < ·) := by
  intro s
  induction s with
  | nil => intro _; simp [setInsert]
  | cons y ys ih =>
    intro hs
    rw [List.sorted_cons] at hs
    unfold setInsert
    by_cases h1 : x < y
    · rw [if_pos h1, List.sorted_cons]
      constructor
      · intro b hb
        rcases List.mem_cons.mp hb with hb | hb
        · omega
        · have := hs.1 b hb
          omega
      · rw [List.sorted_cons]
        exact hs
    · rw [if_neg h1]
      by_cases h2 : x = y
      · rw [if_pos h2, List.sorted_cons]
        exact hs
      · rw [if_neg h2, List.sorted_cons]
        refine ⟨?_, ih hs.2⟩
        intro b hb
        rcases (mem_setInsert b x ys).mp hb with hb | hb
        · subst hb
          omega
        · exact hs.1 b hb

theorem mem_setUnion (a : Nat) :
    ∀ (l s : List Nat), a ∈ setUnion s l ↔ a ∈ s ∨ a ∈ l := by
  intro l
  induction l with
  | nil => intro s; simp [setUnion]
  | cons x xs ih =>
    intro s
    show a ∈ setUnion (setInsert x s) xs ↔ _
    rw [ih, mem_setInsert]
    simp
    tauto

theorem sorted_setUnion :
    ∀ (l s : List Nat), s.Sorted (· < ·) → (setUnion s l).Sorted (· < ·) := by
  intro l
  induction l with
  | nil => intro s hs; exact hs
  | cons x xs ih =>
    intro s hs
    exact ih (setInsert x s) (sorted_setInsert x s hs)

theorem mem_mkSet (a : Nat) (l : List Nat) : a ∈ mkSet l ↔ a ∈ l := by
  show a ∈ setUnion [] l ↔ _
  rw [mem_setUnion]
  simp

theorem sorted_mkSet (l : List Nat) : (mkSet l).Sorted (· < ·) :=
  sorted_setUnion l [] (by simp)

theorem posIn_lt {a : Nat} : ∀ {l : List Nat}, a ∈ l → posIn l a < l.length := by
  intro l
  induction l with
  | nil => intro h; simp at h
  | cons y ys ih =>
    intro h
    unfold posIn
    by_cases hy : y == a
    · simp [hy]
    · rw [if_neg hy]
      have ha : a ∈ ys := by
        rcases List.mem_cons.mp h with h | h
        · exact absurd (beq_iff_eq.mpr h.symm) hy
        · exact h
      have := ih ha
      simp
      omega

theorem posIn_getD {a : Nat} : ∀ {l : List Nat}, a ∈ l → l.getD (posIn l a) 0 = a := by
  intro l
  induction l with
  | nil => intro h; simp at h
  | cons y ys ih =>
    intro h
    unfold posIn
    by_cases hy : y == a
    · simp [beq_iff_eq.mp hy]
    · rw [if_neg hy]
      have ha : a ∈ ys := by
        rcases List.mem_cons.mp h with h | h
        · exact absurd (beq_iff_eq.mpr h.symm) hy
        · exact h
      rw [List.getD_cons_succ]
      exact ih ha

theorem posIn_inj {a b : Nat} {l : List Nat} (ha : a ∈ l) (hb : b ∈ l)
    (h : posIn l a = posIn l b) : a = b := by
  have h1 := posIn_getD ha
  have h2 := posIn_getD hb
  rw [h] at h1
  rw [h1] at h2
  exact h2

theorem posIn_idx : ∀ {l : List Nat}, l.Nodup → ∀ {m : Nat}, m < l.length →
    posIn l (l.getD m 0) = m := by
  intro l
  induction l with
  | nil => intro _ m h; simp at h
  | cons y ys ih =>
    intro hnd m hm
    rcases List.nodup_cons.mp hnd with ⟨hy, hnd'⟩
    cases m with
    | zero => simp [posIn]
    | succ m' =>
      have hm' : m' < ys.length := by simpa using hm
      have hmem : ys.getD m' 0 ∈ ys := by
        have : ys.getD m' 0 = ys[m'] := List.getD_eq_getElem ys 0 hm'
        rw [this]
        exact List.getElem_mem hm'
      unfold posIn
      have hne : ¬ (y == ys.getD m' 0) := by
        intro hc
        exact hy (beq_iff_eq.mp hc ▸ hmem)
      simp only [List.getD_cons_succ, if_neg hne]
      rw [ih hnd' hm']

theorem mem_of_mem_eraseIdx' {a : Nat} :
    ∀ {l : List Nat} {t : Nat}, a ∈ l.eraseIdx t → a ∈ l := by
  intro l
  induction l with
  | nil => intro t h; simp [List.eraseIdx] at h
  | cons y ys ih =>
    intro t h
    cases t with
    | zero => exact List.mem_cons_of_mem y h
    | succ t' =>
      rcases List.mem_cons.mp h with h | h
      · exact h ▸ List.mem_cons_self y ys
      · exact List.mem_cons_of_mem y (ih h)

theorem posIn_cons (y a : Nat) (ys : List Nat) :
    posIn (y :: ys) a = if y == a then 0 else posIn ys a + 1 := rfl

theorem posIn_eraseIdx :
    ∀ (l : List Nat) (t : Nat) (a : Nat), l.Nodup → t < l.length → a ∈ l.eraseIdx t →
      posIn l a ≠ t ∧
      posIn (l.eraseIdx t) a = if posIn l a < t then posIn l a else posIn l a - 1 := by
  intro l
  induction l with
  | nil => intro t a _ ht; simp at ht
  | cons y ys ih =>
    intro t a hnd ht hmem
    rcases List.nodup_cons.mp hnd with ⟨hy, hnd'⟩
    cases t with
    | zero =>
      have hmem' : a ∈ ys := hmem
      have hay : ¬ (y == a) := by
        intro hc
        exact hy (beq_iff_eq.mp hc ▸ hmem')
      have hp : posIn (y :: ys) a = posIn ys a + 1 := by
        rw [posIn_cons, if_neg hay]
      constructor
      · omega
      · show posIn ys a = _
        rw [hp, if_neg (by omega)]
        omega
    | succ t' =>
      have ht' : t' < ys.length := by simpa using ht
      by_cases hay : y == a
      · have : y = a := beq_iff_eq.mp hay
        subst this
        have hp : posIn (y :: ys) y = 0 := by
          rw [posIn_cons, if_pos (by simp)]
        have hp2 : posIn ((y :: ys).eraseIdx (t' + 1)) y = 0 := by
          show posIn (y :: ys.eraseIdx t') y = 0
          rw [posIn_cons, if_pos (by simp)]
        rw [hp, hp2]
        constructor
        · omega
        · rw [if_pos (by omega)]
      · have hmem' : a ∈ ys.eraseIdx t' := by
          rcases List.mem_cons.mp hmem with h | h
          · exact absurd (beq_iff_eq.mpr h.symm) hay
          · exact h
        obtain ⟨hne, heq⟩ := ih t' a hnd' ht' hmem'
        have hp : posIn (y :: ys) a = posIn ys a + 1 := by
          rw [posIn_cons, if_neg hay]
        have hp2 : posIn ((y :: ys).eraseIdx (t' + 1)) a = posIn (ys.eraseIdx t') a + 1 := by
          show posIn (y :: ys.eraseIdx t') a = _
          rw [posIn_cons, if_neg hay]
        rw [hp, hp2, heq]
        constructor
        · omega
        · by_cases hlt : posIn ys a < t'
          · rw [if_pos hlt, if_pos (by omega)]
          · rw [if_neg hlt, if_neg (by omega)]
            omega

theorem mem_eraseIdx_of_posIn_ne {a : Nat} :
    ∀ {l : List Nat} {t : Nat}, a ∈ l → posIn l a ≠ t → a ∈ l.eraseIdx t := by
  intro l
  induction l with
  | nil => intro t h; simp at h
  | cons y ys ih =>
    intro t hmem hne
    cases t with
    | zero =>
      have hay : ¬ (y == a) := by
        intro hc
        apply hne
        unfold posIn
        rw [if_pos hc]
      show a ∈ ys
      rcases List.mem_cons.mp hmem with h | h
      · exact absurd (beq_iff_eq.mpr h.symm) hay
      · exact h
    | succ t' =>
      by_cases hay : y == a
      · have : y = a := beq_iff_eq.mp hay
        subst this
        exact List.mem_cons_self y (ys.eraseIdx t')
      · have hmem' : a ∈ ys := by
          rcases List.mem_cons.mp hmem with h | h
          · exact absurd (beq_iff_eq.mpr h.symm) hay
          · exact h
        have hne' : posIn ys a ≠ t' := by
          intro hc
          apply hne
          unfold posIn
          rw [if_neg hay, hc]
        exact List.mem_cons_of_mem y (ih hmem' hne')

theorem posIn_eraseIdx_order {l : List Nat} {t : Nat} {a b : Nat}
    (hnd : l.Nodup) (ht : t < l.length)
    (ha : a ∈ l.eraseIdx t) (hb : b ∈ l.eraseIdx t) :
    (posIn (l.eraseIdx t) a < posIn (l.eraseIdx t) b ↔ posIn l a < posIn l b) := by
  obtain ⟨hna, hea⟩ := posIn_eraseIdx l t a hnd ht ha
  obtain ⟨hnb, heb⟩ := posIn_eraseIdx l t b hnd ht hb
  rw [hea, heb]
  by_cases h1 : posIn l a < t <;> by_cases h2 : posIn l b < t <;>
    simp [h1, h2] <;> omega

theorem pordLookup_insert_same (p : POrd) (k : Nat × Nat) (v : Bool) :
    pordLookup (pordInsert p k v) k = some v := by
  induction p with
  | nil =>
    unfold pordInsert pordLookup
    rw [List.find?_cons_of_pos _ (by simp)]
    rfl
  | cons e rest ih =>
    unfold pordInsert
    by_cases h : (e.1 == k) = true
    · rw [if_pos h]
      unfold pordLookup
      rw [List.find?_cons_of_pos _ (by simpa using h)]
      rfl
    · rw [if_neg h]
      unfold pordLookup at ih ⊢
      rw [List.find?_cons_of_neg _ (by simpa using h)]
      exact ih

theorem pordLookup_insert_other (p : POrd) (k k' : Nat × Nat) (v : Bool) (hk : k' ≠ k) :
    pordLookup (pordInsert p k v) k' = pordLookup p k' := by
  induction p with
  | nil =>
    unfold pordInsert pordLookup
    rw [List.find?_cons_of_neg _ (by simp; exact fun hc => hk hc.symm)]
  | cons e rest ih =>
    unfold pordInsert
    by_cases h : (e.1 == k) = true
    · rw [if_pos h]
      by_cases h2 : (e.1 == k') = true
      · exact absurd (beq_iff_eq.mp h ▸ beq_iff_eq.mp h2 : k = k')
          (fun hc => hk hc.symm)
      · unfold pordLookup
        rw [List.find?_cons_of_neg _ (by simpa using h2),
          List.find?_cons_of_neg _ (by simpa using h2)]
    · rw [if_neg h]
      by_cases h2 : (e.1 == k') = true
      · unfold pordLookup
        rw [List.find?_cons_of_pos _ (by simpa using h2),
          List.find?_cons_of_pos _ (by simpa using h2)]
      · unfold pordLookup at ih ⊢
        rw [List.find?_cons_of_neg _ (by simpa using h2),
          List.find?_cons_of_neg _ (by simpa using h2)]
        exact ih

theorem pordLookup_insert_isSome (p : POrd) (k k' : Nat × Nat) (v : Bool)
    (h : (pordLookup p k').isSome) : (pordLookup (pordInsert p k v) k').isSome := by
  by_cases hk : k' = k
  · subst hk
    rw [pordLookup_insert_same]
    rfl
  · rw [pordLookup_insert_other p k k' v hk]
    exact h

/-- Soundness of the cell fold: any recorded value for any key remains
correct, where correct means it equals the comparison of positions in the
coface c, assuming every sub-simplex offered agrees with c on pairwise
order of its members. -/
theorem pordCell_sound (c : Simp) (subs : List Simp)
    (hsubs : ∀ sub ∈ subs, ∀ x y : Nat, x ∈ sub → y ∈ sub →
      (posIn sub x < posIn sub y ↔ posIn c x < posIn c y))
    (p : POrd) (a b : Nat)
    (hp : ∀ x y : Nat, ∀ v : Bool, pordLookup p (x, y) = some v →
      v = decide (posIn c x < posIn c y)) :
    ∀ x y : Nat, ∀ v : Bool, pordLookup (pordCell subs p a b) (x, y) = some v →
      v = decide (posIn c x < posIn c y) := by
  unfold pordCell
  induction subs generalizing p with
  | nil => exact hp
  | cons sub rest ih =>
    simp only [List.foldl_cons]
    apply ih
    · intro s hs
      exact hsubs s (List.mem_cons_of_mem sub hs)
    · by_cases hcond : (sub.contains a && sub.contains b) = true
      · rw [if_pos hcond]
        intro x y v hl
        by_cases hxy : (x, y) = (a, b)
        · rw [hxy, pordLookup_insert_same] at hl
          have hxa : x = a := by rw [Prod.ext_iff] at hxy; exact hxy.1
          have hyb : y = b := by rw [Prod.ext_iff] at hxy; exact hxy.2
          subst hxa; subst hyb
          have hma : x ∈ sub := by
            have := (Bool.and_eq_true _ _).mp hcond
            simpa using this.1
          have hmb : y ∈ sub := by
            have := (Bool.and_eq_true _ _).mp hcond
            simpa using this.2
          have hiff := hsubs sub (List.mem_cons_self sub rest) x y hma hmb
          have hv : v = decide (posIn sub x < posIn sub y) := by
            injection hl with hl
            exact hl.symm
          rw [hv]
          exact decide_eq_decide.mpr hiff
        · rw [pordLookup_insert_other _ _ _ _ hxy] at hl
          exact hp x y v hl
      · rw [if_neg hcond]
        exact hp

theorem pordRow_sound (c : Simp) (subs : List Simp) (elements : List Nat)
    (hsubs : ∀ sub ∈ subs, ∀ x y : Nat, x ∈ sub → y ∈ sub →
      (posIn sub x < posIn sub y ↔ posIn c x < posIn c y))
    (p : POrd) (a : Nat)
    (hp : ∀ x y : Nat, ∀ v : Bool, pordLookup p (x, y) = some v →
      v = decide (posIn c x < posIn c y)) :
    ∀ x y : Nat, ∀ v : Bool, pordLookup (pordRow subs elements p a) (x, y) = some v →
      v = decide (posIn c x < posIn c y) := by
  unfold pordRow
  induction elements generalizing p with
  | nil => exact hp
  | cons b rest ih =>
    simp only [List.foldl_cons]
    exact ih (pordCell subs p a b) (pordCell_sound c subs hsubs p a b hp)

theorem buildPord_sound (c : Simp) (subs : List Simp) (elements : List Nat)
    (hsubs : ∀ sub ∈ subs, ∀ x y : Nat, x ∈ sub → y ∈ sub →
      (posIn sub x < posIn sub y ↔ posIn c x < posIn c y)) :
    ∀ x y : Nat, ∀ v : Bool, pordLookup (buildPord elements subs) (x, y) = some v →
      v = decide (posIn c x < posIn c y) := by
  unfold buildPord
  have main : ∀ (els : List Nat) (p : POrd),
      (∀ x y : Nat, ∀ v : Bool, pordLookup p (x, y) = some v →
        v = decide (posIn c x < posIn c y)) →
      ∀ x y : Nat, ∀ v : Bool,
        pordLookup (els.foldl (fun p a => pordRow subs elements p a) p) (x, y) = some v →
        v = decide (posIn c x < posIn c y) := by
    intro els
    induction els with
    | nil => intro p hp; exact hp
    | cons a rest ih =>
      intro p hp
      simp only [List.foldl_cons]
      exact ih (pordRow subs elements p a) (pordRow_sound c subs elements hsubs p a hp)
  exact main elements [] (by intro x y v h; simp [pordLookup] at h)

theorem pordCell_preserves (subs : List Simp) (p : POrd) (a b : Nat) (k : Nat × Nat)
    (h : (pordLookup p k).isSome) : (pordLookup (pordCell subs p a b) k).isSome := by
  unfold pordCell
  induction subs generalizing p with
  | nil => exact h
  | cons sub rest ih =>
    simp only [List.foldl_cons]
    apply ih
    by_cases hcond : (sub.contains a && sub.contains b) = true
    · rw [if_pos hcond]
      exact pordLookup_insert_isSome p (a, b) k _ h
    · rw [if_neg hcond]
      exact h

theorem list_contains_of_mem {s : List Nat} {a : Nat} (h : a ∈ s) : s.contains a = true := by
  simpa using h

theorem pordCell_sets (subs : List Simp) (p : POrd) (a b : Nat)
    (hsub : ∃ sub ∈ subs, a ∈ sub ∧ b ∈ sub) :
    (pordLookup (pordCell subs p a b) (a, b)).isSome := by
  induction subs generalizing p with
  | nil => simp at hsub
  | cons sub rest ih =>
    show (pordLookup ((sub :: rest).foldl _ p) (a, b)).isSome
    rw [List.foldl_cons]
    rcases hsub with ⟨s, hs, hsa, hsb⟩
    rcases List.mem_cons.mp hs with hs | hs
    · subst hs
      rw [if_pos (by rw [Bool.and_eq_true]
                     exact ⟨list_contains_of_mem hsa, list_contains_of_mem hsb⟩)]
      exact pordCell_preserves rest _ a b (a, b)
        (by rw [pordLookup_insert_same]; rfl)
    · exact ih _ ⟨s, hs, hsa, hsb⟩

theorem pordRow_preserves (subs : List Simp) (elements : List Nat) (p : POrd) (a : Nat)
    (k : Nat × Nat) (h : (pordLookup p k).isSome) :
    (pordLookup (pordRow subs elements p a) k).isSome := by
  unfold pordRow
  induction elements generalizing p with
  | nil => exact h
  | cons b rest ih =>
    rw [List.foldl_cons]
    exact ih _ (pordCell_preserves subs p a b k h)

theorem pordRow_sets (subs : List Simp) (elements : List Nat) (p : POrd) (a b : Nat)
    (hb : b ∈ elements) (hsub : ∃ sub ∈ subs, a ∈ sub ∧ b ∈ sub) :
    (pordLookup (pordRow subs elements p a) (a, b)).isSome := by
  unfold pordRow
  induction elements generalizing p with
  | nil => simp at hb
  | cons b0 rest ih =>
    rw [List.foldl_cons]
    rcases List.mem_cons.mp hb with hb | hb
    · subst hb
      have hstep := pordCell_sets subs p a b hsub
      show (pordLookup (rest.foldl (fun p b => pordCell subs p a b)
        (pordCell subs p a b)) (a, b)).isSome
      clear ih hb
      revert hstep
      generalize pordCell subs p a b = p0
      intro hstep
      induction rest generalizing p0 with
      | nil => exact hstep
      | cons b1 r1 ih1 =>
        rw [List.foldl_cons]
        exact ih1 _ (pordCell_preserves subs p0 a b1 (a, b) hstep)
    · exact ih _ hb

theorem buildPord_sets (subs : List Simp) (elements : List Nat) (a b : Nat)
    (ha : a ∈ elements) (hb : b ∈ elements) (hsub : ∃ sub ∈ subs, a ∈ sub ∧ b ∈ sub) :
    (pordLookup (buildPord elements subs) (a, b)).isSome := by
  unfold buildPord
  have main : ∀ (els : List Nat) (p : POrd), a ∈ els →
      (pordLookup (els.foldl (fun p a => pordRow subs elements p a) p) (a, b)).isSome := by
    intro els
    induction els with
    | nil => intro p h; simp at h
    | cons a0 rest ih =>
      intro p hmem
      rw [List.foldl_cons]
      rcases List.mem_cons.mp hmem with h | h
      · subst h
        have hstep := pordRow_sets subs elements p a b hb hsub
        show (pordLookup (rest.foldl (fun p a => pordRow subs elements p a)
          (pordRow subs elements p a)) (a, b)).isSome
        clear ih hmem
        revert hstep
        generalize pordRow subs elements p a = p0
        intro hstep
        induction rest generalizing p0 with
        | nil => exact hstep
        | cons a1 r1 ih1 =>
          rw [List.foldl_cons]
          exact ih1 _ (pordRow_preserves subs elements p0 a1 (a, b) hstep)
      · exact ih _ h
  exact main elements [] ha

/-- Pure insertion by position in c, the reference for the comparator sort. -/
def insByPos (c : Simp) (x : Nat) : List Nat → List Nat
  | [] => [x]
  | y :: ys => if posIn c x < posIn c y then x :: y :: ys else y :: insByPos c x ys

/-- Pure insertion sort by position in c. -/
def sortByPos (c : Simp) : List Nat → List Nat
  | [] => []
  | x :: xs => insByPos c x (sortByPos c xs)

theorem insertOptCmp_eq_insByPos (c : Simp) (cmp : Nat → Nat → Option Bool) (x : Nat) :
    ∀ l : List Nat, (∀ y ∈ l, cmp x y = some (decide (posIn c x < posIn c y))) →
      insertOptCmp cmp x l = some (insByPos c x l) := by
  intro l
  induction l with
  | nil => intro _; rfl
  | cons y ys ih =>
    intro hcmp
    unfold insertOptCmp insByPos
    rw [hcmp y (List.mem_cons_self y ys)]
    by_cases h : posIn c x < posIn c y
    · simp only [decide_eq_true h, if_pos h]
    · simp only [decide_eq_false h, if_neg h]
      rw [ih (fun y hy => hcmp y (List.mem_cons_of_mem _ hy))]
      rfl

theorem mem_insByPos (c : Simp) (x a : Nat) :
    ∀ l : List Nat, a ∈ insByPos c x l ↔ a = x ∨ a ∈ l := by
  intro l
  induction l with
  | nil => simp [insByPos]
  | cons y ys ih =>
    unfold insByPos
    by_cases h : posIn c x < posIn c y
    · rw [if_pos h]
      simp
    · rw [if_neg h]
      simp [ih]
      tauto

theorem mem_sortByPos (c : Simp) (a : Nat) :
    ∀ l : List Nat, a ∈ sortByPos c l ↔ a ∈ l := by
  intro l
  induction l with
  | nil => simp [sortByPos]
  | cons x xs ih =>
    unfold sortByPos
    rw [mem_insByPos]
    simp [ih]

theorem sortOptCmp_eq_sortByPos (c : Simp) (cmp : Nat → Nat → Option Bool) :
    ∀ l : List Nat, (∀ x ∈ l, ∀ y ∈ l, cmp x y = some (decide (posIn c x < posIn c y))) →
      sortOptCmp cmp l = some (sortByPos c l) := by
  intro l
  induction l with
  | nil => intro _; rfl
  | cons x xs ih =>
    intro hcmp
    unfold sortOptCmp sortByPos
    rw [ih (fun a ha b hb =>
      hcmp a (List.mem_cons_of_mem _ ha) b (List.mem_cons_of_mem _ hb))]
    exact insertOptCmp_eq_insByPos c cmp x (sortByPos c xs)
      (fun y hy => hcmp x (List.mem_cons_self x xs) y
        (List.mem_cons_of_mem _ ((mem_sortByPos c y xs).mp hy)))

theorem perm_insByPos (c : Simp) (x : Nat) :
    ∀ l : List Nat, List.Perm (insByPos c x l) (x :: l) := by
  intro l
  induction l with
  | nil => exact List.Perm.refl _
  | cons y ys ih =>
    unfold insByPos
    by_cases h : posIn c x < posIn c y
    · rw [if_pos h]
    · rw [if_neg h]
      exact List.Perm.trans (List.Perm.cons y ih) (List.Perm.swap x y ys)

theorem perm_sortByPos (c : Simp) : ∀ l : List Nat, List.Perm (sortByPos c l) l := by
  intro l
  induction l with
  | nil => exact List.Perm.refl _
  | cons x xs ih =>
    unfold sortByPos
    exact List.Perm.trans (perm_insByPos c x _) (List.Perm.cons x ih)

theorem sorted_insByPos (c : Simp) (x : Nat) :
    ∀ l : List Nat, l.Sorted (fun a b => posIn c a < posIn c b) →
      (∀ y ∈ l, posIn c x ≠ posIn c y) →
      (insByPos c x l).Sorted (fun a b => posIn c a < posIn c b) := by
  intro l
  induction l with
  | nil => intro _ _; simp [insByPos]
  | cons y ys ih =>
    intro hs hne
    rw [List.sorted_cons] at hs
    unfold insByPos
    by_cases h : posIn c x < posIn c y
    · rw [if_pos h, List.sorted_cons]
      refine ⟨?_, List.sorted_cons.mpr hs⟩
      intro b hb
      rcases List.mem_cons.mp hb with hb | hb
      · subst hb; exact h
      · have := hs.1 b hb
        omega
    · rw [if_neg h, List.sorted_cons]
      refine ⟨?_, ih hs.2 (fun z hz => hne z (List.mem_cons_of_mem _ hz))⟩
      intro b hb
      rcases (mem_insByPos c x b ys).mp hb with hb | hb
      · subst hb
        have := hne y (List.mem_cons_self y ys)
        omega
      · exact hs.1 b hb

theorem sorted_sortByPos (c : Simp) :
    ∀ l : List Nat, (∀ a ∈ l, ∀ b ∈ l, posIn c a = posIn c b → a = b) → l.Nodup →
      (sortByPos c l).Sorted (fun a b => posIn c a < posIn c b) := by
  intro l
  induction l with
  | nil => intro _ _; simp [sortByPos]
  | cons x xs ih =>
    intro hinj hnd
    rcases List.nodup_cons.mp hnd with ⟨hx, hnd'⟩
    unfold sortByPos
    apply sorted_insByPos
    · exact ih (fun a ha b hb => hinj a (List.mem_cons_of_mem _ ha)
        b (List.mem_cons_of_mem _ hb)) hnd'
    · intro y hy
      have hymem : y ∈ xs := (mem_sortByPos c y xs).mp hy
      intro hc
      have := hinj x (List.mem_cons_self x xs) y (List.mem_cons_of_mem _ hymem) hc
      exact hx (this ▸ hymem)

/-- C6 amended: given any three pairwise-distinct facets of the same
duplicate-free higher simplex c (which is what the removal site supplies,
taking the first three 1-rows of the coface column), combine_simplices
recovers exactly the vertex sequence of c: the union of the first two
facets is all of c, the three facets together cover every vertex pair, the
recorded pairwise orders all agree with the order in c, and the comparator
sort returns the unique ordering of those vertices sorted by position in
c, which is c itself.  With only two facets the pair of vertices missing
from each given facet is recorded nowhere and the comparator panics, as
the counterexample shows. -/
theorem combine_three_facets (c : Simp) (i j k : Nat)
    (hnd : c.Nodup) (hij : i < j) (hjk : j < k) (hk : k < c.length) :
    combineSimplices [c.eraseIdx i, c.eraseIdx j, c.eraseIdx k] = some c := by
  have hi : i < c.length := by omega
  have hj : j < c.length := by omega
  show sortOptCmp
    (fun x y => pordLookup
      (buildPord (setUnion (mkSet (c.eraseIdx i)) (c.eraseIdx j))
        [c.eraseIdx i, c.eraseIdx j, c.eraseIdx k]) (x, y))
    (setUnion (mkSet (c.eraseIdx i)) (c.eraseIdx j)) = some c
  have helem : ∀ a : Nat,
      a ∈ setUnion (mkSet (c.eraseIdx i)) (c.eraseIdx j) ↔ a ∈ c := by
    intro a
    rw [mem_setUnion, mem_mkSet]
    constructor
    · intro h
      rcases h with h | h
      · exact mem_of_mem_eraseIdx' h
      · exact mem_of_mem_eraseIdx' h
    · intro h
      by_cases hpi : posIn c a = i
      · right
        apply mem_eraseIdx_of_posIn_ne h
        omega
      · left
        exact mem_eraseIdx_of_posIn_ne h hpi
  have hsorted_el : (setUnion (mkSet (c.eraseIdx i)) (c.eraseIdx j)).Sorted (· < ·) :=
    sorted_setUnion (c.eraseIdx j) (mkSet (c.eraseIdx i)) (sorted_mkSet _)
  have hnd_el : (setUnion (mkSet (c.eraseIdx i)) (c.eraseIdx j)).Nodup :=
    hsorted_el.imp (fun h => Nat.ne_of_lt h)
  have hsubs : ∀ sub ∈ [c.eraseIdx i, c.eraseIdx j, c.eraseIdx k],
      ∀ x y : Nat, x ∈ sub → y ∈ sub →
        (posIn sub x < posIn sub y ↔ posIn c x < posIn c y) := by
    intro sub hsub x y hx hy
    have hcase : sub = c.eraseIdx i ∨ sub = c.eraseIdx j ∨ sub = c.eraseIdx k := by
      simpa using hsub
    rcases hcase with h | h | h <;> subst h
    · exact posIn_eraseIdx_order hnd hi hx hy
    · exact posIn_eraseIdx_order hnd hj hx hy
    · exact posIn_eraseIdx_order hnd hk hx hy
  have hcmp : ∀ x ∈ setUnion (mkSet (c.eraseIdx i)) (c.eraseIdx j),
      ∀ y ∈ setUnion (mkSet (c.eraseIdx i)) (c.eraseIdx j),
      pordLookup (buildPord (setUnion (mkSet (c.eraseIdx i)) (c.eraseIdx j))
        [c.eraseIdx i, c.eraseIdx j, c.eraseIdx k]) (x, y) =
        some (decide (posIn c x < posIn c y)) := by
    intro x hx y hy
    have hxc : x ∈ c := (helem x).mp hx
    have hyc : y ∈ c := (helem y).mp hy
    have hcov : ∃ sub ∈ [c.eraseIdx i, c.eraseIdx j, c.eraseIdx k],
        x ∈ sub ∧ y ∈ sub := by
      by_cases h1 : posIn c x ≠ i ∧ posIn c y ≠ i
      · exact ⟨c.eraseIdx i, by simp,
          mem_eraseIdx_of_posIn_ne hxc h1.1, mem_eraseIdx_of_posIn_ne hyc h1.2⟩
      · by_cases h2 : posIn c x ≠ j ∧ posIn c y ≠ j
        · exact ⟨c.eraseIdx j, by simp,
            mem_eraseIdx_of_posIn_ne hxc h2.1, mem_eraseIdx_of_posIn_ne hyc h2.2⟩
        · have h3 : posIn c x ≠ k ∧ posIn c y ≠ k := by
            push_neg at h1 h2
            constructor <;> omega
          exact ⟨c.eraseIdx k, by simp,
            mem_eraseIdx_of_posIn_ne hxc h3.1, mem_eraseIdx_of_posIn_ne hyc h3.2⟩
    have hsome := buildPord_sets [c.eraseIdx i, c.eraseIdx j, c.eraseIdx k]
      (setUnion (mkSet (c.eraseIdx i)) (c.eraseIdx j)) x y hx hy hcov
    cases hv : pordLookup (buildPord (setUnion (mkSet (c.eraseIdx i)) (c.eraseIdx j))
        [c.eraseIdx i, c.eraseIdx j, c.eraseIdx k]) (x, y) with
    | none => rw [hv] at hsome; exact absurd hsome (by simp)
    | some v =>
      rw [buildPord_sound c [c.eraseIdx i, c.eraseIdx j, c.eraseIdx k]
        (setUnion (mkSet (c.eraseIdx i)) (c.eraseIdx j)) hsubs x y v hv]
  rw [sortOptCmp_eq_sortByPos c _ _ hcmp]
  have hinj : ∀ a ∈ setUnion (mkSet (c.eraseIdx i)) (c.eraseIdx j),
      ∀ b ∈ setUnion (mkSet (c.eraseIdx i)) (c.eraseIdx j),
      posIn c a = posIn c b → a = b := by
    intro a ha b hb h
    exact posIn_inj ((helem a).mp ha) ((helem b).mp hb) h
  have hsorted := sorted_sortByPos c (setUnion (mkSet (c.eraseIdx i)) (c.eraseIdx j))
    hinj hnd_el
  have hperm : List.Perm (sortByPos c (setUnion (mkSet (c.eraseIdx i)) (c.eraseIdx j))) c := by
    apply List.Perm.trans (perm_sortByPos c _)
    apply List.Subperm.antisymm
    · exact List.subperm_of_subset hnd_el (fun a ha => (helem a).mp ha)
    · exact List.subperm_of_subset hnd (fun a ha => (helem a).mpr ha)
  have hcsorted : c.Sorted (fun a b => posIn c a < posIn c b) := by
    apply List.pairwise_iff_getElem.mpr
    intro m n hm hn hmn
    rw [← List.getD_eq_getElem c 0 hm, ← List.getD_eq_getElem c 0 hn,
      posIn_idx hnd hm, posIn_idx hnd hn]
    exact hmn
  haveI : IsAntisymm Nat (fun a b => posIn c a < posIn c b) :=
    ⟨fun a b h1 h2 => absurd (Nat.lt_trans h1 h2) (Nat.lt_irrefl _)⟩
  rw [List.eq_of_perm_of_sorted hperm hsorted hcsorted]

/-- C6 counterexample: [0, 1, 2] is a 2-simplex of the filled-triangle
complex and [1, 2] and [0, 2] are two of its facets, but combine_simplices
on just those two facets panics (none): the pair (0, 1) lies in neither
facet, so the comparator indexes a missing entry of the pairwise order
table instead of recovering [0, 1, 2]. -/
theorem combine_two_facets_panics :
    triFilled.map (fun st => mapContainsKey (st.simplices.getD 2 []) [0, 1, 2]) =
      some true ∧
    faces [0, 1, 2] = [[1, 2], [0, 2], [0, 1]] ∧
    combineSimplices [[1, 2], [0, 2]] = none ∧
    combineSimplices [[1, 2], [0, 2]] ≠ some [0, 1, 2] := by
  refine ⟨by rfl, by rfl, by rfl, ?_⟩
  intro h
  rw [show combineSimplices [[1, 2], [0, 2]] = none from rfl] at h
  exact absurd h (by simp)

/-- Witness for combine_three_facets: the three leading facets of the
3-simplex [0, 1, 2, 3] recover it. -/
theorem combine_three_facets_witness :
    combineSimplices [[1, 2, 3], [0, 2, 3], [0, 1, 3]] = some [0, 1, 2, 3] :=
  combine_three_facets [0, 1, 2, 3] 0 1 2 (by decide) (by decide) (by decide) (by decide)

/-! ### List infrastructure for the closure development -/

/-- Insert x at position i (ordered insertion of a node into a simplex,
as the cascade of method add builds its cofaces). -/
def insAt (l : List Nat) (i : Nat) (x : Nat) : List Nat := l.take i ++ x :: l.drop i

/-- Delete the entry at position j (the facet map). -/
def eraseD (l : List Nat) (j : Nat) : List Nat := l.take j ++ l.drop (j + 1)

/-- x occurs strictly before y in l. -/
def bef (l : List Nat) (x y : Nat) : Prop :=
  ∃ p q, p < q ∧ q < l.length ∧ l.getD p 0 = x ∧ l.getD q 0 = y

theorem perm_insAt (l : List Nat) (i x : Nat) : List.Perm (insAt l i x) (x :: l) := by
  have h : List.Perm (l.take i ++ x :: l.drop i) (x :: (l.take i ++ l.drop i)) :=
    List.perm_middle
  simpa [insAt, List.take_append_drop] using h

theorem length_insAt (l : List Nat) (i x : Nat) : (insAt l i x).length = l.length + 1 := by
  have h := (perm_insAt l i x).length_eq
  simpa using h

theorem mem_insAt (l : List Nat) (i x a : Nat) : a ∈ insAt l i x ↔ a = x ∨ a ∈ l := by
  rw [(perm_insAt l i x).mem_iff]
  simp

theorem nodup_insAt {l : List Nat} (i : Nat) {x : Nat} (h : l.Nodup) (hx : x ∉ l) :
    (insAt l i x).Nodup := by
  rw [(perm_insAt l i x).nodup_iff]
  exact List.nodup_cons.mpr ⟨hx, h⟩

theorem getElem?_eq_some_getD {l : List Nat} {n : Nat} (h : n < l.length) :
    l[n]? = some (l.getD n 0) := by
  rw [List.getD_eq_getElem?_getD, List.getElem?_eq_getElem h]
  rfl

theorem list_eq_of_getD {l₁ l₂ : List Nat} (hl : l₁.length = l₂.length)
    (h : ∀ n, n < l₁.length → l₁.getD n 0 = l₂.getD n 0) : l₁ = l₂ := by
  apply List.ext_getElem?
  intro n
  by_cases hn : n < l₁.length
  · rw [getElem?_eq_some_getD hn, getElem?_eq_some_getD (hl ▸ hn), h n hn]
  · rw [List.getElem?_eq_none (by omega), List.getElem?_eq_none (by omega)]

theorem getD_mem {l : List Nat} {p : Nat} (h : p < l.length) : l.getD p 0 ∈ l := by
  rw [List.getD_eq_getElem _ _ h]
  exact List.getElem_mem h

theorem nodup_getD_inj {l : List Nat} (h : l.Nodup) {p q : Nat} (hp : p < l.length)
    (hq : q < l.length) (he : l.getD p 0 = l.getD q 0) : p = q := by
  rw [List.getD_eq_getElem _ _ hp, List.getD_eq_getElem _ _ hq] at he
  have hinj := List.nodup_iff_injective_get.mp h
  have h5 : (⟨p, hp⟩ : Fin l.length) = ⟨q, hq⟩ := hinj (by simpa using he)
  simpa using h5

theorem insAt_getD_lt {l : List Nat} {i p : Nat} (x : Nat) (hp : p < i) (hpl : p < l.length) :
    (insAt l i x).getD p 0 = l.getD p 0 := by
  rw [insAt, List.getD_eq_getElem?_getD, List.getD_eq_getElem?_getD, List.getElem?_append,
    List.length_take, List.getElem?_take]
  rw [if_pos (by omega), if_pos hp]

theorem insAt_getD_self {l : List Nat} {i : Nat} (x : Nat) (hi : i ≤ l.length) :
    (insAt l i x).getD i 0 = x := by
  rw [insAt, List.getD_eq_getElem?_getD, List.getElem?_append, List.length_take,
    if_neg (by omega)]
  have h2 : i - i ⊓ l.length = 0 := by omega
  rw [h2, List.getElem?_cons_zero]
  rfl

theorem insAt_getD_ge {l : List Nat} {i p : Nat} (x : Nat) (hp : i ≤ p) (hi : i ≤ l.length) :
    (insAt l i x).getD (p + 1) 0 = l.getD p 0 := by
  rw [insAt, List.getD_eq_getElem?_getD, List.getD_eq_getElem?_getD, List.getElem?_append,
    List.length_take, if_neg (by omega)]
  have h1 : p + 1 - i ⊓ l.length = (p - i) + 1 := by omega
  rw [h1, List.getElem?_cons_succ, List.getElem?_drop]
  congr 2
  omega

theorem length_eraseD {l : List Nat} {j : Nat} (h : j < l.length) :
    (eraseD l j).length = l.length - 1 := by
  rw [eraseD]
  simp only [List.length_append, List.length_take, List.length_drop]
  omega

theorem eraseD_getD_lt {l : List Nat} {j p : Nat} (hp : p < j) (hpl : p < l.length) :
    (eraseD l j).getD p 0 = l.getD p 0 := by
  rw [eraseD, List.getD_eq_getElem?_getD, List.getD_eq_getElem?_getD, List.getElem?_append,
    List.length_take, List.getElem?_take]
  rw [if_pos (by omega), if_pos hp]

theorem eraseD_getD_ge {l : List Nat} {j p : Nat} (hp : j ≤ p) (hj : j < l.length) :
    (eraseD l j).getD p 0 = l.getD (p + 1) 0 := by
  rw [eraseD, List.getD_eq_getElem?_getD, List.getD_eq_getElem?_getD, List.getElem?_append,
    List.length_take, if_neg (by omega)]
  have h1 : p - j ⊓ l.length = p - j := by omega
  rw [h1, List.getElem?_drop]
  congr 2
  omega

theorem mem_eraseD {l : List Nat} {j a : Nat} (h : a ∈ eraseD l j) : a ∈ l := by
  rw [eraseD, List.mem_append] at h
  rcases h with h | h
  · exact List.mem_of_mem_take h
  · exact List.mem_of_mem_drop h

theorem sublist_eraseD (l : List Nat) (j : Nat) : (eraseD l j).Sublist l := by
  rw [eraseD]
  have h1 : l.drop (j + 1) = (l.drop j).drop 1 := by
    rw [List.drop_drop]
  have h2 : List.Sublist (l.take j ++ l.drop (j + 1)) (l.take j ++ l.drop j) := by
    rw [h1]
    exact List.Sublist.append_left (List.drop_sublist 1 (l.drop j)) _
  rw [List.take_append_drop] at h2
  exact h2

theorem nodup_eraseD {l : List Nat} (j : Nat) (h : l.Nodup) : (eraseD l j).Nodup :=
  h.sublist (sublist_eraseD l j)

theorem bef_intro {l : List Nat} {p q : Nat} (hpq : p < q) (hq : q < l.length) :
    bef l (l.getD p 0) (l.getD q 0) := ⟨p, q, hpq, hq, rfl, rfl⟩

theorem bef_mem {l : List Nat} {x y : Nat} (h : bef l x y) : x ∈ l ∧ y ∈ l := by
  obtain ⟨p, q, hpq, hq, hx, hy⟩ := h
  exact ⟨hx ▸ getD_mem (by omega), hy ▸ getD_mem hq⟩

theorem bef_antisymm {l : List Nat} (hnd : l.Nodup) {x y : Nat}
    (h1 : bef l x y) (h2 : bef l y x) : False := by
  obtain ⟨p1, q1, hpq1, hq1, hx1, hy1⟩ := h1
  obtain ⟨p2, q2, hpq2, hq2, hx2, hy2⟩ := h2
  have e1 : q1 = p2 := nodup_getD_inj hnd hq1 (by omega) (by rw [hy1, hx2])
  have e2 : q2 = p1 := nodup_getD_inj hnd hq2 (by omega) (by rw [hy2, hx1])
  omega

theorem bef_trans {l : List Nat} (hnd : l.Nodup) {x y z : Nat}
    (h1 : bef l x y) (h2 : bef l y z) : bef l x z := by
  obtain ⟨p1, q1, hpq1, hq1, hx1, hy1⟩ := h1
  obtain ⟨p2, q2, hpq2, hq2, hx2, hy2⟩ := h2
  have e1 : q1 = p2 := nodup_getD_inj hnd hq1 (by omega) (by rw [hy1, hx2])
  exact ⟨p1, q2, by omega, hq2, hx1, hy2⟩

theorem bef_total {l : List Nat} {x y : Nat} (hx : x ∈ l) (hy : y ∈ l) (hne : x ≠ y) :
    bef l x y ∨ bef l y x := by
  obtain ⟨p, hp, hxp⟩ := List.getElem_of_mem hx
  obtain ⟨q, hq, hyq⟩ := List.getElem_of_mem hy
  have hxd : l.getD p 0 = x := by rw [List.getD_eq_getElem _ _ hp]; exact hxp
  have hyd : l.getD q 0 = y := by rw [List.getD_eq_getElem _ _ hq]; exact hyq
  rcases Nat.lt_trichotomy p q with h | h | h
  · exact Or.inl ⟨p, q, h, hq, hxd, hyd⟩
  · exact absurd (by rw [← hxd, ← hyd, h]) hne
  · exact Or.inr ⟨q, p, h, hp, hyd, hxd⟩

theorem bef_pair {a b x y : Nat} : bef [a, b] x y ↔ x = a ∧ y = b := by
  constructor
  · rintro ⟨p, q, hpq, hq, hx, hy⟩
    simp only [List.length_cons, List.length_nil] at hq
    have hp0 : p = 0 := by omega
    have hq1 : q = 1 := by omega
    subst hp0 hq1
    simp only [List.getD_cons_zero, List.getD_cons_succ] at hx hy
    exact ⟨hx.symm, hy.symm⟩
  · rintro ⟨hx, hy⟩
    subst hx hy
    exact ⟨0, 1, by omega, by simp, rfl, rfl⟩

theorem bef_insAt_iff {l : List Nat} {i : Nat} (x0 : Nat) (hi : i ≤ l.length) (a b : Nat) :
    bef (insAt l i x0) a b ↔ bef l a b ∨
      (a = x0 ∧ ∃ p, p < l.length ∧ i ≤ p ∧ l.getD p 0 = b) ∨
      (b = x0 ∧ ∃ p, p < l.length ∧ p < i ∧ l.getD p 0 = a) := by
  constructor
  · rintro ⟨P, Q, hPQ, hQ, ha, hb⟩
    rw [length_insAt] at hQ
    rcases Nat.lt_trichotomy P i with hP | hP | hP
    · rcases Nat.lt_trichotomy Q i with hQi | hQi | hQi
      · left
        exact ⟨P, Q, hPQ, by omega,
          by rw [← insAt_getD_lt x0 hP (by omega)]; exact ha,
          by rw [← insAt_getD_lt x0 hQi (by omega)]; exact hb⟩
      · right; right
        refine ⟨by rw [← hb, hQi, insAt_getD_self x0 hi], P, by omega, by omega, ?_⟩
        rw [← insAt_getD_lt x0 hP (by omega)]; exact ha
      · left
        have hQ1 : Q = (Q - 1) + 1 := by omega
        refine ⟨P, Q - 1, by omega, by omega,
          by rw [← insAt_getD_lt x0 hP (by omega)]; exact ha, ?_⟩
        rw [← insAt_getD_ge x0 (by omega) hi, ← hQ1]; exact hb
    · right; left
      refine ⟨by rw [← ha, hP, insAt_getD_self x0 hi], Q - 1, by omega, by omega, ?_⟩
      have hQ1 : Q = (Q - 1) + 1 := by omega
      rw [← insAt_getD_ge x0 (by omega) hi, ← hQ1]; exact hb
    · left
      have hP1 : P = (P - 1) + 1 := by omega
      have hQ1 : Q = (Q - 1) + 1 := by omega
      refine ⟨P - 1, Q - 1, by omega, by omega, ?_, ?_⟩
      · rw [← insAt_getD_ge x0 (by omega) hi, ← hP1]; exact ha
      · rw [← insAt_getD_ge x0 (by omega) hi, ← hQ1]; exact hb
  · rintro (⟨p, q, hpq, hq, ha, hb⟩ | ⟨hax, p, hp, hip, hpb⟩ | ⟨hbx, p, hp, hpi, hpa⟩)
    · rcases Nat.lt_or_ge q i with hqi | hqi
      · exact ⟨p, q, hpq, by rw [length_insAt]; omega,
          by rw [insAt_getD_lt x0 (by omega) (by omega)]; exact ha,
          by rw [insAt_getD_lt x0 hqi (by omega)]; exact hb⟩
      · rcases Nat.lt_or_ge p i with hpi | hpi
        · exact ⟨p, q + 1, by omega, by rw [length_insAt]; omega,
            by rw [insAt_getD_lt x0 hpi (by omega)]; exact ha,
            by rw [insAt_getD_ge x0 hqi hi]; exact hb⟩
        · exact ⟨p + 1, q + 1, by omega, by rw [length_insAt]; omega,
            by rw [insAt_getD_ge x0 hpi hi]; exact ha,
            by rw [insAt_getD_ge x0 hqi hi]; exact hb⟩
    · refine ⟨i, p + 1, by omega, by rw [length_insAt]; omega, ?_, ?_⟩
      · rw [insAt_getD_self x0 hi]; exact hax.symm
      · rw [insAt_getD_ge x0 hip hi]; exact hpb
    · refine ⟨p, i, by omega, by rw [length_insAt]; omega, ?_, ?_⟩
      · rw [insAt_getD_lt x0 hpi (by omega)]; exact hpa
      · rw [insAt_getD_self x0 hi]; exact hbx.symm

theorem bef_insAt_of_bef {l : List Nat} {x y : Nat} (i x0 : Nat) (hi : i ≤ l.length)
    (h : bef l x y) : bef (insAt l i x0) x y :=
  (bef_insAt_iff x0 hi x y).mpr (Or.inl h)

theorem bef_insAt_node_right (l : List Nat) {j p : Nat} (x0 : Nat) (hj : j ≤ p)
    (hp : p < l.length) : bef (insAt l j x0) x0 (l.getD p 0) :=
  (bef_insAt_iff x0 (by omega) _ _).mpr (Or.inr (Or.inl ⟨rfl, p, hp, hj, rfl⟩))

theorem bef_insAt_node_left (l : List Nat) {j p : Nat} (x0 : Nat) (hp : p < j)
    (hj : j ≤ l.length) (hpl : p < l.length) : bef (insAt l j x0) (l.getD p 0) x0 :=
  (bef_insAt_iff x0 hj _ _).mpr (Or.inr (Or.inr ⟨rfl, p, hpl, hp, rfl⟩))

theorem bef_eraseD {l : List Nat} {j : Nat} {x y : Nat} (hj : j < l.length)
    (h : bef (eraseD l j) x y) : bef l x y := by
  obtain ⟨p, q, hpq, hq, hx, hy⟩ := h
  rw [length_eraseD hj] at hq
  rcases Nat.lt_or_ge q j with hqj | hqj
  · refine ⟨p, q, hpq, by omega, ?_, ?_⟩
    · rw [← eraseD_getD_lt (show p < j by omega) (show p < l.length by omega)]; exact hx
    · rw [← eraseD_getD_lt hqj (show q < l.length by omega)]; exact hy
  · rcases Nat.lt_or_ge p j with hpj | hpj
    · refine ⟨p, q + 1, by omega, by omega, ?_, ?_⟩
      · rw [← eraseD_getD_lt hpj (show p < l.length by omega)]; exact hx
      · rw [← eraseD_getD_ge hqj hj]; exact hy
    · refine ⟨p + 1, q + 1, by omega, by omega, ?_, ?_⟩
      · rw [← eraseD_getD_ge hpj hj]; exact hx
      · rw [← eraseD_getD_ge hqj hj]; exact hy

theorem faces_eq_map (s : Simp) : faces s = (List.range s.length).map (eraseD s) := rfl

theorem mem_faces {s G : Simp} : G ∈ faces s ↔ ∃ j, j < s.length ∧ G = eraseD s j := by
  rw [faces_eq_map]
  simp only [List.mem_map, List.mem_range]
  constructor
  · rintro ⟨j, hj, he⟩; exact ⟨j, hj, he.symm⟩
  · rintro ⟨j, hj, he⟩; exact ⟨j, hj, he.symm⟩

theorem eraseD_mem_faces {s : Simp} {j : Nat} (hj : j < s.length) : eraseD s j ∈ faces s :=
  mem_faces.mpr ⟨j, hj, rfl⟩

theorem length_of_mem_faces {s G : Simp} (h : G ∈ faces s) : G.length + 1 = s.length := by
  obtain ⟨j, hj, he⟩ := mem_faces.mp h
  rw [he, length_eraseD hj]
  omega

theorem mem_of_mem_faces {s G : Simp} (h : G ∈ faces s) {t : Nat} (ht : t ∈ G) : t ∈ s := by
  obtain ⟨j, hj, he⟩ := mem_faces.mp h
  exact mem_eraseD (he ▸ ht)

theorem nodup_of_mem_faces {s G : Simp} (hs : s.Nodup) (h : G ∈ faces s) : G.Nodup := by
  obtain ⟨j, hj, he⟩ := mem_faces.mp h
  exact he ▸ nodup_eraseD j hs

theorem bef_of_mem_faces {s G : Simp} (h : G ∈ faces s) {x y : Nat} (hb : bef G x y) :
    bef s x y := by
  obtain ⟨j, hj, he⟩ := mem_faces.mp h
  exact bef_eraseD hj (he ▸ hb)

theorem bef_faces {s : Simp} (hlen : 3 ≤ s.length) {x y : Nat} (h : bef s x y) :
    ∃ G ∈ faces s, bef G x y := by
  obtain ⟨p, q, hpq, hq, hx, hy⟩ := h
  have hm : ∃ m, m < s.length ∧ m ≠ p ∧ m ≠ q := by
    by_cases h0 : p = 0 ∨ q = 0
    · by_cases h1 : p = 1 ∨ q = 1
      · exact ⟨2, by omega, by omega, by omega⟩
      · exact ⟨1, by omega, by omega, by omega⟩
    · exact ⟨0, by omega, by omega, by omega⟩
  obtain ⟨m, hm, hmp, hmq⟩ := hm
  refine ⟨eraseD s m, eraseD_mem_faces hm, ?_⟩
  rcases Nat.lt_or_ge q m with hqm | hqm
  · refine ⟨p, q, hpq, by rw [length_eraseD hm]; omega, ?_, ?_⟩
    · rw [eraseD_getD_lt (show p < m by omega) (by omega)]; exact hx
    · rw [eraseD_getD_lt hqm (by omega)]; exact hy
  · rcases Nat.lt_or_ge p m with hpm | hpm
    · refine ⟨p, q - 1, by omega, by rw [length_eraseD hm]; omega, ?_, ?_⟩
      · rw [eraseD_getD_lt hpm (by omega)]; exact hx
      · rw [eraseD_getD_ge (show m ≤ q - 1 by omega) hm,
          show q - 1 + 1 = q by omega]; exact hy
    · refine ⟨p - 1, q - 1, by omega, by rw [length_eraseD hm]; omega, ?_, ?_⟩
      · rw [eraseD_getD_ge (show m ≤ p - 1 by omega) hm,
          show p - 1 + 1 = p by omega]; exact hx
      · rw [eraseD_getD_ge (show m ≤ q - 1 by omega) hm,
          show q - 1 + 1 = q by omega]; exact hy

theorem insAt_eraseD_self {l : List Nat} {i : Nat} (x : Nat) (hi : i ≤ l.length) :
    eraseD (insAt l i x) i = l := by
  apply list_eq_of_getD
  · rw [length_eraseD (by rw [length_insAt]; omega), length_insAt]
    omega
  · intro n hn
    rw [length_eraseD (by rw [length_insAt]; omega), length_insAt] at hn
    rcases Nat.lt_or_ge n i with hni | hni
    · rw [eraseD_getD_lt hni (by rw [length_insAt]; omega), insAt_getD_lt x hni (by omega)]
    · rw [eraseD_getD_ge hni (by rw [length_insAt]; omega), insAt_getD_ge x hni hi]

theorem eraseD_insAt_lt {l : List Nat} {i j : Nat} (x : Nat) (hj : j < i) (hi : i ≤ l.length) :
    eraseD (insAt l i x) j = insAt (eraseD l j) (i - 1) x := by
  have hjl : j < l.length := by omega
  have hIlen : (insAt l i x).length = l.length + 1 := length_insAt l i x
  have hElen : (eraseD l j).length = l.length - 1 := length_eraseD hjl
  apply list_eq_of_getD
  · rw [length_eraseD (by omega), hIlen, length_insAt, hElen]
    omega
  · intro n hn
    rw [length_eraseD (by omega), hIlen] at hn
    rcases Nat.lt_or_ge n j with hnj | hnj
    · rw [eraseD_getD_lt hnj (by omega), insAt_getD_lt x (by omega) (by omega),
        insAt_getD_lt x (by omega) (by omega), eraseD_getD_lt hnj (by omega)]
    · rcases Nat.lt_or_ge n (i - 1) with hni | hni
      · rw [eraseD_getD_ge hnj (by omega), insAt_getD_lt x (by omega) (by omega),
          insAt_getD_lt x hni (by omega), eraseD_getD_ge hnj hjl]
      · rcases Nat.eq_or_lt_of_le hni with hni2 | hni2
        · rw [eraseD_getD_ge hnj (by omega), show n + 1 = i by omega,
            insAt_getD_self x hi, ← hni2, insAt_getD_self x (by omega)]
        · rw [eraseD_getD_ge hnj (by omega), show n + 1 = (n : Nat) + 1 from rfl,
            insAt_getD_ge x (by omega) hi,
            show (n : Nat) = (n - 1) + 1 by omega,
            insAt_getD_ge x (by omega) (by omega),
            eraseD_getD_ge (by omega) hjl, show n - 1 + 1 = n by omega]

theorem eraseD_insAt_ge {l : List Nat} {i j : Nat} (x : Nat) (hj : i < j) (hjl : j ≤ l.length)
    (hi : i ≤ l.length) : eraseD (insAt l i x) j = insAt (eraseD l (j - 1)) i x := by
  have hj1 : j - 1 < l.length := by omega
  have hIlen : (insAt l i x).length = l.length + 1 := length_insAt l i x
  have hElen : (eraseD l (j - 1)).length = l.length - 1 := length_eraseD hj1
  apply list_eq_of_getD
  · rw [length_eraseD (by omega), hIlen, length_insAt, hElen]
    omega
  · intro n hn
    rw [length_eraseD (by omega), hIlen] at hn
    rcases Nat.lt_or_ge n i with hni | hni
    · have hL : (eraseD (insAt l i x) j).getD n 0 = l.getD n 0 := by
        rw [eraseD_getD_lt (show n < j by omega) (show n < (insAt l i x).length by omega),
          insAt_getD_lt x hni (by omega)]
      have hR : (insAt (eraseD l (j - 1)) i x).getD n 0 = l.getD n 0 := by
        rw [insAt_getD_lt x hni (show n < (eraseD l (j - 1)).length by omega),
          eraseD_getD_lt (show n < j - 1 by omega) (by omega)]
      rw [hL, hR]
    · rcases Nat.eq_or_lt_of_le hni with hni2 | hni2
      · have hL : (eraseD (insAt l i x) j).getD n 0 = x := by
          rw [eraseD_getD_lt (show n < j by omega) (show n < (insAt l i x).length by omega),
            ← hni2, insAt_getD_self x hi]
        have hR : (insAt (eraseD l (j - 1)) i x).getD n 0 = x := by
          rw [← hni2, insAt_getD_self x (show i ≤ (eraseD l (j - 1)).length by omega)]
        rw [hL, hR]
      · obtain ⟨m, rfl⟩ : ∃ m, n = m + 1 := ⟨n - 1, by omega⟩
        rcases Nat.lt_or_ge (m + 1) j with hmj | hmj
        · have hL : (eraseD (insAt l i x) j).getD (m + 1) 0 = l.getD m 0 := by
            rw [eraseD_getD_lt hmj (show m + 1 < (insAt l i x).length by omega),
              insAt_getD_ge x (show i ≤ m by omega) hi]
          have hR : (insAt (eraseD l (j - 1)) i x).getD (m + 1) 0 = l.getD m 0 := by
            rw [insAt_getD_ge x (show i ≤ m by omega)
                (show i ≤ (eraseD l (j - 1)).length by omega),
              eraseD_getD_lt (show m < j - 1 by omega) (by omega)]
          rw [hL, hR]
        · have hL : (eraseD (insAt l i x) j).getD (m + 1) 0 = l.getD (m + 1) 0 := by
            rw [eraseD_getD_ge (show j ≤ m + 1 by omega)
                (show j < (insAt l i x).length by omega)]
            rw [insAt_getD_ge x (show i ≤ m + 1 by omega) hi]
          have hR : (insAt (eraseD l (j - 1)) i x).getD (m + 1) 0 = l.getD (m + 1) 0 := by
            rw [insAt_getD_ge x (show i ≤ m by omega)
                (show i ≤ (eraseD l (j - 1)).length by omega),
              eraseD_getD_ge (show j - 1 ≤ m by omega) hj1]
          rw [hL, hR]

theorem self_mem_faces_insAt {l : List Nat} {i : Nat} (x : Nat) (hi : i ≤ l.length) :
    l ∈ faces (insAt l i x) := by
  have h2 : eraseD (insAt l i x) i ∈ faces (insAt l i x) :=
    eraseD_mem_faces (by rw [length_insAt]; omega)
  rw [insAt_eraseD_self x hi] at h2
  exact h2

theorem faces_insAt_cases {l : List Nat} {i : Nat} (x : Nat) (hi : i ≤ l.length) {G : Simp}
    (h : G ∈ faces (insAt l i x)) :
    G = l ∨ ∃ a, a < l.length ∧ G = insAt (eraseD l a) (if a < i then i - 1 else i) x := by
  obtain ⟨j, hj, he⟩ := mem_faces.mp h
  rw [length_insAt] at hj
  rcases Nat.lt_trichotomy j i with hji | hji | hji
  · right
    exact ⟨j, by omega, by rw [he, eraseD_insAt_lt x hji hi, if_pos hji]⟩
  · left
    rw [he, hji, insAt_eraseD_self x hi]
  · right
    refine ⟨j - 1, by omega, ?_⟩
    have hg := eraseD_insAt_ge x hji (by omega) hi
    rw [he, hg, if_neg (by omega)]

theorem insAt_eraseD_mem_faces {l : List Nat} {i a : Nat} (x : Nat) (ha : a < l.length)
    (hi : i ≤ l.length) :
    insAt (eraseD l a) (if a < i then i - 1 else i) x ∈ faces (insAt l i x) := by
  rcases Nat.lt_or_ge a i with hai | hai
  · rw [if_pos hai, ← eraseD_insAt_lt x hai hi]
    exact eraseD_mem_faces (by rw [length_insAt]; omega)
  · rw [if_neg (by omega)]
    have hg := eraseD_insAt_ge x (show i < a + 1 by omega) (show a + 1 ≤ l.length by omega) hi
    rw [show a + 1 - 1 = a from rfl] at hg
    rw [← hg]
    exact eraseD_mem_faces (by rw [length_insAt]; omega)

/-! ### Effect lemmas for the map operations -/

theorem mapContainsKey_iff {m : SMap} {k : Simp} :
    mapContainsKey m k = true ↔ ∃ s, (k, s) ∈ m := by
  rw [mapContainsKey, List.any_eq_true]
  constructor
  · rintro ⟨⟨a, b⟩, hp, he⟩
    have ha : a = k := by simpa using he
    subst ha
    exact ⟨b, hp⟩
  · rintro ⟨s, hs⟩
    exact ⟨(k, s), hs, by simp⟩

theorem mem_mapLookup_getD {m : SMap} {k : Simp} {x : Nat}
    (h : x ∈ (mapLookup m k).getD []) : ∃ s, (k, s) ∈ m ∧ x ∈ s := by
  rw [mapLookup] at h
  cases hf : m.find? (fun p => p.1 == k) with
  | none => rw [hf] at h; simp at h
  | some p =>
    rw [hf] at h
    obtain ⟨a, b⟩ := p
    have he : a = k := by simpa using List.find?_some hf
    subst he
    refine ⟨b, List.mem_of_find?_eq_some hf, ?_⟩
    simpa using h

theorem mapLookup_getD_containsKey {m : SMap} {k : Simp} {x : Nat}
    (h : x ∈ (mapLookup m k).getD []) : mapContainsKey m k = true := by
  obtain ⟨s, hs, _⟩ := mem_mapLookup_getD h
  exact mapContainsKey_iff.mpr ⟨s, hs⟩

theorem mem_mapEntryInsert {m : SMap} {k : Simp} {v : Nat} {p : Simp × List Nat}
    (h : p ∈ mapEntryInsert m k v) :
    p ∈ m ∨ (p.1 = k ∧ (p.2 = [v] ∨ ∃ s, (k, s) ∈ m ∧ p.2 = setInsert v s)) := by
  induction m with
  | nil =>
    rw [mapEntryInsert] at h
    right
    rw [List.mem_singleton.mp h]
    exact ⟨rfl, Or.inl rfl⟩
  | cons q rest ih =>
    obtain ⟨k1, s1⟩ := q
    rw [mapEntryInsert] at h
    by_cases hk : k1 = k
    · rw [if_pos (by simpa using hk)] at h
      rcases List.mem_cons.mp h with he | hm
      · right
        rw [he]
        refine ⟨hk, Or.inr ⟨s1, ?_, rfl⟩⟩
        rw [← hk]
        exact List.mem_cons_self _ _
      · left
        exact List.mem_cons_of_mem _ hm
    · rw [if_neg (by simpa using hk)] at h
      rcases List.mem_cons.mp h with he | hm
      · left
        rw [he]
        exact List.mem_cons_self _ _
      · rcases ih hm with h1 | ⟨h2, h3⟩
        · left
          exact List.mem_cons_of_mem _ h1
        · right
          refine ⟨h2, ?_⟩
          rcases h3 with h3 | ⟨s, hs, he2⟩
          · exact Or.inl h3
          · exact Or.inr ⟨s, List.mem_cons_of_mem _ hs, he2⟩

theorem mapEntryInsert_keeps {m : SMap} {k : Simp} {v : Nat} {q : Simp} {s : List Nat}
    (h : (q, s) ∈ m) : ∃ s2, (q, s2) ∈ mapEntryInsert m k v := by
  induction m with
  | nil => simp at h
  | cons p rest ih =>
    obtain ⟨k1, s1⟩ := p
    rw [mapEntryInsert]
    by_cases hk : k1 = k
    · rw [if_pos (by simpa using hk)]
      rcases List.mem_cons.mp h with he | hm
      · rw [show q = k1 from (Prod.mk.injEq _ _ _ _ ▸ he).1]
        exact ⟨setInsert v s1, List.mem_cons_self _ _⟩
      · exact ⟨s, List.mem_cons_of_mem _ hm⟩
    · rw [if_neg (by simpa using hk)]
      rcases List.mem_cons.mp h with he | hm
      · rw [show q = k1 from (Prod.mk.injEq _ _ _ _ ▸ he).1]
        exact ⟨s1, List.mem_cons_self _ _⟩
      · obtain ⟨s2, hs2⟩ := ih hm
        exact ⟨s2, List.mem_cons_of_mem _ hs2⟩

theorem mapEntryInsert_self_mem (m : SMap) (k : Simp) (v : Nat) :
    ∃ s2, (k, s2) ∈ mapEntryInsert m k v := by
  induction m with
  | nil =>
    rw [mapEntryInsert]
    exact ⟨[v], List.mem_singleton.mpr rfl⟩
  | cons p rest ih =>
    obtain ⟨k1, s1⟩ := p
    rw [mapEntryInsert]
    by_cases hk : k1 = k
    · rw [if_pos (by simpa using hk)]
      subst hk
      exact ⟨setInsert v s1, List.mem_cons_self _ _⟩
    · rw [if_neg (by simpa using hk)]
      obtain ⟨s2, hs2⟩ := ih
      exact ⟨s2, List.mem_cons_of_mem _ hs2⟩

theorem mapEntryInsert_containsKey (m : SMap) (k : Simp) (v : Nat) (q : Simp) :
    mapContainsKey (mapEntryInsert m k v) q = true ↔
      mapContainsKey m q = true ∨ q = k := by
  rw [mapContainsKey_iff, mapContainsKey_iff]
  constructor
  · rintro ⟨s, hs⟩
    rcases mem_mapEntryInsert hs with h1 | ⟨h2, _⟩
    · exact Or.inl ⟨s, h1⟩
    · exact Or.inr h2
  · rintro (⟨s, hs⟩ | he)
    · exact mapEntryInsert_keeps hs
    · rw [he]
      exact mapEntryInsert_self_mem m k v

theorem mapEntryInsert_lookup_self (m : SMap) (k : Simp) (v : Nat) :
    mapLookup (mapEntryInsert m k v) k =
      some (setInsert v ((mapLookup m k).getD [])) := by
  induction m with
  | nil =>
    rw [mapEntryInsert, mapLookup, mapLookup]
    simp [setInsert]
  | cons p rest ih =>
    obtain ⟨k1, s1⟩ := p
    rw [mapEntryInsert]
    by_cases hk : k1 = k
    · rw [if_pos (by simpa using hk)]
      rw [mapLookup, List.find?_cons_of_pos _ (by simpa using hk)]
      have hR : mapLookup ((k1, s1) :: rest) k = some s1 := by
        rw [mapLookup, List.find?_cons_of_pos _ (by simpa using hk)]
        rfl
      rw [hR]
      rfl
    · rw [if_neg (by simpa using hk)]
      have hL : mapLookup ((k1, s1) :: mapEntryInsert rest k v) k =
          mapLookup (mapEntryInsert rest k v) k := by
        rw [mapLookup, List.find?_cons_of_neg _ (by simpa using hk)]
        rfl
      have hR : mapLookup ((k1, s1) :: rest) k = mapLookup rest k := by
        rw [mapLookup, List.find?_cons_of_neg _ (by simpa using hk)]
        rfl
      rw [hL, hR, ih]

theorem mapEntryInsert_lookup_other (m : SMap) (k : Simp) (v : Nat) {q : Simp}
    (hq : q ≠ k) : mapLookup (mapEntryInsert m k v) q = mapLookup m q := by
  induction m with
  | nil =>
    rw [mapEntryInsert, mapLookup, mapLookup]
    rw [List.find?_cons_of_neg _ (by simp; exact fun h => hq h.symm)]
  | cons p rest ih =>
    obtain ⟨k1, s1⟩ := p
    rw [mapEntryInsert]
    by_cases hk : k1 = k
    · rw [if_pos (by simpa using hk)]
      have hne : ¬(k1 = q) := by
        intro h
        exact hq (by rw [← h, hk])
      have hL : mapLookup ((k1, setInsert v s1) :: rest) q = mapLookup rest q := by
        rw [mapLookup, List.find?_cons_of_neg _ (by simpa using hne)]
        rfl
      have hR : mapLookup ((k1, s1) :: rest) q = mapLookup rest q := by
        rw [mapLookup, List.find?_cons_of_neg _ (by simpa using hne)]
        rfl
      rw [hL, hR]
    · rw [if_neg (by simpa using hk)]
      by_cases hk1q : k1 = q
      · have hL : mapLookup ((k1, s1) :: mapEntryInsert rest k v) q = some s1 := by
          rw [mapLookup, List.find?_cons_of_pos _ (by simpa using hk1q)]
          rfl
        have hR : mapLookup ((k1, s1) :: rest) q = some s1 := by
          rw [mapLookup, List.find?_cons_of_pos _ (by simpa using hk1q)]
          rfl
        rw [hL, hR]
      · have hL : mapLookup ((k1, s1) :: mapEntryInsert rest k v) q =
            mapLookup (mapEntryInsert rest k v) q := by
          rw [mapLookup, List.find?_cons_of_neg _ (by simpa using hk1q)]
          rfl
        have hR : mapLookup ((k1, s1) :: rest) q = mapLookup rest q := by
          rw [mapLookup, List.find?_cons_of_neg _ (by simpa using hk1q)]
          rfl
        rw [hL, hR, ih]

theorem mem_mapInsertSet {m : SMap} {k : Simp} {v : List Nat} {p : Simp × List Nat}
    (h : p ∈ mapInsertSet m k v) : p ∈ m ∨ p = (k, v) := by
  induction m with
  | nil =>
    rw [mapInsertSet] at h
    exact Or.inr (List.mem_singleton.mp h)
  | cons q rest ih =>
    obtain ⟨k1, s1⟩ := q
    rw [mapInsertSet] at h
    by_cases hk : k1 = k
    · rw [if_pos (by simpa using hk)] at h
      rcases List.mem_cons.mp h with he | hm
      · rw [he, hk]
        exact Or.inr rfl
      · exact Or.inl (List.mem_cons_of_mem _ hm)
    · rw [if_neg (by simpa using hk)] at h
      rcases List.mem_cons.mp h with he | hm
      · rw [he]
        exact Or.inl (List.mem_cons_self _ _)
      · rcases ih hm with h1 | h1
        · exact Or.inl (List.mem_cons_of_mem _ h1)
        · exact Or.inr h1

theorem mapInsertSet_keeps {m : SMap} {k : Simp} {v : List Nat} {q : Simp} {s : List Nat}
    (h : (q, s) ∈ m) : ∃ s2, (q, s2) ∈ mapInsertSet m k v := by
  induction m with
  | nil => simp at h
  | cons p rest ih =>
    obtain ⟨k1, s1⟩ := p
    rw [mapInsertSet]
    by_cases hk : k1 = k
    · rw [if_pos (by simpa using hk)]
      rcases List.mem_cons.mp h with he | hm
      · rw [show q = k1 from (Prod.mk.injEq _ _ _ _ ▸ he).1]
        exact ⟨v, List.mem_cons_self _ _⟩
      · exact ⟨s, List.mem_cons_of_mem _ hm⟩
    · rw [if_neg (by simpa using hk)]
      rcases List.mem_cons.mp h with he | hm
      · rw [show q = k1 from (Prod.mk.injEq _ _ _ _ ▸ he).1]
        exact ⟨s1, List.mem_cons_self _ _⟩
      · obtain ⟨s2, hs2⟩ := ih hm
        exact ⟨s2, List.mem_cons_of_mem _ hs2⟩

theorem mapInsertSet_self_mem (m : SMap) (k : Simp) (v : List Nat) :
    (k, v) ∈ mapInsertSet m k v := by
  induction m with
  | nil =>
    rw [mapInsertSet]
    exact List.mem_singleton.mpr rfl
  | cons p rest ih =>
    obtain ⟨k1, s1⟩ := p
    rw [mapInsertSet]
    by_cases hk : k1 = k
    · rw [if_pos (by simpa using hk)]
      subst hk
      exact List.mem_cons_self _ _
    · rw [if_neg (by simpa using hk)]
      exact List.mem_cons_of_mem _ ih

theorem mapInsertSet_containsKey (m : SMap) (k : Simp) (v : List Nat) (q : Simp) :
    mapContainsKey (mapInsertSet m k v) q = true ↔
      mapContainsKey m q = true ∨ q = k := by
  rw [mapContainsKey_iff, mapContainsKey_iff]
  constructor
  · rintro ⟨s, hs⟩
    rcases mem_mapInsertSet hs with h1 | h1
    · exact Or.inl ⟨s, h1⟩
    · exact Or.inr (by simpa using (Prod.mk.injEq _ _ _ _ ▸ h1).1)
  · rintro (⟨s, hs⟩ | he)
    · exact mapInsertSet_keeps hs
    · rw [he]
      exact ⟨v, mapInsertSet_self_mem m k v⟩

theorem mapInsertSet_lookup_other (m : SMap) (k : Simp) (v : List Nat) {q : Simp}
    (hq : q ≠ k) : mapLookup (mapInsertSet m k v) q = mapLookup m q := by
  induction m with
  | nil =>
    rw [mapInsertSet, mapLookup, mapLookup]
    rw [List.find?_cons_of_neg _ (by simp; exact fun h => hq h.symm)]
  | cons p rest ih =>
    obtain ⟨k1, s1⟩ := p
    rw [mapInsertSet]
    by_cases hk : k1 = k
    · rw [if_pos (by simpa using hk)]
      have hne : ¬(k1 = q) := by
        intro h
        exact hq (by rw [← h, hk])
      have hL : mapLookup ((k1, v) :: rest) q = mapLookup rest q := by
        rw [mapLookup, List.find?_cons_of_neg _ (by simpa using hne)]
        rfl
      have hR : mapLookup ((k1, s1) :: rest) q = mapLookup rest q := by
        rw [mapLookup, List.find?_cons_of_neg _ (by simpa using hne)]
        rfl
      rw [hL, hR]
    · rw [if_neg (by simpa using hk)]
      by_cases hk1q : k1 = q
      · have hL : mapLookup ((k1, s1) :: mapInsertSet rest k v) q = some s1 := by
          rw [mapLookup, List.find?_cons_of_pos _ (by simpa using hk1q)]
          rfl
        have hR : mapLookup ((k1, s1) :: rest) q = some s1 := by
          rw [mapLookup, List.find?_cons_of_pos _ (by simpa using hk1q)]
          rfl
        rw [hL, hR]
      · have hL : mapLookup ((k1, s1) :: mapInsertSet rest k v) q =
            mapLookup (mapInsertSet rest k v) q := by
          rw [mapLookup, List.find?_cons_of_neg _ (by simpa using hk1q)]
          rfl
        have hR : mapLookup ((k1, s1) :: rest) q = mapLookup rest q := by
          rw [mapLookup, List.find?_cons_of_neg _ (by simpa using hk1q)]
          rfl
        rw [hL, hR, ih]

theorem bmapInsert_eq_append {b : BMap} {k : Nat} {s : Simp}
    (hk : ∀ p ∈ b, p.1 ≠ k) (hs : bmapContainsRight b s = false) :
    bmapInsert b k s = b ++ [(k, s)] := by
  rw [bmapInsert]
  congr 1
  apply List.filter_eq_self.mpr
  intro p hp
  have h1 : p.1 ≠ k := hk p hp
  have h2 : p.2 ≠ s := by
    intro he
    rw [bmapContainsRight] at hs
    have : b.any (fun q => q.2 == s) = true :=
      List.any_eq_true.mpr ⟨p, hp, by simpa using he⟩
    rw [hs] at this
    exact Bool.false_ne_true this
  simp [h1, h2]

theorem bmapContainsRight_iff {b : BMap} {s : Simp} :
    bmapContainsRight b s = true ↔ ∃ k, (k, s) ∈ b := by
  rw [bmapContainsRight, List.any_eq_true]
  constructor
  · rintro ⟨⟨a, c⟩, hp, he⟩
    have hc : c = s := by simpa using he
    subst hc
    exact ⟨a, hp⟩
  · rintro ⟨k, hk⟩
    exact ⟨(k, s), hk, by simp⟩

theorem bmapContainsRight_append {b : BMap} {k : Nat} {s q : Simp} :
    bmapContainsRight (b ++ [(k, s)]) q = true ↔
      bmapContainsRight b q = true ∨ q = s := by
  rw [bmapContainsRight_iff, bmapContainsRight_iff]
  constructor
  · rintro ⟨k2, hk2⟩
    rcases List.mem_append.mp hk2 with h | h
    · exact Or.inl ⟨k2, h⟩
    · right
      have := List.mem_singleton.mp h
      exact (Prod.mk.injEq _ _ _ _ ▸ this).2
  · rintro (⟨k2, hk2⟩ | he)
    · exact ⟨k2, List.mem_append.mpr (Or.inl hk2)⟩
    · rw [he]
      exact ⟨k, List.mem_append.mpr (Or.inr (List.mem_singleton.mpr rfl))⟩

/-! ### State accessors and their update laws -/

theorem list_getD_set {α : Type} (l : List α) (i d : Nat) (x dflt : α) :
    (l.set i x).getD d dflt =
      if d = i ∧ i < l.length then x else l.getD d dflt := by
  by_cases h : d = i ∧ i < l.length
  · obtain ⟨rfl, hi⟩ := h
    rw [if_pos ⟨rfl, hi⟩, List.getD_eq_getElem?_getD, List.getElem?_set_self hi]
    rfl
  · rw [if_neg h]
    by_cases hdi : d = i
    · subst hdi
      have hli : ¬(d < l.length) := fun hc => h ⟨rfl, hc⟩
      rw [List.getD_eq_getElem?_getD, List.getD_eq_getElem?_getD, List.getElem?_set,
        if_pos rfl, if_neg hli, List.getElem?_eq_none (by omega)]
    · rw [List.getD_eq_getElem?_getD, List.getD_eq_getElem?_getD,
        List.getElem?_set_ne (fun hc => hdi hc.symm)]

theorem list_getD_append_nil {α : Type} (l : List (List α)) (d : Nat) :
    (l ++ [([] : List α)]).getD d [] = l.getD d [] := by
  rcases Nat.lt_trichotomy d l.length with h | h | h
  · rw [List.getD_eq_getElem?_getD, List.getD_eq_getElem?_getD, List.getElem?_append,
      if_pos h]
  · subst h
    rw [List.getD_eq_getElem?_getD, List.getD_eq_getElem?_getD,
      List.getElem?_concat_length, List.getElem?_eq_none (by omega)]
    rfl
  · rw [List.getD_eq_getElem?_getD, List.getD_eq_getElem?_getD,
      List.getElem?_eq_none (by simp; omega), List.getElem?_eq_none (by omega)]

def smapAt (st : SC) (d : Nat) : SMap := st.simplices.getD d []

def bmapAt (st : SC) (d : Nat) : BMap := st.simplex_indices.getD d []

def isKey (st : SC) (d : Nat) (S : Simp) : Prop := mapContainsKey (smapAt st d) S = true

def cofAt (st : SC) (d : Nat) (F : Simp) : List Nat := (mapLookup (smapAt st d) F).getD []

theorem updSMaps_getD (l : List SMap) (i : Nat) (f : SMap → SMap) (d : Nat) :
    (updSMaps l i f).getD d [] =
      if d = i ∧ i < l.length then f (l.getD i []) else l.getD d [] := by
  rw [updSMaps, list_getD_set]

theorem updBMaps_getD (l : List BMap) (i : Nat) (f : BMap → BMap) (d : Nat) :
    (updBMaps l i f).getD d [] =
      if d = i ∧ i < l.length then f (l.getD i []) else l.getD d [] := by
  rw [updBMaps, list_getD_set]

/-! ### The cascade invariant -/

/-- Invariant of the simplices, simplex_indices stores maintained by method
add across the coface cascade.  All statements are about the cofacet tables
(smapAt) and slot tables (bmapAt); the boundary matrices play no role in
the closure property. -/
structure SCInv (st : SC) : Prop where
  lenEq : st.simplex_indices.length = st.simplices.length
  keyLen : ∀ d S, isKey st d S → S.length = d + 1
  keyNodup : ∀ d S, isKey st d S → S.Nodup
  closed : ∀ d S, isKey st (d + 1) S → ∀ F ∈ faces S, isKey st d F
  noTwo : ∀ x y, isKey st 1 [x, y] → isKey st 1 [y, x] → False
  pairsKeys : ∀ d S, isKey st d S → ∀ x y, bef S x y → isKey st 1 [x, y]
  cofGood : ∀ d, 1 ≤ d → ∀ F v, v ∈ cofAt st d F →
    ∃ i, i ≤ F.length ∧ ∀ G ∈ faces (insAt F i v), isKey st d G
  cofNotMem : ∀ d F v, v ∈ cofAt st d F → v ∉ F
  cof0Keyed : ∀ x y, y ∈ cofAt st 0 [x] → isKey st 0 [y] ∧ isKey st 0 [x]
  cof0Symm : ∀ x y, y ∈ cofAt st 0 [x] → x ∈ cofAt st 0 [y]
  keySlot : ∀ d S, isKey st d S → bmapContainsRight (bmapAt st d) S = true
  slotKey : ∀ d S, bmapContainsRight (bmapAt st d) S = true → isKey st d S
  slotLefts : ∀ d, ∀ q ∈ bmapAt st d, q.1 ≤ (bmapAt st d).length
  edgeNb : ∀ x y, isKey st 1 [x, y] → y ∈ cofAt st 0 [x]

/-- A directed pair recorded in the symmetric neighbour sets whose reverse
is not yet a 1-simplex key: the state of the edge being inserted while its
coface cascade runs. -/
def Pend (st : SC) (x y : Nat) : Prop :=
  ¬ isKey st 1 [y, x] ∧ y ∈ cofAt st 0 [x] ∧ x ∈ cofAt st 0 [y]

/-- Precondition of one call of method add in the cascade. -/
structure AddPre (st : SC) (T : Simp) : Prop where
  inv : SCInv st
  len2 : 2 ≤ T.length
  nodup : T.Nodup
  lenStore : T.length - 1 ≤ st.simplices.length
  codim2 : 3 ≤ T.length → ∀ F ∈ faces T, ∀ G ∈ faces F, isKey st (T.length - 3) G
  pairs : 3 ≤ T.length → ∀ x y, bef T x y →
    isKey st 1 [x, y] ∨ (T.length = 3 ∧ Pend st x y)

/-- Postcondition of one call of method add in the cascade. -/
structure AddPost (st st' : SC) (T : Simp) : Prop where
  inv : SCInv st'
  monoKey : ∀ d S, isKey st d S → isKey st' d S
  monoCof : ∀ d F x, x ∈ cofAt st d F → x ∈ cofAt st' d F
  monoLen : st.simplices.length ≤ st'.simplices.length
  facets : ∀ F ∈ faces T, isKey st' (T.length - 2) F
  cof0eq : 3 ≤ T.length → ∀ F, cofAt st' 0 F = cofAt st 0 F
  pairs3 : T.length = 3 → ∀ x y, isKey st' 1 [x, y] → isKey st 1 [x, y] ∨ bef T x y
  pairs4 : 4 ≤ T.length → ∀ x y, isKey st' 1 [x, y] → isKey st 1 [x, y]

theorem cofAt_isKey {st : SC} {d : Nat} {F : Simp} {x : Nat} (h : x ∈ cofAt st d F) :
    isKey st d F :=
  mapLookup_getD_containsKey h

/-! ### scGrow transport -/

theorem scGrow_smapAt (st : SC) (n d : Nat) : smapAt (scGrow st n) d = smapAt st d := by
  rw [scGrow]
  split
  · exact list_getD_append_nil _ _
  · rfl

theorem scGrow_bmapAt (st : SC) (n d : Nat) : bmapAt (scGrow st n) d = bmapAt st d := by
  rw [scGrow]
  split
  · exact list_getD_append_nil _ _
  · rfl

theorem scGrow_isKey (st : SC) (n d : Nat) (S : Simp) :
    isKey (scGrow st n) d S ↔ isKey st d S := by
  rw [isKey, isKey, scGrow_smapAt]

theorem scGrow_cofAt (st : SC) (n d : Nat) (F : Simp) :
    cofAt (scGrow st n) d F = cofAt st d F := by
  rw [cofAt, cofAt, scGrow_smapAt]

theorem scGrow_len_ge (st : SC) (n : Nat) :
    st.simplices.length ≤ (scGrow st n).simplices.length := by
  rw [scGrow]
  split
  · simp
  · exact Nat.le_refl _

theorem scGrow_len (st : SC) (n : Nat) (h : n - 1 ≤ st.simplices.length) :
    n ≤ (scGrow st n).simplices.length := by
  rw [scGrow]
  split
  · simp only [List.length_append, List.length_cons, List.length_nil]
    omega
  · omega

theorem scGrow_lenEq (st : SC) (n : Nat) (h : st.simplex_indices.length = st.simplices.length) :
    (scGrow st n).simplex_indices.length = (scGrow st n).simplices.length := by
  rw [scGrow]
  split
  · simp [h]
  · exact h

theorem scGrow_inv {st : SC} (n : Nat) (h : SCInv st) : SCInv (scGrow st n) where
  lenEq := scGrow_lenEq st n h.lenEq
  keyLen := fun d S hS => h.keyLen d S ((scGrow_isKey _ _ _ _).mp hS)
  keyNodup := fun d S hS => h.keyNodup d S ((scGrow_isKey _ _ _ _).mp hS)
  closed := fun d S hS F hF =>
    (scGrow_isKey st n d F).mpr (h.closed d S ((scGrow_isKey _ _ _ _).mp hS) F hF)
  noTwo := fun x y h1 h2 =>
    h.noTwo x y ((scGrow_isKey _ _ _ _).mp h1) ((scGrow_isKey _ _ _ _).mp h2)
  pairsKeys := fun d S hS x y hb =>
    (scGrow_isKey _ _ _ _).mpr (h.pairsKeys d S ((scGrow_isKey _ _ _ _).mp hS) x y hb)
  cofGood := fun d hd F v hv => by
    rw [scGrow_cofAt] at hv
    obtain ⟨i, hi, hall⟩ := h.cofGood d hd F v hv
    exact ⟨i, hi, fun G hG => (scGrow_isKey _ _ _ _).mpr (hall G hG)⟩
  cofNotMem := fun d F v hv => h.cofNotMem d F v (by rwa [scGrow_cofAt] at hv)
  cof0Keyed := fun x y hy => by
    rw [scGrow_cofAt] at hy
    exact ⟨(scGrow_isKey _ _ _ _).mpr (h.cof0Keyed x y hy).1,
      (scGrow_isKey _ _ _ _).mpr (h.cof0Keyed x y hy).2⟩
  cof0Symm := fun x y hy => by
    rw [scGrow_cofAt] at hy ⊢
    exact h.cof0Symm x y hy
  keySlot := fun d S hS => by
    rw [scGrow_bmapAt]
    exact h.keySlot d S ((scGrow_isKey _ _ _ _).mp hS)
  slotKey := fun d S hS => by
    rw [scGrow_bmapAt] at hS
    exact (scGrow_isKey _ _ _ _).mpr (h.slotKey d S hS)
  slotLefts := fun d q hq => by
    rw [scGrow_bmapAt] at hq ⊢
    exact h.slotLefts d q hq
  edgeNb := fun x y hk => by
    rw [scGrow_cofAt]
    exact h.edgeNb x y ((scGrow_isKey _ _ _ _).mp hk)

/-! ### scStep3 effect -/

/-- The fold body of scStep3, named for the effect analysis. -/
def step3Body (simplex : Simp) (acc : SC × List Nat) (p : Nat × Simp) : SC × List Nat :=
  let st := acc.1
  let st := { st with
    simplices := updSMaps st.simplices (simplex.length - 2)
      (fun m => mapEntryInsert m p.2 (simplex.getD p.1 0)) }
  let bm := st.simplex_indices.getD (simplex.length - 2) []
  let index := bm.length + 1
  if bmapContainsRight bm p.2 then
    (st, acc.2 ++ [(bmapGetByRight bm p.2).getD 0])
  else
    let st := { st with
      simplex_indices := updBMaps st.simplex_indices (simplex.length - 2)
        (fun b => bmapInsert b index p.2) }
    let st := { st with
      boundary_matrices := updMats st.boundary_matrices (simplex.length - 2) matAddRow }
    (st, acc.2 ++ [index])

theorem scStep3_eq_fold (st : SC) (simplex : Simp) :
    scStep3 st simplex = (faces simplex).enum.foldl (step3Body simplex) (st, []) := rfl

theorem step3Body_simplices (simplex : Simp) (acc : SC × List Nat) (p : Nat × Simp) :
    (step3Body simplex acc p).1.simplices =
      updSMaps acc.1.simplices (simplex.length - 2)
        (fun m => mapEntryInsert m p.2 (simplex.getD p.1 0)) := by
  rw [step3Body]
  dsimp only
  split <;> rfl

theorem step3Body_bmap (simplex : Simp) (acc : SC × List Nat) (p : Nat × Simp) :
    (step3Body simplex acc p).1.simplex_indices =
      if bmapContainsRight (acc.1.simplex_indices.getD (simplex.length - 2) []) p.2 then
        acc.1.simplex_indices
      else
        updBMaps acc.1.simplex_indices (simplex.length - 2)
          (fun b => bmapInsert b
            ((acc.1.simplex_indices.getD (simplex.length - 2) []).length + 1) p.2) := by
  rw [step3Body]
  dsimp only
  split <;> rfl

theorem mem_lookup_mapEntryInsert {m : SMap} {k : Simp} {v : Nat} {F : Simp} {x : Nat} :
    x ∈ (mapLookup (mapEntryInsert m k v) F).getD [] ↔
      x ∈ (mapLookup m F).getD [] ∨ (F = k ∧ x = v) := by
  by_cases hF : F = k
  · subst hF
    rw [mapEntryInsert_lookup_self]
    simp only [Option.getD_some]
    rw [mem_setInsert]
    tauto
  · rw [mapEntryInsert_lookup_other m k v hF]
    simp [hF]

theorem step3Body_smapAt_ne (simplex : Simp) (acc : SC × List Nat) (p : Nat × Simp)
    {d : Nat} (hd : d ≠ simplex.length - 2) :
    smapAt (step3Body simplex acc p).1 d = smapAt acc.1 d := by
  rw [smapAt, step3Body_simplices, updSMaps_getD, if_neg (fun hc => hd hc.1)]
  rfl

theorem step3Body_smapAt_eq (simplex : Simp) (acc : SC × List Nat) (p : Nat × Simp)
    (hDD : simplex.length - 2 < acc.1.simplices.length) :
    smapAt (step3Body simplex acc p).1 (simplex.length - 2) =
      mapEntryInsert (smapAt acc.1 (simplex.length - 2)) p.2 (simplex.getD p.1 0) := by
  rw [smapAt, step3Body_simplices, updSMaps_getD, if_pos ⟨rfl, hDD⟩]
  rfl

theorem step3Body_simplices_length (simplex : Simp) (acc : SC × List Nat) (p : Nat × Simp) :
    (step3Body simplex acc p).1.simplices.length = acc.1.simplices.length := by
  rw [step3Body_simplices, updSMaps, List.length_set]

theorem step3Body_bmap_length (simplex : Simp) (acc : SC × List Nat) (p : Nat × Simp) :
    (step3Body simplex acc p).1.simplex_indices.length = acc.1.simplex_indices.length := by
  rw [step3Body_bmap]
  split
  · rfl
  · rw [updBMaps, List.length_set]

theorem step3Body_bmapAt_ne (simplex : Simp) (acc : SC × List Nat) (p : Nat × Simp)
    {d : Nat} (hd : d ≠ simplex.length - 2) :
    bmapAt (step3Body simplex acc p).1 d = bmapAt acc.1 d := by
  rw [bmapAt, step3Body_bmap]
  split
  · rfl
  · rw [updBMaps_getD, if_neg (fun hc => hd hc.1)]
    rfl

theorem step3Body_bmapAt_contains (simplex : Simp) (acc : SC × List Nat) (p : Nat × Simp)
    (hBD : simplex.length - 2 < acc.1.simplex_indices.length)
    (hSL : ∀ q ∈ bmapAt acc.1 (simplex.length - 2),
      q.1 ≤ (bmapAt acc.1 (simplex.length - 2)).length) (S : Simp) :
    bmapContainsRight (bmapAt (step3Body simplex acc p).1 (simplex.length - 2)) S = true ↔
      bmapContainsRight (bmapAt acc.1 (simplex.length - 2)) S = true ∨ S = p.2 := by
  rw [bmapAt, step3Body_bmap]
  split
  · rename_i hc
    constructor
    · intro h
      exact Or.inl h
    · rintro (h | h)
      · exact h
      · rw [h]
        exact hc
  · rename_i hc
    rw [updBMaps_getD, if_pos ⟨rfl, hBD⟩]
    have happ : bmapInsert (acc.1.simplex_indices.getD (simplex.length - 2) [])
        ((acc.1.simplex_indices.getD (simplex.length - 2) []).length + 1) p.2 =
        (acc.1.simplex_indices.getD (simplex.length - 2) []) ++
          [((acc.1.simplex_indices.getD (simplex.length - 2) []).length + 1, p.2)] := by
      apply bmapInsert_eq_append
      · intro q hq
        have := hSL q hq
        rw [bmapAt] at this
        omega
      · exact Bool.not_eq_true _ ▸ hc
    rw [happ]
    exact bmapContainsRight_append

theorem step3Body_slotLefts (simplex : Simp) (acc : SC × List Nat) (p : Nat × Simp)
    (hBD : simplex.length - 2 < acc.1.simplex_indices.length)
    (hSL : ∀ q ∈ bmapAt acc.1 (simplex.length - 2),
      q.1 ≤ (bmapAt acc.1 (simplex.length - 2)).length) :
    ∀ q ∈ bmapAt (step3Body simplex acc p).1 (simplex.length - 2),
      q.1 ≤ (bmapAt (step3Body simplex acc p).1 (simplex.length - 2)).length := by
  intro q hq
  rw [bmapAt, step3Body_bmap] at hq ⊢
  revert hq
  split
  · intro hq
    exact hSL q hq
  · rename_i hc
    rw [updBMaps_getD, if_pos ⟨rfl, hBD⟩]
    have happ : bmapInsert (acc.1.simplex_indices.getD (simplex.length - 2) [])
        ((acc.1.simplex_indices.getD (simplex.length - 2) []).length + 1) p.2 =
        (acc.1.simplex_indices.getD (simplex.length - 2) []) ++
          [((acc.1.simplex_indices.getD (simplex.length - 2) []).length + 1, p.2)] := by
      apply bmapInsert_eq_append
      · intro q2 hq2
        have := hSL q2 hq2
        rw [bmapAt] at this
        omega
      · exact Bool.not_eq_true _ ▸ hc
    rw [happ]
    intro hq
    rw [List.length_append]
    rcases List.mem_append.mp hq with h | h
    · have := hSL q h
      rw [bmapAt] at this
      simp only [List.length_cons, List.length_nil]
      omega
    · rw [List.mem_singleton.mp h]
      simp only [List.length_cons, List.length_nil]
      omega

/-- Characterization of the facet-registration fold of method add: keys and
slots at the working level gain exactly the listed faces, cofacet sets gain
exactly the deleted vertices, and every other level is untouched. -/
theorem step3Fold_char (simplex : Simp) :
    ∀ (ps : List (Nat × Simp)) (st0 : SC) (cols : List Nat),
    simplex.length - 2 < st0.simplices.length →
    simplex.length - 2 < st0.simplex_indices.length →
    (∀ q ∈ bmapAt st0 (simplex.length - 2), q.1 ≤ (bmapAt st0 (simplex.length - 2)).length) →
    ∀ r : SC, r = (ps.foldl (step3Body simplex) (st0, cols)).1 →
    r.simplices.length = st0.simplices.length ∧
    r.simplex_indices.length = st0.simplex_indices.length ∧
    (∀ d, d ≠ simplex.length - 2 → smapAt r d = smapAt st0 d) ∧
    (∀ d, d ≠ simplex.length - 2 → bmapAt r d = bmapAt st0 d) ∧
    (∀ S, mapContainsKey (smapAt r (simplex.length - 2)) S = true ↔
      mapContainsKey (smapAt st0 (simplex.length - 2)) S = true ∨ ∃ pr ∈ ps, pr.2 = S) ∧
    (∀ F x, x ∈ (mapLookup (smapAt r (simplex.length - 2)) F).getD [] ↔
      x ∈ (mapLookup (smapAt st0 (simplex.length - 2)) F).getD [] ∨
        ∃ pr ∈ ps, pr.2 = F ∧ x = simplex.getD pr.1 0) ∧
    (∀ S, bmapContainsRight (bmapAt r (simplex.length - 2)) S = true ↔
      bmapContainsRight (bmapAt st0 (simplex.length - 2)) S = true ∨ ∃ pr ∈ ps, pr.2 = S) ∧
    (∀ q ∈ bmapAt r (simplex.length - 2), q.1 ≤ (bmapAt r (simplex.length - 2)).length) := by
  intro ps
  induction ps with
  | nil =>
    intro st0 cols hDD hBD hSL r hr
    rw [List.foldl_nil] at hr
    subst hr
    refine ⟨rfl, rfl, fun d _ => rfl, fun d _ => rfl, ?_, ?_, ?_, hSL⟩
    · intro S
      simp
    · intro F x
      simp
    · intro S
      simp
  | cons p rest ih =>
    intro st0 cols hDD hBD hSL r hr
    rw [List.foldl_cons] at hr
    have hmidDD : simplex.length - 2 < (step3Body simplex (st0, cols) p).1.simplices.length := by
      rw [step3Body_simplices_length]
      exact hDD
    have hmidBD : simplex.length - 2 <
        (step3Body simplex (st0, cols) p).1.simplex_indices.length := by
      rw [step3Body_bmap_length]
      exact hBD
    have hmidSL := step3Body_slotLefts simplex (st0, cols) p hBD hSL
    have hmid := ih (step3Body simplex (st0, cols) p).1
      (step3Body simplex (st0, cols) p).2 hmidDD hmidBD hmidSL r
      (by rw [hr])
    obtain ⟨hL1, hL2, hS1, hB1, hK, hC, hR, hSL2⟩ := hmid
    refine ⟨?_, ?_, ?_, ?_, ?_, ?_, ?_, hSL2⟩
    · rw [hL1, step3Body_simplices_length]
    · rw [hL2, step3Body_bmap_length]
    · intro d hd
      rw [hS1 d hd, step3Body_smapAt_ne simplex (st0, cols) p hd]
    · intro d hd
      rw [hB1 d hd, step3Body_bmapAt_ne simplex (st0, cols) p hd]
    · intro S
      rw [hK S, step3Body_smapAt_eq simplex (st0, cols) p hDD,
        mapEntryInsert_containsKey]
      constructor
      · rintro ((h | h) | h)
        · exact Or.inl h
        · exact Or.inr ⟨p, List.mem_cons_self _ _, h.symm⟩
        · obtain ⟨pr, hpr, he⟩ := h
          exact Or.inr ⟨pr, List.mem_cons_of_mem _ hpr, he⟩
      · rintro (h | ⟨pr, hpr, he⟩)
        · exact Or.inl (Or.inl h)
        · rcases List.mem_cons.mp hpr with h2 | h2
          · exact Or.inl (Or.inr (by rw [h2] at he; exact he.symm))
          · exact Or.inr ⟨pr, h2, he⟩
    · intro F x
      rw [hC F x, step3Body_smapAt_eq simplex (st0, cols) p hDD,
        mem_lookup_mapEntryInsert]
      constructor
      · rintro ((h | ⟨he1, he2⟩) | h)
        · exact Or.inl h
        · exact Or.inr ⟨p, List.mem_cons_self _ _, he1.symm, he2⟩
        · obtain ⟨pr, hpr, he⟩ := h
          exact Or.inr ⟨pr, List.mem_cons_of_mem _ hpr, he⟩
      · rintro (h | ⟨pr, hpr, he1, he2⟩)
        · exact Or.inl (Or.inl h)
        · rcases List.mem_cons.mp hpr with h2 | h2
          · refine Or.inl (Or.inr ⟨?_, ?_⟩)
            · rw [h2] at he1
              exact he1.symm
            · rw [h2] at he2
              exact he2
          · exact Or.inr ⟨pr, h2, he1, he2⟩
    · intro S
      rw [hR S, step3Body_bmapAt_contains simplex (st0, cols) p hBD hSL]
      constructor
      · rintro ((h | h) | h)
        · exact Or.inl h
        · exact Or.inr ⟨p, List.mem_cons_self _ _, h.symm⟩
        · obtain ⟨pr, hpr, he⟩ := h
          exact Or.inr ⟨pr, List.mem_cons_of_mem _ hpr, he⟩
      · rintro (h | ⟨pr, hpr, he⟩)
        · exact Or.inl (Or.inl h)
        · rcases List.mem_cons.mp hpr with h2 | h2
          · exact Or.inl (Or.inr (by rw [h2] at he; exact he.symm))
          · exact Or.inr ⟨pr, h2, he⟩

theorem mem_faces_enum {T : Simp} {pr : Nat × Simp} :
    pr ∈ (faces T).enum ↔ pr.1 < T.length ∧ pr.2 = eraseD T pr.1 := by
  rw [List.mem_enum_iff_getElem?, faces_eq_map, List.getElem?_map]
  constructor
  · intro h
    by_cases hp : pr.1 < T.length
    · rw [List.getElem?_range hp] at h
      have h2 : some (eraseD T pr.1) = some pr.2 := h
      exact ⟨hp, (Option.some.injEq _ _ ▸ h2).symm⟩
    · rw [List.getElem?_eq_none (by simpa using hp)] at h
      simp at h
  · rintro ⟨hp, he⟩
    rw [List.getElem?_range hp]
    simp [he]

/-- All the facts needed downstream about the state after the
facet-registration stage of method add. -/
structure Step3Fact (st : SC) (T : Simp) (r : SC) : Prop where
  lenS : r.simplices.length = st.simplices.length
  lenB : r.simplex_indices.length = st.simplex_indices.length
  smapNe : ∀ d, d ≠ T.length - 2 → smapAt r d = smapAt st d
  bmapNe : ∀ d, d ≠ T.length - 2 → bmapAt r d = bmapAt st d
  keys : ∀ S, mapContainsKey (smapAt r (T.length - 2)) S = true ↔
    mapContainsKey (smapAt st (T.length - 2)) S = true ∨ S ∈ faces T
  cof : ∀ F x, x ∈ (mapLookup (smapAt r (T.length - 2)) F).getD [] ↔
    x ∈ (mapLookup (smapAt st (T.length - 2)) F).getD [] ∨
      ∃ j, j < T.length ∧ F = eraseD T j ∧ x = T.getD j 0
  slotsRight : ∀ S, bmapContainsRight (bmapAt r (T.length - 2)) S = true ↔
    bmapContainsRight (bmapAt st (T.length - 2)) S = true ∨ S ∈ faces T
  slotLefts : ∀ q ∈ bmapAt r (T.length - 2), q.1 ≤ (bmapAt r (T.length - 2)).length

theorem scStep3_fact (st : SC) (T : Simp)
    (hDD : T.length - 2 < st.simplices.length)
    (hBD : T.length - 2 < st.simplex_indices.length)
    (hSL : ∀ q ∈ bmapAt st (T.length - 2), q.1 ≤ (bmapAt st (T.length - 2)).length) :
    Step3Fact st T (scStep3 st T).1 := by
  have h := step3Fold_char T ((faces T).enum) st [] hDD hBD hSL (scStep3 st T).1
    (by rw [scStep3_eq_fold])
  obtain ⟨h1, h2, h3, h4, h5, h6, h7, h8⟩ := h
  refine ⟨h1, h2, h3, h4, ?_, ?_, ?_, h8⟩
  · intro S
    rw [h5 S]
    constructor
    · rintro (h | ⟨pr, hpr, he⟩)
      · exact Or.inl h
      · right
        obtain ⟨hp1, hp2⟩ := mem_faces_enum.mp hpr
        rw [← he, hp2]
        exact eraseD_mem_faces hp1
    · rintro (h | h)
      · exact Or.inl h
      · obtain ⟨j, hj, he⟩ := mem_faces.mp h
        exact Or.inr ⟨(j, S), mem_faces_enum.mpr ⟨hj, he⟩, rfl⟩
  · intro F x
    rw [h6 F x]
    constructor
    · rintro (h | ⟨pr, hpr, he1, he2⟩)
      · exact Or.inl h
      · obtain ⟨hp1, hp2⟩ := mem_faces_enum.mp hpr
        exact Or.inr ⟨pr.1, hp1, by rw [← he1, hp2], he2⟩
    · rintro (h | ⟨j, hj, he1, he2⟩)
      · exact Or.inl h
      · exact Or.inr ⟨(j, F), mem_faces_enum.mpr ⟨hj, he1⟩, rfl, he2⟩
  · intro S
    rw [h7 S]
    constructor
    · rintro (h | ⟨pr, hpr, he⟩)
      · exact Or.inl h
      · right
        obtain ⟨hp1, hp2⟩ := mem_faces_enum.mp hpr
        rw [← he, hp2]
        exact eraseD_mem_faces hp1
    · rintro (h | h)
      · exact Or.inl h
      · obtain ⟨j, hj, he⟩ := mem_faces.mp h
        exact Or.inr ⟨(j, S), mem_faces_enum.mpr ⟨hj, he⟩, rfl⟩

/-! ### Remaining stage effect lemmas -/

theorem scColumn_simplices (st : SC) (T : Simp) (cols : List Nat) :
    (scColumn st T cols).simplices = st.simplices := rfl

theorem scColumn_bmap (st : SC) (T : Simp) (cols : List Nat) :
    (scColumn st T cols).simplex_indices = st.simplex_indices := rfl

theorem mem_setInter {a b : List Nat} {x : Nat} : x ∈ setInter a b ↔ x ∈ a ∧ x ∈ b := by
  rw [setInter, List.mem_filter]
  constructor
  · rintro ⟨h1, h2⟩
    exact ⟨h1, List.elem_iff.mp h2⟩
  · rintro ⟨h1, h2⟩
    exact ⟨h1, List.elem_iff.mpr h2⟩

theorem mem_foldl_setInter (g : Simp → List Nat) :
    ∀ (L : List Simp) (acc : List Nat) (x : Nat),
      x ∈ L.foldl (fun o face => setInter o (g face)) acc →
      x ∈ acc ∧ ∀ F ∈ L, x ∈ g F := by
  intro L
  induction L with
  | nil =>
    intro acc x h
    rw [List.foldl_nil] at h
    exact ⟨h, fun F hF => absurd hF (List.not_mem_nil F)⟩
  | cons F0 rest ih =>
    intro acc x h
    rw [List.foldl_cons] at h
    obtain ⟨h1, h2⟩ := ih _ x h
    obtain ⟨h3, h4⟩ := mem_setInter.mp h1
    refine ⟨h3, ?_⟩
    intro F hF
    rcases List.mem_cons.mp hF with he | hm
    · rw [he]
      exact h4
    · exact h2 F hm

theorem scOptions_mem {st : SC} {T : Simp} {x : Nat} (h : x ∈ scOptions st T) :
    ∀ F ∈ faces T, x ∈ cofAt st (T.length - 2) F := by
  rw [scOptions] at h
  have h2 := mem_foldl_setInter
    (fun face => (mapLookup (st.simplices.getD (T.length - 2) []) face).getD [])
    (faces T) _ x h
  exact h2.2

theorem insAt_append (l : List Nat) (x : Nat) : insAt l l.length x = l ++ [x] := by
  rw [insAt, List.take_length, List.drop_length]

theorem list_find?_first {f : Nat → Bool} :
    ∀ {l : List Nat} {a : Nat}, l.find? f = some a →
      f a = true ∧ ∃ k, k < l.length ∧ l.getD k 0 = a ∧
        ∀ j, j < k → f (l.getD j 0) = false := by
  intro l
  induction l with
  | nil => intro a h; simp at h
  | cons y ys ih =>
    intro a h
    by_cases hy : f y = true
    · rw [List.find?_cons_of_pos _ hy] at h
      have ha : y = a := Option.some.injEq _ _ ▸ h
      subst ha
      exact ⟨hy, 0, by simp, rfl, fun j hj => absurd hj (Nat.not_lt_zero j)⟩
    · rw [List.find?_cons_of_neg _ (by simpa using hy)] at h
      obtain ⟨hf, k, hk, he, hall⟩ := ih h
      refine ⟨hf, k + 1, by simpa using hk, by simpa using he, ?_⟩
      intro j hj
      cases j with
      | zero => simpa using hy
      | succ j2 =>
        rw [List.getD_cons_succ]
        exact hall j2 (by omega)

theorem find?_range_some {f : Nat → Bool} {n i : Nat}
    (h : (List.range n).find? f = some i) :
    f i = true ∧ i < n ∧ ∀ j, j < i → f j = false := by
  obtain ⟨hf, k, hk, he, hall⟩ := list_find?_first h
  rw [List.length_range] at hk
  have hgd : ∀ m, m < n → (List.range n).getD m 0 = m := by
    intro m hm
    rw [List.getD_eq_getElem?_getD, List.getElem?_range hm]
    rfl
  rw [hgd k hk] at he
  subst he
  refine ⟨hf, hk, ?_⟩
  intro j hj
  have := hall j hj
  rwa [hgd j (by omega)] at this

theorem scSuper_char (st : SC) (T : Simp) (node : Nat) :
    (∃ i, i < T.length ∧ scSuper st T node = insAt T i node ∧
      mapContainsKey (smapAt st 1) [node, T.getD i 0] = true ∧
      ∀ j, j < i → mapContainsKey (smapAt st 1) [node, T.getD j 0] = false) ∨
    (scSuper st T node = insAt T T.length node ∧
      ∀ j, j < T.length → mapContainsKey (smapAt st 1) [node, T.getD j 0] = false) := by
  rw [scSuper]
  cases hf : (List.range T.length).find?
      (fun i => mapContainsKey (st.simplices.getD 1 []) [node, T.getD i 0]) with
  | none =>
    right
    refine ⟨by rw [insAt_append], ?_⟩
    intro j hj
    have := List.find?_eq_none.mp hf j (List.mem_range.mpr hj)
    show mapContainsKey (st.simplices.getD 1 []) [node, T.getD j 0] = false
    simpa using this
  | some i =>
    left
    obtain ⟨hf2, hi, hall⟩ := find?_range_some hf
    exact ⟨i, hi, rfl, hf2, hall⟩

theorem scDup_iff {st : SC} {T : Simp} :
    scDup st T = true ↔ T.length = 2 ∧ T.getD 1 0 ∈ cofAt st 0 [T.getD 0 0] := by
  rw [scDup, Bool.and_eq_true]
  constructor
  · rintro ⟨h1, h2⟩
    exact ⟨by simpa using h1, List.elem_iff.mp h2⟩
  · rintro ⟨h1, h2⟩
    exact ⟨by simpa using h1, List.elem_iff.mpr h2⟩

theorem scMaximal_of_contains {st : SC} {T : Simp}
    (h : bmapContainsRight (st.simplex_indices.getD (T.length - 1) []) T = true) :
    scMaximal st T = st := by
  rw [scMaximal]
  dsimp only
  rw [if_pos h]

theorem scMaximal_simplices {st : SC} {T : Simp}
    (h : bmapContainsRight (st.simplex_indices.getD (T.length - 1) []) T = false) :
    (scMaximal st T).simplices =
      updSMaps st.simplices (T.length - 1) (fun m => mapInsertSet m T []) := by
  rw [scMaximal]
  dsimp only
  rw [if_neg (by rw [h]; exact Bool.false_ne_true)]

theorem scMaximal_bmap {st : SC} {T : Simp}
    (h : bmapContainsRight (st.simplex_indices.getD (T.length - 1) []) T = false) :
    (scMaximal st T).simplex_indices =
      updBMaps st.simplex_indices (T.length - 1)
        (fun b => bmapInsert b
          ((st.simplex_indices.getD (T.length - 1) []).length + 1) T) := by
  rw [scMaximal]
  dsimp only
  rw [if_neg (by rw [h]; exact Bool.false_ne_true)]

/-! ### Direction and witness derivations -/

theorem mem_eraseD_of_ne {T : Simp} {p m : Nat} (hp : p < T.length) (hm : m < T.length)
    (hne : p ≠ m) : T.getD p 0 ∈ eraseD T m := by
  rcases Nat.lt_or_ge p m with hpm | hpm
  · have h : (eraseD T m).getD p 0 = T.getD p 0 := eraseD_getD_lt hpm hp
    rw [← h]
    exact getD_mem (by rw [length_eraseD hm]; omega)
  · have hp1 : m ≤ p - 1 := by omega
    have h : (eraseD T m).getD (p - 1) 0 = T.getD (p - 1 + 1) 0 := eraseD_getD_ge hp1 hm
    rw [show p - 1 + 1 = p by omega] at h
    rw [← h]
    exact getD_mem (by rw [length_eraseD hm]; omega)

theorem pairs_of_faces_keyed {st : SC} (inv : SCInv st) {d : Nat} {W : Simp}
    (hW : 3 ≤ W.length) (hfaces : ∀ G ∈ faces W, isKey st d G) {x y : Nat}
    (hb : bef W x y) : isKey st 1 [x, y] := by
  obtain ⟨G, hG, hbG⟩ := bef_faces hW hb
  exact inv.pairsKeys d G (hfaces G hG) x y hbG

theorem cof_witness {st : SC} (inv : SCInv st) {d : Nat} (hd : 1 ≤ d) {F : Simp} {v : Nat}
    (hv : v ∈ cofAt st d F) :
    ∃ i, i ≤ F.length ∧ (∀ G ∈ faces (insAt F i v), isKey st d G) ∧
      F.Nodup ∧ v ∉ F ∧ F.length = d + 1 := by
  have hk : isKey st d F := cofAt_isKey hv
  obtain ⟨i, hi, hall⟩ := inv.cofGood d hd F v hv
  exact ⟨i, hi, hall, inv.keyNodup d F hk, inv.cofNotMem d F v hv, inv.keyLen d F hk⟩

theorem cof_witness_cover {st : SC} (inv : SCInv st) {d : Nat} (hd : 1 ≤ d) {F : Simp}
    {v : Nat} (hv : v ∈ cofAt st d F) {t : Nat} (ht : t ∈ F) :
    isKey st 1 [v, t] ∨ isKey st 1 [t, v] := by
  obtain ⟨i, hi, hall, hnd, hnm, hlen⟩ := cof_witness inv hd hv
  have hW : 3 ≤ (insAt F i v).length := by
    rw [length_insAt]
    omega
  have hvW : v ∈ insAt F i v := (mem_insAt F i v v).mpr (Or.inl rfl)
  have htW : t ∈ insAt F i v := (mem_insAt F i v t).mpr (Or.inr ht)
  have hne : v ≠ t := fun he => hnm (he ▸ ht)
  rcases bef_total hvW htW hne with hb | hb
  · exact Or.inl (pairs_of_faces_keyed inv hW hall hb)
  · exact Or.inr (pairs_of_faces_keyed inv hW hall hb)

theorem triple_dir {st : SC} (inv : SCInv st) {d : Nat} (hd : 1 ≤ d) {F : Simp} {v : Nat}
    (hv : v ∈ cofAt st d F) {a b : Nat} (ha : a ∈ F) (hb : b ∈ F)
    (hva : isKey st 1 [v, a]) (hab : isKey st 1 [a, b]) : isKey st 1 [v, b] := by
  have hane : a ≠ b := by
    intro he
    subst he
    exact inv.noTwo a a hab hab
  obtain ⟨i, hi, hall, hnd, hnm, hlen⟩ := cof_witness inv hd hv
  have hW : 3 ≤ (insAt F i v).length := by
    rw [length_insAt]
    omega
  have hWnd : (insAt F i v).Nodup := nodup_insAt i hnd hnm
  have hvW : v ∈ insAt F i v := (mem_insAt F i v v).mpr (Or.inl rfl)
  have haW : a ∈ insAt F i v := (mem_insAt F i v a).mpr (Or.inr ha)
  have hbW : b ∈ insAt F i v := (mem_insAt F i v b).mpr (Or.inr hb)
  have hbva : bef (insAt F i v) v a := by
    rcases bef_total hvW haW (fun he => hnm (he ▸ ha)) with h2 | h2
    · exact h2
    · exact absurd hva (fun hk => inv.noTwo a v (pairs_of_faces_keyed inv hW hall h2) hk)
  have hbab : bef (insAt F i v) a b := by
    rcases bef_total haW hbW hane with h2 | h2
    · exact h2
    · exact absurd hab (fun hk => inv.noTwo b a (pairs_of_faces_keyed inv hW hall h2) hk)
  exact pairs_of_faces_keyed inv hW hall (bef_trans hWnd hbva hbab)

theorem node_notMem_of_opts {st : SC} (inv : SCInv st) {T : Simp} {node : Nat}
    (hT2 : 2 ≤ T.length)
    (hopts : ∀ F ∈ faces T, node ∈ cofAt st (T.length - 2) F) : node ∉ T := by
  intro hmem
  obtain ⟨p, hp, hpe⟩ := List.getElem_of_mem hmem
  have hpd : T.getD p 0 = node := by
    rw [List.getD_eq_getElem _ _ hp]
    exact hpe
  have hm : ∃ m, m < T.length ∧ m ≠ p := by
    by_cases h0 : p = 0
    · exact ⟨1, by omega, by omega⟩
    · exact ⟨0, by omega, by omega⟩
  obtain ⟨m, hmT, hmp⟩ := hm
  have hmemF : node ∈ eraseD T m := by
    rw [← hpd]
    exact mem_eraseD_of_ne hp hmT (fun he => hmp he.symm)
  have hcof := hopts (eraseD T m) (eraseD_mem_faces hmT)
  exact inv.cofNotMem (T.length - 2) (eraseD T m) node hcof hmemF

/-- Directions of the candidate node against every member of the simplex,
as forced by the insertion point the scan of method add selects. -/
def DirAt (st : SC) (T : Simp) (node : Nat) (i : Nat) : Prop :=
  ∀ p, p < T.length →
    (i ≤ p → isKey st 1 [node, T.getD p 0]) ∧
    (p < i → isKey st 1 [T.getD p 0, node] ∧ ¬ isKey st 1 [node, T.getD p 0])

theorem dirAt_of_scan3 {st : SC} (inv : SCInv st) {T : Simp} {node : Nat}
    (hT3 : 3 ≤ T.length)
    (hopts : ∀ F ∈ faces T, node ∈ cofAt st (T.length - 2) F)
    (hP3 : ∀ x y, bef T x y → isKey st 1 [x, y]) {i : Nat} (hi : i ≤ T.length)
    (hkey : i < T.length → isKey st 1 [node, T.getD i 0])
    (hscan : ∀ j, j < i → ¬ isKey st 1 [node, T.getD j 0]) :
    DirAt st T node i := by
  have hd1 : 1 ≤ T.length - 2 := by omega
  intro p hp
  constructor
  · intro hip
    rcases Nat.eq_or_lt_of_le hip with he | hlt
    · rw [← he]
      exact hkey (by omega)
    · have hm : ∃ m, m < T.length ∧ m ≠ i ∧ m ≠ p := by
        by_cases h0 : i = 0 ∨ p = 0
        · by_cases h1 : i = 1 ∨ p = 1
          · exact ⟨2, by omega, by omega, by omega⟩
          · exact ⟨1, by omega, by omega, by omega⟩
        · exact ⟨0, by omega, by omega, by omega⟩
      obtain ⟨m, hmT, hmi, hmp⟩ := hm
      have hcof := hopts (eraseD T m) (eraseD_mem_faces hmT)
      have haF : T.getD i 0 ∈ eraseD T m :=
        mem_eraseD_of_ne (by omega) hmT (fun he2 => hmi he2.symm)
      have hbF : T.getD p 0 ∈ eraseD T m :=
        mem_eraseD_of_ne hp hmT (fun he2 => hmp he2.symm)
      exact triple_dir inv hd1 hcof haF hbF (hkey (by omega))
        (hP3 _ _ (bef_intro hlt hp))
  · intro hpi
    have hnk := hscan p hpi
    have hm : ∃ m, m < T.length ∧ m ≠ p := by
      by_cases h0 : p = 0
      · exact ⟨1, by omega, by omega⟩
      · exact ⟨0, by omega, by omega⟩
    obtain ⟨m, hmT, hmp⟩ := hm
    have hcof := hopts (eraseD T m) (eraseD_mem_faces hmT)
    have hpF : T.getD p 0 ∈ eraseD T m :=
      mem_eraseD_of_ne hp hmT (fun he2 => hmp he2.symm)
    rcases cof_witness_cover inv hd1 hcof hpF with h | h
    · exact absurd h hnk
    · exact ⟨h, hnk⟩

theorem bef_insAt_keyed_right {st : SC} {T : Simp} {node : Nat} {i : Nat}
    (hi : i ≤ T.length) (hnm : node ∉ T) (hdir : DirAt st T node i) {x : Nat}
    (hb : bef (insAt T i node) node x) : isKey st 1 [node, x] := by
  rcases (bef_insAt_iff node hi node x).mp hb with h | ⟨_, p, hp, hip, he⟩ |
    ⟨hxn, p, hp, _, he⟩
  · exact absurd (bef_mem h).1 hnm
  · rw [← he]
    exact (hdir p hp).1 hip
  · rw [← he] at hnm
    exact absurd (getD_mem hp) hnm

theorem bef_insAt_keyed_left {st : SC} {T : Simp} {node : Nat} {i : Nat}
    (hi : i ≤ T.length) (hnm : node ∉ T) (hdir : DirAt st T node i) {x : Nat}
    (hb : bef (insAt T i node) x node) : isKey st 1 [x, node] := by
  rcases (bef_insAt_iff node hi x node).mp hb with h | ⟨hxn, p, hp, _, he⟩ |
    ⟨_, p, hp, hpi, he⟩
  · exact absurd (bef_mem h).2 hnm
  · rw [← he] at hnm
    exact absurd (getD_mem hp) hnm
  · rw [← he]
    exact ((hdir p hp).2 hpi).1

theorem bef_insAt_resolve {st : SC} {T : Simp} {node : Nat} {i : Nat}
    (hi : i ≤ T.length) (hdir : DirAt st T node i) {x y : Nat}
    (hb : bef (insAt T i node) x y) : bef T x y ∨ isKey st 1 [x, y] := by
  rcases (bef_insAt_iff node hi x y).mp hb with h | ⟨hx, p, hp, hip, he⟩ |
    ⟨hy, p, hp, hpi, he⟩
  · exact Or.inl h
  · right
    rw [hx, ← he]
    exact (hdir p hp).1 hip
  · right
    rw [hy, ← he]
    exact ((hdir p hp).2 hpi).1

theorem insAt_eq_of_keyed {st : SC} (inv : SCInv st) {E : Simp} {node : Nat}
    {i1 i2 : Nat} (h1 : i1 ≤ E.length) (h2 : i2 ≤ E.length)
    (ha1 : ∀ p, p < E.length → i1 ≤ p → isKey st 1 [node, E.getD p 0])
    (hb1 : ∀ p, p < E.length → p < i1 → isKey st 1 [E.getD p 0, node])
    (ha2 : ∀ p, p < E.length → i2 ≤ p → isKey st 1 [node, E.getD p 0])
    (hb2 : ∀ p, p < E.length → p < i2 → isKey st 1 [E.getD p 0, node]) :
    insAt E i1 node = insAt E i2 node := by
  have he : i1 = i2 := by
    rcases Nat.lt_trichotomy i1 i2 with h | h | h
    · exact absurd (ha1 i1 (by omega) (by omega))
        (fun hk => inv.noTwo _ _ hk (hb2 i1 (by omega) h))
    · exact h
    · exact absurd (ha2 i2 (by omega) (by omega))
        (fun hk => inv.noTwo _ _ hk (hb1 i2 (by omega) h))
  rw [he]

/-- The codimension-2 faces of the constructed coface match, position for
position, the faces of the recorded cofacet witnesses, so they are keys. -/
theorem codim2_match {st : SC} (inv : SCInv st) {T : Simp} {node : Nat} {i : Nat}
    (hT3 : 3 ≤ T.length) (hnm : node ∉ T) (hi : i ≤ T.length)
    (hdir : DirAt st T node i)
    (hopts : ∀ F ∈ faces T, node ∈ cofAt st (T.length - 2) F)
    (hfacesT : ∀ F ∈ faces T, isKey st (T.length - 2) F) :
    ∀ F1 ∈ faces (insAt T i node), ∀ G ∈ faces F1, isKey st (T.length - 2) G := by
  intro F1 hF1 G hG
  rcases faces_insAt_cases node hi hF1 with he | ⟨a, ha, he⟩
  · exact hfacesT G (he ▸ hG)
  · subst he
    set F := eraseD T a with hFdef
    have hFlen : F.length = T.length - 1 := length_eraseD ha
    have hFmem : F ∈ faces T := eraseD_mem_faces ha
    have hip : (if a < i then i - 1 else i) ≤ F.length := by
      rw [hFlen]
      split <;> omega
    rcases faces_insAt_cases node hip hG with he2 | ⟨b, hb, he2⟩
    · rw [he2]
      exact hfacesT F hFmem
    · subst he2
      set E := eraseD F b with hEdef
      have hElen : E.length = T.length - 2 := by
        rw [hEdef, length_eraseD (by omega), hFlen]
        omega
      have hd1 : 1 ≤ T.length - 2 := by omega
      obtain ⟨iw, hiw, hallW, hFnd, hnmF, hFlen2⟩ :=
        cof_witness inv hd1 (hopts F hFmem)
      have hKW : isKey st (T.length - 2)
          (insAt E (if b < iw then iw - 1 else iw) node) := by
        apply hallW
        exact insAt_eraseD_mem_faces node hb hiw
      have hKWi : (if b < iw then iw - 1 else iw) ≤ E.length := by
        rw [hElen]
        rw [hFlen] at hiw hb
        split <;> omega
      have hGi : (if b < (if a < i then i - 1 else i) then (if a < i then i - 1 else i) - 1
          else (if a < i then i - 1 else i)) ≤ E.length := by
        rw [hElen]
        rw [hFlen] at hb
        split <;> split <;> omega
      have hEnd : E.Nodup := nodup_eraseD b hFnd
      have hKWpairs : ∀ x y, bef (insAt E (if b < iw then iw - 1 else iw) node) x y →
          isKey st 1 [x, y] :=
        fun x y hbxy => inv.pairsKeys (T.length - 2) _ hKW x y hbxy
      have hnmE : node ∉ E := fun hm => hnmF (mem_eraseD hm)
      have hsup : ∀ x y, bef (insAt T i node) x y →
          (x = node → isKey st 1 [node, y]) ∧ (y = node → isKey st 1 [x, node]) := by
        intro x y hbxy
        constructor
        · intro hx
          exact bef_insAt_keyed_right hi hnm hdir (hx ▸ hbxy)
        · intro hy
          exact bef_insAt_keyed_left hi hnm hdir (hy ▸ hbxy)
      have hGmemF1 : insAt E (if b < (if a < i then i - 1 else i)
          then (if a < i then i - 1 else i) - 1 else (if a < i then i - 1 else i)) node ∈
          faces (insAt F (if a < i then i - 1 else i) node) :=
        insAt_eraseD_mem_faces node hb hip
      have hF1memS : insAt F (if a < i then i - 1 else i) node ∈ faces (insAt T i node) :=
        insAt_eraseD_mem_faces node ha hi
      have heq := insAt_eq_of_keyed inv hGi hKWi
        (fun p hp hple => by
          have hbG := bef_insAt_node_right E node hple hp
          have hbS := bef_of_mem_faces hF1memS (bef_of_mem_faces hGmemF1 hbG)
          exact (hsup _ _ hbS).1 rfl)
        (fun p hp hple => by
          have hbG := bef_insAt_node_left E node hple hGi hp
          have hbS := bef_of_mem_faces hF1memS (bef_of_mem_faces hGmemF1 hbG)
          exact (hsup _ _ hbS).2 rfl)
        (fun p hp hple => by
          have hbG := bef_insAt_node_right E node hple hp
          exact hKWpairs _ _ hbG)
        (fun p hp hple => by
          have hbG := bef_insAt_node_left E node hple hKWi hp
          exact hKWpairs _ _ hbG)
      rw [heq]
      exact hKW

theorem list_eq_pair {l : List Nat} (h : l.length = 2) : l = [l.getD 0 0, l.getD 1 0] := by
  match l, h with
  | [a, b], _ => rfl

theorem list_eq_three {l : List Nat} (h : l.length = 3) :
    l = [l.getD 0 0, l.getD 1 0, l.getD 2 0] := by
  match l, h with
  | [a, b, c], _ => rfl

theorem bef_length2 {l : List Nat} (h : l.length = 2) {x y : Nat} (hb : bef l x y) :
    x = l.getD 0 0 ∧ y = l.getD 1 0 := by
  obtain ⟨p, q, hpq, hq, hx, hy⟩ := hb
  rw [h] at hq
  have hp0 : p = 0 := by omega
  have hq1 : q = 1 := by omega
  subst hp0 hq1
  exact ⟨hx.symm, hy.symm⟩

theorem pair_eq_of_bef_length2 {l : List Nat} (h : l.length = 2) {x y : Nat}
    (hb : bef l x y) : l = [x, y] := by
  obtain ⟨hx, hy⟩ := bef_length2 h hb
  rw [hx, hy]
  exact list_eq_pair h

theorem pair_mem_faces_of_bef3 {T : Simp} (h : T.length = 3) {x y : Nat}
    (hb : bef T x y) : [x, y] ∈ faces T := by
  obtain ⟨p, q, hpq, hq, hx, hy⟩ := hb
  rw [h] at hq
  have hT := list_eq_three h
  have e0 : eraseD T 2 = [T.getD 0 0, T.getD 1 0] := by
    rw [hT]
    rfl
  have e1 : eraseD T 1 = [T.getD 0 0, T.getD 2 0] := by
    rw [hT]
    rfl
  have e2 : eraseD T 0 = [T.getD 1 0, T.getD 2 0] := by
    rw [hT]
    rfl
  have h3 : T.length = 3 := h
  rcases show p = 0 ∧ q = 1 ∨ p = 0 ∧ q = 2 ∨ p = 1 ∧ q = 2 by omega with
    ⟨hp, hqe⟩ | ⟨hp, hqe⟩ | ⟨hp, hqe⟩
  · subst hp hqe
    rw [← hx, ← hy, ← e0]
    exact eraseD_mem_faces (by omega)
  · subst hp hqe
    rw [← hx, ← hy, ← e1]
    exact eraseD_mem_faces (by omega)
  · subst hp hqe
    rw [← hx, ← hy, ← e2]
    exact eraseD_mem_faces (by omega)

theorem getD_notMem_eraseD {T : Simp} (hnd : T.Nodup) {j : Nat} (hj : j < T.length) :
    T.getD j 0 ∉ eraseD T j := by
  intro hmem
  obtain ⟨p, hp, hpe⟩ := List.getElem_of_mem hmem
  have hplen : p < (eraseD T j).length := hp
  rw [length_eraseD hj] at hplen
  have hpd : (eraseD T j).getD p 0 = T.getD j 0 := by
    rw [List.getD_eq_getElem _ _ hp]
    exact hpe
  rcases Nat.lt_or_ge p j with hpj | hpj
  · rw [eraseD_getD_lt hpj (by omega)] at hpd
    have := nodup_getD_inj hnd (by omega) hj hpd
    omega
  · rw [eraseD_getD_ge hpj hj] at hpd
    have := nodup_getD_inj hnd (by omega) hj hpd
    omega

theorem insAt_eraseD_getD {T : Simp} {j : Nat} (hj : j < T.length) :
    insAt (eraseD T j) j (T.getD j 0) = T := by
  have hElen : (eraseD T j).length = T.length - 1 := length_eraseD hj
  apply list_eq_of_getD
  · rw [length_insAt, hElen]
    omega
  · intro n hn
    rw [length_insAt, hElen] at hn
    rcases Nat.lt_trichotomy n j with hnj | hnj | hnj
    · rw [insAt_getD_lt _ hnj (by omega), eraseD_getD_lt hnj (by omega)]
    · rw [hnj, insAt_getD_self _ (by omega)]
    · obtain ⟨m, rfl⟩ : ∃ m, n = m + 1 := ⟨n - 1, by omega⟩
      rw [insAt_getD_ge _ (by omega) (by omega), eraseD_getD_ge (by omega) hj]

/-- Facts delivered by the facet-registration stage to the rest of the
insertion. -/
structure Step3Post (st : SC) (T : Simp) (r : SC) : Prop where
  inv : SCInv r
  monoKey : ∀ d S, isKey st d S → isKey r d S
  monoCof : ∀ d F x, x ∈ cofAt st d F → x ∈ cofAt r d F
  lenS : r.simplices.length = st.simplices.length
  facets : ∀ F ∈ faces T, isKey r (T.length - 2) F
  pairsT : 3 ≤ T.length → ∀ x y, bef T x y → isKey r 1 [x, y]
  newPairs : ∀ x y, isKey r 1 [x, y] → isKey st 1 [x, y] ∨ (T.length = 3 ∧ bef T x y)
  cof0eq : 3 ≤ T.length → ∀ F, cofAt r 0 F = cofAt st 0 F
  cof0new : T.length = 2 → ∀ F x, x ∈ cofAt r 0 F ↔ x ∈ cofAt st 0 F ∨
    ∃ j, j < T.length ∧ F = eraseD T j ∧ x = T.getD j 0
  keysAll : ∀ d S, isKey r d S ↔ isKey st d S ∨ (d = T.length - 2 ∧ S ∈ faces T)
  cofAll : ∀ d F x, x ∈ cofAt r d F ↔ x ∈ cofAt st d F ∨
    (d = T.length - 2 ∧ ∃ j, j < T.length ∧ F = eraseD T j ∧ x = T.getD j 0)

theorem step3_stage {st : SC} {T : Simp} (inv : SCInv st)
    (hT2 : 2 ≤ T.length) (hnd : T.Nodup)
    (hDD : T.length - 2 < st.simplices.length)
    (hcodim2 : 3 ≤ T.length → ∀ F ∈ faces T, ∀ G ∈ faces F, isKey st (T.length - 3) G)
    (hpairs : 3 ≤ T.length → ∀ x y, bef T x y →
      isKey st 1 [x, y] ∨ (T.length = 3 ∧ Pend st x y)) :
    Step3Post st T (scStep3 st T).1 := by
  have hBD : T.length - 2 < st.simplex_indices.length := by
    rw [inv.lenEq]
    exact hDD
  have fact := scStep3_fact st T hDD hBD (inv.slotLefts (T.length - 2))
  set r := (scStep3 st T).1 with hr
  have hkey : ∀ d S, isKey r d S ↔
      isKey st d S ∨ (d = T.length - 2 ∧ S ∈ faces T) := by
    intro d S
    by_cases hd : d = T.length - 2
    · subst hd
      rw [isKey, isKey]
      rw [fact.keys S]
      simp
    · rw [isKey, isKey, fact.smapNe d hd]
      simp [hd]
  have hcof : ∀ d F x, x ∈ cofAt r d F ↔ x ∈ cofAt st d F ∨
      (d = T.length - 2 ∧ ∃ j, j < T.length ∧ F = eraseD T j ∧ x = T.getD j 0) := by
    intro d F x
    by_cases hd : d = T.length - 2
    · subst hd
      rw [cofAt, cofAt]
      rw [fact.cof F x]
      simp
    · rw [cofAt, cofAt, fact.smapNe d hd]
      simp [hd]
  have hbright : ∀ d S, bmapContainsRight (bmapAt r d) S = true ↔
      bmapContainsRight (bmapAt st d) S = true ∨
        (d = T.length - 2 ∧ S ∈ faces T) := by
    intro d S
    by_cases hd : d = T.length - 2
    · subst hd
      rw [fact.slotsRight S]
      simp
    · rw [fact.bmapNe d hd]
      simp [hd]
  have hmonoKey : ∀ d S, isKey st d S → isKey r d S :=
    fun d S h => (hkey d S).mpr (Or.inl h)
  have hmonoCof : ∀ d F x, x ∈ cofAt st d F → x ∈ cofAt r d F :=
    fun d F x h => (hcof d F x).mpr (Or.inl h)
  have hfacets : ∀ F ∈ faces T, isKey r (T.length - 2) F :=
    fun F hF => (hkey _ F).mpr (Or.inr ⟨rfl, hF⟩)
  have hpairsT : 3 ≤ T.length → ∀ x y, bef T x y → isKey r 1 [x, y] := by
    intro hT3 x y hb
    rcases hpairs hT3 x y hb with h | ⟨h3, _⟩
    · exact hmonoKey 1 [x, y] h
    · refine (hkey 1 [x, y]).mpr (Or.inr ⟨by omega, ?_⟩)
      exact pair_mem_faces_of_bef3 h3 hb
  have hnewPairs : ∀ x y, isKey r 1 [x, y] →
      isKey st 1 [x, y] ∨ (T.length = 3 ∧ bef T x y) := by
    intro x y h
    rcases (hkey 1 [x, y]).mp h with h | ⟨hd, hF⟩
    · exact Or.inl h
    · refine Or.inr ⟨by omega, ?_⟩
      exact bef_of_mem_faces hF (bef_pair.mpr ⟨rfl, rfl⟩)
  refine ⟨?_, hmonoKey, hmonoCof, fact.lenS, hfacets, hpairsT, hnewPairs, ?_, ?_, hkey, hcof⟩
  · -- the invariant for r
    refine ⟨?_, ?_, ?_, ?_, ?_, ?_, ?_, ?_, ?_, ?_, ?_, ?_, ?_, ?_⟩
    · rw [fact.lenS, fact.lenB]
      exact inv.lenEq
    · intro d S hS
      rcases (hkey d S).mp hS with h | ⟨hd, hF⟩
      · exact inv.keyLen d S h
      · have := length_of_mem_faces hF
        omega
    · intro d S hS
      rcases (hkey d S).mp hS with h | ⟨_, hF⟩
      · exact inv.keyNodup d S h
      · exact nodup_of_mem_faces hnd hF
    · intro d S hS F hF
      rcases (hkey (d + 1) S).mp hS with h | ⟨hd, hSF⟩
      · exact hmonoKey d F (inv.closed d S h F hF)
      · have hT3 : 3 ≤ T.length := by omega
        have hkst := hcodim2 hT3 S hSF F hF
        have hde : T.length - 3 = d := by omega
        rw [hde] at hkst
        exact hmonoKey d F hkst
    · intro x y h1 h2
      rcases hnewPairs x y h1 with ho1 | ⟨h3, hb1⟩
      · rcases hnewPairs y x h2 with ho2 | ⟨h3, hb2⟩
        · exact inv.noTwo x y ho1 ho2
        · rcases hpairs (by omega) y x hb2 with hk | ⟨_, hpend⟩
          · exact inv.noTwo x y ho1 hk
          · exact hpend.1 ho1
      · rcases hnewPairs y x h2 with ho2 | ⟨_, hb2⟩
        · rcases hpairs (by omega) x y hb1 with hk | ⟨_, hpend⟩
          · exact inv.noTwo x y hk ho2
          · exact hpend.1 ho2
        · exact bef_antisymm hnd hb1 hb2
    · intro d S hS x y hb
      rcases (hkey d S).mp hS with h | ⟨hd, hF⟩
      · exact hmonoKey 1 [x, y] (inv.pairsKeys d S h x y hb)
      · have hbT : bef T x y := bef_of_mem_faces hF hb
        by_cases hT3 : 3 ≤ T.length
        · exact hpairsT hT3 x y hbT
        · have hT2e : T.length = 2 := by omega
          have hSlen : S.length + 1 = T.length := length_of_mem_faces hF
          obtain ⟨p, q, hpq, hq, _, _⟩ := hb
          omega
    · intro d hd F v hv
      rcases (hcof d F v).mp hv with h | ⟨hdd, j, hj, hFe, hve⟩
      · obtain ⟨i, hi, hall⟩ := inv.cofGood d hd F v h
        exact ⟨i, hi, fun G hG => hmonoKey d G (hall G hG)⟩
      · subst hFe hve
        refine ⟨j, by rw [length_eraseD hj]; omega, ?_⟩
        rw [insAt_eraseD_getD hj]
        intro G hG
        rw [hdd]
        exact hfacets G hG
    · intro d F v hv
      rcases (hcof d F v).mp hv with h | ⟨_, j, hj, hFe, hve⟩
      · exact inv.cofNotMem d F v h
      · subst hFe hve
        exact getD_notMem_eraseD hnd hj
    · intro x y hy
      rcases (hcof 0 [x] y).mp hy with h | ⟨hdd, j, hj, hFe, hve⟩
      · exact ⟨hmonoKey 0 [y] (inv.cof0Keyed x y h).1,
          hmonoKey 0 [x] (inv.cof0Keyed x y h).2⟩
      · have hT2e : T.length = 2 := by omega
        subst hve
        have hTp := list_eq_pair hT2e
        have hfj : eraseD T j ∈ faces T := eraseD_mem_faces (by omega)
        have hfj2 : eraseD T (1 - j) ∈ faces T := eraseD_mem_faces (by omega)
        have hyF : [T.getD j 0] = eraseD T (1 - j) := by
          rcases show j = 0 ∨ j = 1 by omega with h0 | h0
          · subst h0
            rw [hTp]
            rfl
          · subst h0
            rw [hTp]
            rfl
        constructor
        · rw [hyF]
          have := hfacets _ hfj2
          rw [hT2e] at this
          exact this
        · rw [hFe]
          have := hfacets _ hfj
          rw [hT2e] at this
          exact this
    · intro x y hy
      rcases (hcof 0 [x] y).mp hy with h | ⟨hdd, j, hj, hFe, hve⟩
      · exact hmonoCof 0 [y] x (inv.cof0Symm x y h)
      · have hT2e : T.length = 2 := by omega
        subst hve
        have hTp := list_eq_pair hT2e
        have hxv : x = T.getD (1 - j) 0 := by
          rcases show j = 0 ∨ j = 1 by omega with h0 | h0
          · subst h0
            rw [hTp] at hFe
            have : [x] = [T.getD 1 0] := hFe
            simpa using this
          · subst h0
            rw [hTp] at hFe
            have : [x] = [T.getD 0 0] := hFe
            simpa using this
        have hyF : [T.getD j 0] = eraseD T (1 - j) := by
          rcases show j = 0 ∨ j = 1 by omega with h0 | h0
          · subst h0
            rw [hTp]
            rfl
          · subst h0
            rw [hTp]
            rfl
        refine (hcof 0 [T.getD j 0] x).mpr (Or.inr ⟨hdd, 1 - j, by omega, hyF, hxv⟩)
    · intro d S hS
      rcases (hkey d S).mp hS with h | ⟨hd, hF⟩
      · exact (hbright d S).mpr (Or.inl (inv.keySlot d S h))
      · exact (hbright d S).mpr (Or.inr ⟨hd, hF⟩)
    · intro d S hS
      rcases (hbright d S).mp hS with h | ⟨hd, hF⟩
      · exact hmonoKey d S (inv.slotKey d S h)
      · exact (hkey d S).mpr (Or.inr ⟨hd, hF⟩)
    · intro d q hq
      by_cases hd : d = T.length - 2
      · subst hd
        exact fact.slotLefts q hq
      · rw [fact.bmapNe d hd] at hq ⊢
        exact inv.slotLefts d q hq
    · intro x y hk
      rcases hnewPairs x y hk with h | ⟨h3, hb⟩
      · exact hmonoCof 0 [x] y (inv.edgeNb x y h)
      · rcases hpairs (by omega) x y hb with h | ⟨_, hpend⟩
        · exact hmonoCof 0 [x] y (inv.edgeNb x y h)
        · exact hmonoCof 0 [x] y hpend.2.1
  · intro hT3 F
    show (mapLookup (smapAt r 0) F).getD [] = (mapLookup (smapAt st 0) F).getD []
    rw [fact.smapNe 0 (by omega)]
  · intro hT2e F x
    rw [hcof 0 F x]
    have hdd : (0 : Nat) = T.length - 2 := by omega
    simp [← hdd]

theorem mapLookup_eq_none {m : SMap} {k : Simp} (h : ¬ mapContainsKey m k = true) :
    mapLookup m k = none := by
  rw [mapLookup]
  rw [show m.find? (fun p => p.1 == k) = none from ?_]
  · rfl
  · apply List.find?_eq_none.mpr
    intro p hp hpe
    exact h (mapContainsKey_iff.mpr ⟨p.2, by
      have : p.1 = k := by simpa using hpe
      rw [← this]
      exact hp⟩)

theorem mapInsertSet_lookup_self (m : SMap) (k : Simp) (v : List Nat) :
    mapLookup (mapInsertSet m k v) k = some v := by
  induction m with
  | nil =>
    rw [mapInsertSet, mapLookup, List.find?_cons_of_pos _ (by simp)]
    rfl
  | cons p rest ih =>
    obtain ⟨k1, s1⟩ := p
    rw [mapInsertSet]
    by_cases hk : k1 = k
    · rw [if_pos (by simpa using hk)]
      rw [mapLookup, List.find?_cons_of_pos _ (by simpa using hk)]
      rfl
    · rw [if_neg (by simpa using hk)]
      rw [mapLookup, List.find?_cons_of_neg _ (by simpa using hk)]
      rw [mapLookup] at ih
      exact ih

/-- Facts delivered by the maximal-registration stage. -/
structure MaxPost (st : SC) (T : Simp) (r : SC) : Prop where
  inv : SCInv r
  monoKey : ∀ d S, isKey st d S → isKey r d S
  cofEq : ∀ d F, cofAt r d F = cofAt st d F
  lenS : r.simplices.length = st.simplices.length
  keysAll : ∀ d S, isKey r d S ↔ isKey st d S ∨ (d = T.length - 1 ∧ S = T)
  keyT : isKey r (T.length - 1) T

theorem maximal_stage {st : SC} {T : Simp} (inv : SCInv st)
    (hT2 : 2 ≤ T.length) (hnd : T.Nodup)
    (hL : T.length - 1 < st.simplices.length)
    (hfaces : ∀ F ∈ faces T, isKey st (T.length - 2) F)
    (hTpairs : ∀ x y, bef T x y → isKey st 1 [x, y] ∨
      (T.length = 2 ∧ ¬ isKey st 1 [y, x] ∧ y ∈ cofAt st 0 [x] ∧ x ∈ cofAt st 0 [y])) :
    MaxPost st T (scMaximal st T) := by
  have hBL : T.length - 1 < st.simplex_indices.length := by
    rw [inv.lenEq]
    exact hL
  by_cases hc : bmapContainsRight (st.simplex_indices.getD (T.length - 1) []) T = true
  · rw [scMaximal_of_contains hc]
    have hkT : isKey st (T.length - 1) T := inv.slotKey (T.length - 1) T hc
    refine ⟨inv, fun d S h => h, fun d F => rfl, rfl, ?_, hkT⟩
    intro d S
    constructor
    · intro h
      exact Or.inl h
    · rintro (h | ⟨hd, hS⟩)
      · exact h
      · rw [hd, hS]
        exact hkT
  · have hcf : bmapContainsRight (st.simplex_indices.getD (T.length - 1) []) T = false := by
      rcases Bool.eq_false_or_eq_true
        (bmapContainsRight (st.simplex_indices.getD (T.length - 1) []) T) with h | h
      · exact absurd h hc
      · exact h
    have hnkT : ¬ isKey st (T.length - 1) T := fun hk => hc (inv.keySlot _ T hk)
    set r := scMaximal st T with hrdef
    have hsimp : r.simplices =
        updSMaps st.simplices (T.length - 1) (fun m => mapInsertSet m T []) :=
      scMaximal_simplices hcf
    have hbm : r.simplex_indices =
        updBMaps st.simplex_indices (T.length - 1)
          (fun b => bmapInsert b
            ((st.simplex_indices.getD (T.length - 1) []).length + 1) T) :=
      scMaximal_bmap hcf
    have hsmapNe : ∀ d, d ≠ T.length - 1 → smapAt r d = smapAt st d := by
      intro d hd
      rw [smapAt, smapAt, hsimp, updSMaps_getD, if_neg (fun hcc => hd hcc.1)]
    have hsmapEq : smapAt r (T.length - 1) =
        mapInsertSet (smapAt st (T.length - 1)) T [] := by
      rw [smapAt, smapAt, hsimp, updSMaps_getD, if_pos ⟨rfl, hL⟩]
    have hkey : ∀ d S, isKey r d S ↔ isKey st d S ∨ (d = T.length - 1 ∧ S = T) := by
      intro d S
      by_cases hd : d = T.length - 1
      · subst hd
        rw [isKey, isKey, hsmapEq, mapInsertSet_containsKey]
        simp
      · rw [isKey, isKey, hsmapNe d hd]
        simp [hd]
    have hcofEq : ∀ d F, cofAt r d F = cofAt st d F := by
      intro d F
      by_cases hd : d = T.length - 1
      · subst hd
        rw [cofAt, cofAt, hsmapEq]
        by_cases hF : F = T
        · subst hF
          rw [mapInsertSet_lookup_self,
            mapLookup_eq_none (show ¬ mapContainsKey (smapAt st (F.length - 1)) F = true
              from hnkT)]
          rfl
        · rw [mapInsertSet_lookup_other _ _ _ hF]
      · rw [cofAt, cofAt, hsmapNe d hd]
    have hbmapNe : ∀ d, d ≠ T.length - 1 → bmapAt r d = bmapAt st d := by
      intro d hd
      rw [bmapAt, bmapAt, hbm, updBMaps_getD, if_neg (fun hcc => hd hcc.1)]
    have happ : bmapAt r (T.length - 1) =
        bmapAt st (T.length - 1) ++
          [((bmapAt st (T.length - 1)).length + 1, T)] := by
      rw [bmapAt, bmapAt, hbm, updBMaps_getD, if_pos ⟨rfl, hBL⟩]
      apply bmapInsert_eq_append
      · intro q hq
        have := inv.slotLefts (T.length - 1) q hq
        rw [bmapAt] at this
        omega
      · exact hcf
    have hbright : ∀ d S, bmapContainsRight (bmapAt r d) S = true ↔
        bmapContainsRight (bmapAt st d) S = true ∨ (d = T.length - 1 ∧ S = T) := by
      intro d S
      by_cases hd : d = T.length - 1
      · subst hd
        rw [happ, bmapContainsRight_append]
        simp
      · rw [hbmapNe d hd]
        simp [hd]
    have hmono : ∀ d S, isKey st d S → isKey r d S :=
      fun d S h => (hkey d S).mpr (Or.inl h)
    have hkeyT : isKey r (T.length - 1) T := (hkey _ T).mpr (Or.inr ⟨rfl, rfl⟩)
    refine ⟨?_, hmono, hcofEq, by rw [hsimp, updSMaps, List.length_set], hkey, hkeyT⟩
    refine ⟨?_, ?_, ?_, ?_, ?_, ?_, ?_, ?_, ?_, ?_, ?_, ?_, ?_, ?_⟩
    · rw [hsimp, updSMaps, List.length_set, hbm, updBMaps, List.length_set]
      exact inv.lenEq
    · intro d S hS
      rcases (hkey d S).mp hS with h | ⟨hd, hS2⟩
      · exact inv.keyLen d S h
      · rw [hd, hS2]
        omega
    · intro d S hS
      rcases (hkey d S).mp hS with h | ⟨_, hS2⟩
      · exact inv.keyNodup d S h
      · rw [hS2]
        exact hnd
    · intro d S hS F hF
      rcases (hkey (d + 1) S).mp hS with h | ⟨hd, hS2⟩
      · exact hmono d F (inv.closed d S h F hF)
      · rw [hS2] at hF
        have hde : T.length - 2 = d := by omega
        rw [← hde]
        exact hmono _ F (hfaces F hF)
    · intro x y h1 h2
      rcases (hkey 1 [x, y]).mp h1 with ho1 | ⟨hd1, hT1⟩
      · rcases (hkey 1 [y, x]).mp h2 with ho2 | ⟨hd2, hT2⟩
        · exact inv.noTwo x y ho1 ho2
        · rcases hTpairs y x (by rw [← hT2]; exact bef_pair.mpr ⟨rfl, rfl⟩) with hk | hp
          · exact inv.noTwo x y ho1 hk
          · exact hp.2.1 ho1
      · rcases (hkey 1 [y, x]).mp h2 with ho2 | ⟨hd2, hT2⟩
        · rcases hTpairs x y (by rw [← hT1]; exact bef_pair.mpr ⟨rfl, rfl⟩) with hk | hp
          · exact inv.noTwo x y hk ho2
          · exact hp.2.1 ho2
        · have h3 : ([x, y] : Simp) = [y, x] := by rw [hT1, hT2]
          have hxy : x = y := by
            have h4 : x = y ∧ y = x := by simpa using h3
            exact h4.1
          subst hxy
          rw [← hT1] at hnd
          simp at hnd
    · intro d S hS x y hb
      rcases (hkey d S).mp hS with h | ⟨hd, hS2⟩
      · exact hmono 1 [x, y] (inv.pairsKeys d S h x y hb)
      · rw [hS2] at hb
        rcases hTpairs x y hb with hk | ⟨hT2e, _⟩
        · exact hmono 1 [x, y] hk
        · have hTe : T = [x, y] := pair_eq_of_bef_length2 hT2e hb
          have h1e : (1 : Nat) = T.length - 1 := by omega
          rw [h1e, ← hTe]
          exact hkeyT
    · intro d hd F v hv
      rw [hcofEq d F] at hv
      obtain ⟨i, hi, hall⟩ := inv.cofGood d hd F v hv
      exact ⟨i, hi, fun G hG => hmono d G (hall G hG)⟩
    · intro d F v hv
      rw [hcofEq d F] at hv
      exact inv.cofNotMem d F v hv
    · intro x y hy
      rw [hcofEq 0 [x]] at hy
      exact ⟨hmono 0 [y] (inv.cof0Keyed x y hy).1, hmono 0 [x] (inv.cof0Keyed x y hy).2⟩
    · intro x y hy
      rw [hcofEq 0 [x]] at hy
      rw [hcofEq 0 [y]]
      exact inv.cof0Symm x y hy
    · intro d S hS
      rcases (hkey d S).mp hS with h | ⟨hd, hS2⟩
      · exact (hbright d S).mpr (Or.inl (inv.keySlot d S h))
      · exact (hbright d S).mpr (Or.inr ⟨hd, hS2⟩)
    · intro d S hS
      rcases (hbright d S).mp hS with h | ⟨hd, hS2⟩
      · exact hmono d S (inv.slotKey d S h)
      · exact (hkey d S).mpr (Or.inr ⟨hd, hS2⟩)
    · intro d q hq
      by_cases hd : d = T.length - 1
      · subst hd
        rw [happ] at hq ⊢
        rw [List.length_append]
        rcases List.mem_append.mp hq with h | h
        · have := inv.slotLefts (T.length - 1) q h
          simp only [List.length_cons, List.length_nil]
          omega
        · rw [List.mem_singleton.mp h]
          simp only [List.length_cons, List.length_nil]
          omega
      · rw [hbmapNe d hd] at hq ⊢
        exact inv.slotLefts d q hq
    · intro x y hk
      rw [hcofEq 0 [x]]
      rcases (hkey 1 [x, y]).mp hk with h | ⟨hd, hT1⟩
      · exact inv.edgeNb x y h
      · rcases hTpairs x y (by rw [← hT1]; exact bef_pair.mpr ⟨rfl, rfl⟩) with hk2 | hp
        · exact inv.edgeNb x y hk2
        · exact hp.2.2.1

/-! ### Loop and main induction -/

theorem list_eq_single {l : List Nat} (h : l.length = 1) : l = [l.getD 0 0] := by
  match l, h with
  | [a], _ => rfl

theorem scCyc_false_of_len {st : SC} {T : Simp} (h : T.length ≠ 2) (node : Nat) :
    scCyc st T node = false := by
  rw [scCyc]
  have h1 : (T.length == 2) = false := by simpa using h
  rw [h1]
  rfl

theorem scCyc_parts {st : SC} {T : Simp} {node : Nat} (h : scCyc st T node = false)
    (hlen : T.length = 2) (h1 : isKey st 1 [node, T.getD 0 0]) :
    ¬ isKey st 1 [T.getD 1 0, node] := by
  intro h2
  rw [scCyc] at h
  have he : (T.length == 2) = true := by simpa using hlen
  rw [he] at h
  have hb1 : mapContainsKey (st.simplices.getD 1 []) [T.getD 1 0, node] = true := h2
  have hb2 : mapContainsKey (st.simplices.getD 1 []) [node, T.getD 0 0] = true := h1
  rw [hb1, hb2] at h
  simp at h

theorem scSuper_char2 (st : SC) (T : Simp) (node : Nat) :
    ∃ i, i ≤ T.length ∧ scSuper st T node = insAt T i node ∧
      (i < T.length → isKey st 1 [node, T.getD i 0]) ∧
      ∀ j, j < i → ¬ isKey st 1 [node, T.getD j 0] := by
  rcases scSuper_char st T node with ⟨i, hi, hform, hk, hall⟩ | ⟨hform, hall⟩
  · refine ⟨i, by omega, hform, fun _ => hk, ?_⟩
    intro j hj hkj
    have := hall j hj
    rw [show mapContainsKey (smapAt st 1) [node, T.getD j 0] = true from hkj] at this
    exact Bool.true_eq_false ▸ this
  · refine ⟨T.length, Nat.le_refl _, hform, fun hc => absurd hc (Nat.lt_irrefl _), ?_⟩
    intro j hj hkj
    have := hall j hj
    rw [show mapContainsKey (smapAt st 1) [node, T.getD j 0] = true from hkj] at this
    exact Bool.true_eq_false ▸ this

theorem inv_of_eq_stores {st r : SC} (hs : r.simplices = st.simplices)
    (hb : r.simplex_indices = st.simplex_indices) (inv : SCInv st) : SCInv r := by
  have hsm : ∀ d, smapAt r d = smapAt st d := fun d => by rw [smapAt, smapAt, hs]
  have hbm : ∀ d, bmapAt r d = bmapAt st d := fun d => by rw [bmapAt, bmapAt, hb]
  have hk : ∀ d S, isKey r d S ↔ isKey st d S := fun d S => by
    rw [isKey, isKey, hsm]
  have hc : ∀ d F, cofAt r d F = cofAt st d F := fun d F => by
    rw [cofAt, cofAt, hsm]
  refine ⟨?_, ?_, ?_, ?_, ?_, ?_, ?_, ?_, ?_, ?_, ?_, ?_, ?_, ?_⟩
  · rw [hs, hb]
    exact inv.lenEq
  · exact fun d S hS => inv.keyLen d S ((hk d S).mp hS)
  · exact fun d S hS => inv.keyNodup d S ((hk d S).mp hS)
  · exact fun d S hS F hF => (hk d F).mpr (inv.closed d S ((hk _ S).mp hS) F hF)
  · exact fun x y h1 h2 => inv.noTwo x y ((hk _ _).mp h1) ((hk _ _).mp h2)
  · exact fun d S hS x y hb2 => (hk _ _).mpr (inv.pairsKeys d S ((hk d S).mp hS) x y hb2)
  · intro d hd F v hv
    rw [hc] at hv
    obtain ⟨i, hi, hall⟩ := inv.cofGood d hd F v hv
    exact ⟨i, hi, fun G hG => (hk d G).mpr (hall G hG)⟩
  · exact fun d F v hv => inv.cofNotMem d F v (by rwa [hc] at hv)
  · intro x y hy
    rw [hc] at hy
    exact ⟨(hk _ _).mpr (inv.cof0Keyed x y hy).1, (hk _ _).mpr (inv.cof0Keyed x y hy).2⟩
  · intro x y hy
    rw [hc] at hy
    rw [hc]
    exact inv.cof0Symm x y hy
  · intro d S hS
    rw [hbm]
    exact inv.keySlot d S ((hk d S).mp hS)
  · intro d S hS
    rw [hbm] at hS
    exact (hk d S).mpr (inv.slotKey d S hS)
  · intro d q hq
    rw [hbm] at hq ⊢
    exact inv.slotLefts d q hq
  · intro x y hkk
    rw [hc]
    exact inv.edgeNb x y ((hk _ _).mp hkk)

theorem scNew_smapAt (d : Nat) : smapAt scNew d = [] := by
  rw [smapAt, scNew]
  cases d with
  | zero => rfl
  | succ n => rfl

theorem scNew_bmapAt (d : Nat) : bmapAt scNew d = [] := by
  rw [bmapAt, scNew]
  cases d with
  | zero => rfl
  | succ n => rfl

theorem scNew_inv : SCInv scNew := by
  have hk : ∀ d S, ¬ isKey scNew d S := by
    intro d S h
    rw [isKey, scNew_smapAt] at h
    simp [mapContainsKey] at h
  have hc : ∀ d F, cofAt scNew d F = [] := by
    intro d F
    rw [cofAt, scNew_smapAt]
    rfl
  refine ⟨rfl, ?_, ?_, ?_, ?_, ?_, ?_, ?_, ?_, ?_, ?_, ?_, ?_, ?_⟩
  · exact fun d S hS => absurd hS (hk d S)
  · exact fun d S hS => absurd hS (hk d S)
  · exact fun d S hS => absurd hS (hk _ S)
  · exact fun x y h1 _ => absurd h1 (hk _ _)
  · exact fun d S hS => absurd hS (hk d S)
  · intro d hd F v hv
    rw [hc] at hv
    simp at hv
  · intro d F v hv
    rw [hc] at hv
    simp at hv
  · intro x y hy
    rw [hc] at hy
    simp at hy
  · intro x y hy
    rw [hc] at hy
    simp at hy
  · exact fun d S hS => absurd hS (hk d S)
  · intro d S hS
    rw [scNew_bmapAt] at hS
    simp [bmapContainsRight] at hS
  · intro d q hq
    rw [scNew_bmapAt] at hq
    simp at hq
  · exact fun x y hkk => absurd hkk (hk _ _)

/-- Invariant carried along the extension loop of a call with a simplex of
length at least 3. -/
structure LoopNInv (stS stk : SC) (T : Simp) : Prop where
  inv : SCInv stk
  monoKey : ∀ d S, isKey stS d S → isKey stk d S
  monoCof : ∀ d F x, x ∈ cofAt stS d F → x ∈ cofAt stk d F
  monoLen : stS.simplices.length ≤ stk.simplices.length
  facets : ∀ F ∈ faces T, isKey stk (T.length - 2) F
  pairsT : ∀ x y, bef T x y → isKey stk 1 [x, y]
  cof0eq : ∀ F, cofAt stk 0 F = cofAt stS 0 F
  pairsBound : ∀ x y, isKey stk 1 [x, y] → isKey stS 1 [x, y]

theorem loopN_pres (fuel : Nat)
    (IH : ∀ st T st', 3 ≤ T.length → AddPre st T → scAdd fuel st T = some st' →
      AddPost st st' T)
    {T : Simp} (hT3 : 3 ≤ T.length) (hnd : T.Nodup) {stS : SC}
    (hlenT : T.length ≤ stS.simplices.length) :
    ∀ nodes : List Nat, ∀ stk cnt res cntR,
      (∀ node ∈ nodes, ∀ F ∈ faces T, node ∈ cofAt stS (T.length - 2) F) →
      LoopNInv stS stk T →
      scLoop (scAdd fuel) T nodes (some (stk, cnt)) = some (res, cntR) →
      LoopNInv stS res T := by
  intro nodes
  induction nodes with
  | nil =>
    intro stk cnt res cntR hnodes li hrun
    rw [scLoop] at hrun
    have he : stk = res := by
      have := Option.some.injEq _ _ ▸ hrun
      exact (Prod.mk.injEq _ _ _ _ ▸ this).1
    rw [← he]
    exact li
  | cons node rest ihn =>
    intro stk cnt res cntR hnodes li hrun
    rw [scLoop] at hrun
    have hrun2 : (if scCyc stk T node then scLoop (scAdd fuel) T rest (some (stk, cnt))
        else match scAdd fuel stk (scSuper stk T node) with
          | none => none
          | some st2 => scLoop (scAdd fuel) T rest (some (st2, cnt + 1))) =
        some (res, cntR) := hrun
    rw [scCyc_false_of_len (by omega) node] at hrun2
    rw [if_neg (by simp)] at hrun2
    cases hrec : scAdd fuel stk (scSuper stk T node) with
    | none =>
      rw [hrec] at hrun2
      exact absurd hrun2 (by simp)
    | some stN =>
      rw [hrec] at hrun2
      obtain ⟨i, hi, hform, hkeyi, hscan⟩ := scSuper_char2 stk T node
      have hoptsK : ∀ F ∈ faces T, node ∈ cofAt stk (T.length - 2) F :=
        fun F hF => li.monoCof _ _ _ (hnodes node (List.mem_cons_self _ _) F hF)
      have hnm : node ∉ T := node_notMem_of_opts li.inv (by omega) hoptsK
      have hdir : DirAt stk T node i :=
        dirAt_of_scan3 li.inv hT3 hoptsK li.pairsT hi hkeyi hscan
      have hsuplen : (scSuper stk T node).length = T.length + 1 := by
        rw [hform, length_insAt]
      have pre : AddPre stk (scSuper stk T node) := by
        refine ⟨li.inv, by omega, ?_, ?_, ?_, ?_⟩
        · rw [hform]
          exact nodup_insAt i hnd hnm
        · rw [hsuplen]
          have := li.monoLen
          omega
        · intro h3 F1 hF1 G hG
          have hcast : (scSuper stk T node).length - 3 = T.length - 2 := by omega
          rw [hcast]
          rw [hform] at hF1
          exact codim2_match li.inv hT3 hnm hi hdir hoptsK li.facets F1 hF1 G hG
        · intro h3 x y hbxy
          rw [hform] at hbxy
          rcases bef_insAt_resolve hi hdir hbxy with hb | hk
          · exact Or.inl (li.pairsT x y hb)
          · exact Or.inl hk
      have post := IH stk (scSuper stk T node) stN (by omega) pre hrec
      have li2 : LoopNInv stS stN T := by
        refine ⟨post.inv, ?_, ?_, ?_, ?_, ?_, ?_, ?_⟩
        · exact fun d S h => post.monoKey d S (li.monoKey d S h)
        · exact fun d F x h => post.monoCof d F x (li.monoCof d F x h)
        · exact Nat.le_trans li.monoLen post.monoLen
        · exact fun F hF => post.monoKey _ F (li.facets F hF)
        · exact fun x y hb => post.monoKey _ _ (li.pairsT x y hb)
        · intro F
          rw [post.cof0eq (by omega) F, li.cof0eq F]
        · exact fun x y hk => li.pairsBound x y (post.pairs4 (by omega) x y hk)
      exact ihn stN (cnt + 1) res cntR
        (fun n hn F hF => hnodes n (List.mem_cons_of_mem _ hn) F hF) li2 hrun2

theorem scAdd_main : ∀ fuel : Nat, ∀ st T st', 3 ≤ T.length → AddPre st T →
    scAdd fuel st T = some st' → AddPost st st' T := by
  intro fuel
  induction fuel with
  | zero =>
    intro st T st' h3 pre h
    rw [scAdd] at h
    exact absurd h (by simp)
  | succ fuel ih =>
    intro st T st' hT3 pre h
    rw [scAdd] at h
    rw [if_neg (by omega)] at h
    have h2 : (if scDup (scGrow st T.length) T then some (scGrow st T.length)
        else scAddCore (scAdd fuel) (scGrow st T.length) T) = some st' := h
    have hdupF : scDup (scGrow st T.length) T = false := by
      rcases Bool.eq_false_or_eq_true (scDup (scGrow st T.length) T) with ht | hf
      · have := (scDup_iff.mp ht).1
        omega
      · exact hf
    rw [hdupF, if_neg (by simp)] at h2
    have inv1 : SCInv (scGrow st T.length) := scGrow_inv T.length pre.inv
    have hlen1 : T.length ≤ (scGrow st T.length).simplices.length :=
      scGrow_len st T.length pre.lenStore
    have hDD : T.length - 2 < (scGrow st T.length).simplices.length := by omega
    have hcodim1 : 3 ≤ T.length → ∀ F ∈ faces T, ∀ G ∈ faces F,
        isKey (scGrow st T.length) (T.length - 3) G := by
      intro h3 F hF G hG
      exact (scGrow_isKey _ _ _ _).mpr (pre.codim2 h3 F hF G hG)
    have hpairs1 : 3 ≤ T.length → ∀ x y, bef T x y →
        isKey (scGrow st T.length) 1 [x, y] ∨
          (T.length = 3 ∧ Pend (scGrow st T.length) x y) := by
      intro h3 x y hb
      rcases pre.pairs h3 x y hb with hk | ⟨he, hp⟩
      · exact Or.inl ((scGrow_isKey _ _ _ _).mpr hk)
      · refine Or.inr ⟨he, ?_, ?_, ?_⟩
        · intro hk2
          exact hp.1 ((scGrow_isKey _ _ _ _).mp hk2)
        · rw [scGrow_cofAt]
          exact hp.2.1
        · rw [scGrow_cofAt]
          exact hp.2.2
    have s3 := step3_stage inv1 (by omega) pre.nodup hDD hcodim1 hpairs1
    set stA := (scStep3 (scGrow st T.length) T).1 with hstA
    set st2 := scColumn stA T (scStep3 (scGrow st T.length) T).2 with hst2
    have h4 : (match scLoop (scAdd fuel) T (scOptions st2 T) (some (st2, 0)) with
        | none => none
        | some (st, cnt) => if cnt == 0 then some (scMaximal st T) else some st) =
        some st' := h2
    have inv2 : SCInv st2 := inv_of_eq_stores
      (show st2.simplices = stA.simplices from rfl)
      (show st2.simplex_indices = stA.simplex_indices from rfl) s3.inv
    have hlen2 : T.length ≤ st2.simplices.length := by
      have hA : st2.simplices.length = stA.simplices.length := rfl
      rw [hA, s3.lenS]
      exact hlen1
    have li0 : LoopNInv st2 st2 T :=
      ⟨inv2, fun d S hh => hh, fun d F x hh => hh, Nat.le_refl _,
        fun F hF => s3.facets F hF, fun x y hb => s3.pairsT hT3 x y hb,
        fun F => rfl, fun x y hk => hk⟩
    cases hloop : scLoop (scAdd fuel) T (scOptions st2 T) (some (st2, 0)) with
    | none =>
      rw [hloop] at h4
      exact absurd h4 (by simp)
    | some pr =>
      obtain ⟨st3, cnt⟩ := pr
      rw [hloop] at h4
      have h5 : (if cnt == 0 then some (scMaximal st3 T) else some st3) = some st' := h4
      have li3 : LoopNInv st2 st3 T :=
        loopN_pres fuel ih hT3 pre.nodup hlen2 (scOptions st2 T) st2 0 st3 cnt
          (fun node hn F hF => scOptions_mem hn F hF) li0 hloop
      have hmonoK12 : ∀ d S, isKey st d S → isKey st2 d S := by
        intro d S hk
        exact s3.monoKey d S ((scGrow_isKey _ _ _ _).mpr hk)
      have hmonoC12 : ∀ d F x, x ∈ cofAt st d F → x ∈ cofAt st2 d F := by
        intro d F x hk
        apply s3.monoCof d F x
        rw [scGrow_cofAt]
        exact hk
      have hcof0_20 : 3 ≤ T.length → ∀ F, cofAt st2 0 F = cofAt st 0 F := by
        intro h3 F
        have hA : cofAt st2 0 F = cofAt stA 0 F := rfl
        rw [hA, s3.cof0eq h3 F, scGrow_cofAt]
      have hpairsB20 : ∀ x y, isKey st2 1 [x, y] →
          isKey st 1 [x, y] ∨ (T.length = 3 ∧ bef T x y) := by
        intro x y hk
        have hA : isKey stA 1 [x, y] := hk
        rcases s3.newPairs x y hA with hk2 | hbT
        · exact Or.inl ((scGrow_isKey _ _ _ _).mp hk2)
        · exact Or.inr hbT
      by_cases hcnt : cnt = 0
      · rw [if_pos (by simpa using hcnt)] at h5
        have hst3 : st' = scMaximal st3 T := (Option.some.injEq _ _ ▸ h5).symm
        have hL3 : T.length - 1 < st3.simplices.length := by
          have := li3.monoLen
          omega
        have mp := maximal_stage li3.inv (by omega) pre.nodup hL3 li3.facets
          (fun x y hb => Or.inl (li3.pairsT x y hb))
        rw [hst3]
        refine ⟨mp.inv, ?_, ?_, ?_, ?_, ?_, ?_, ?_⟩
        · exact fun d S hk => mp.monoKey d S (li3.monoKey d S (hmonoK12 d S hk))
        · intro d F x hc
          rw [mp.cofEq d F]
          exact li3.monoCof d F x (hmonoC12 d F x hc)
        · have e1 := scGrow_len_ge st T.length
          have e2 : st2.simplices.length = (scGrow st T.length).simplices.length := by
            have hA : st2.simplices.length = stA.simplices.length := rfl
            rw [hA, s3.lenS]
          have e3 := li3.monoLen
          rw [mp.lenS]
          omega
        · exact fun F hF => mp.monoKey _ F (li3.facets F hF)
        · intro h3 F
          rw [mp.cofEq 0 F, li3.cof0eq F, hcof0_20 h3 F]
        · intro h3e x y hk
          rcases (mp.keysAll 1 [x, y]).mp hk with hk2 | ⟨hd, _⟩
          · rcases hpairsB20 x y (li3.pairsBound x y hk2) with hk3 | ⟨_, hb⟩
            · exact Or.inl hk3
            · exact Or.inr hb
          · omega
        · intro h4e x y hk
          rcases (mp.keysAll 1 [x, y]).mp hk with hk2 | ⟨hd, _⟩
          · rcases hpairsB20 x y (li3.pairsBound x y hk2) with hk3 | ⟨he3, _⟩
            · exact hk3
            · omega
          · omega
      · rw [if_neg (by simpa using hcnt)] at h5
        have hst3 : st' = st3 := (Option.some.injEq _ _ ▸ h5).symm
        rw [hst3]
        refine ⟨li3.inv, ?_, ?_, ?_, ?_, ?_, ?_, ?_⟩
        · exact fun d S hk => li3.monoKey d S (hmonoK12 d S hk)
        · exact fun d F x hc => li3.monoCof d F x (hmonoC12 d F x hc)
        · have e1 := scGrow_len_ge st T.length
          have e2 : st2.simplices.length = (scGrow st T.length).simplices.length := by
            have hA : st2.simplices.length = stA.simplices.length := rfl
            rw [hA, s3.lenS]
          have e3 := li3.monoLen
          omega
        · exact fun F hF => li3.facets F hF
        · intro h3 F
          rw [li3.cof0eq F, hcof0_20 h3 F]
        · intro h3e x y hk
          rcases hpairsB20 x y (li3.pairsBound x y hk) with hk3 | ⟨_, hb⟩
          · exact Or.inl hk3
          · exact Or.inr hb
        · intro h4e x y hk
          rcases hpairsB20 x y (li3.pairsBound x y hk) with hk3 | ⟨he3, _⟩
          · exact hk3
          · omega

theorem dirAt_of_scan2 {st : SC} {T : Simp} (hT2e : T.length = 2)
    {node : Nat} (hnu : node ≠ T.getD 0 0) (hnv : node ≠ T.getD 1 0)
    (hc0 : node ∈ cofAt st 0 [T.getD 0 0]) (hc1 : node ∈ cofAt st 0 [T.getD 1 0])
    (hNbE : ∀ x y, y ∈ cofAt st 0 [x] → isKey st 1 [x, y] ∨ isKey st 1 [y, x] ∨
      (x = T.getD 0 0 ∧ y = T.getD 1 0) ∨ (x = T.getD 1 0 ∧ y = T.getD 0 0))
    (hcyc : scCyc st T node = false)
    {i : Nat} (hi : i ≤ T.length)
    (hkey : i < T.length → isKey st 1 [node, T.getD i 0])
    (hscan : ∀ j, j < i → ¬ isKey st 1 [node, T.getD j 0]) :
    DirAt st T node i := by
  have hcov0 : isKey st 1 [T.getD 0 0, node] ∨ isKey st 1 [node, T.getD 0 0] := by
    rcases hNbE (T.getD 0 0) node hc0 with h | h | ⟨_, h⟩ | ⟨_, h⟩
    · exact Or.inl h
    · exact Or.inr h
    · exact absurd h hnv
    · exact absurd h hnu
  have hcov1 : isKey st 1 [T.getD 1 0, node] ∨ isKey st 1 [node, T.getD 1 0] := by
    rcases hNbE (T.getD 1 0) node hc1 with h | h | ⟨_, h⟩ | ⟨_, h⟩
    · exact Or.inl h
    · exact Or.inr h
    · exact absurd h hnv
    · exact absurd h hnu
  intro p hp
  rw [hT2e] at hp
  constructor
  · intro hip
    rcases show p = 0 ∨ p = 1 by omega with hp0 | hp1
    · subst hp0
      have hi0 : i = 0 := by omega
      subst hi0
      exact hkey (by omega)
    · subst hp1
      rcases show i = 0 ∨ i = 1 by omega with hi0 | hi1
      · subst hi0
        have hk0 : isKey st 1 [node, T.getD 0 0] := hkey (by omega)
        have hnc := scCyc_parts hcyc hT2e hk0
        rcases hcov1 with h | h
        · exact absurd h hnc
        · exact h
      · subst hi1
        exact hkey (by omega)
  · intro hpi
    have hnk := hscan p hpi
    rcases show p = 0 ∨ p = 1 by omega with hp0 | hp1
    · subst hp0
      rcases hcov0 with h | h
      · exact ⟨h, hnk⟩
      · exact absurd h hnk
    · subst hp1
      rcases hcov1 with h | h
      · exact ⟨h, hnk⟩
      · exact absurd h hnk

/-- Invariant carried along the extension loop of a top-level edge
insertion. -/
structure Loop2Inv (stS stk : SC) (u v : Nat) (cnt : Nat) : Prop where
  inv : SCInv stk
  monoKey : ∀ d S, isKey stS d S → isKey stk d S
  monoLen : stS.simplices.length ≤ stk.simplices.length
  facetU : isKey stk 0 [u]
  facetV : isKey stk 0 [v]
  cof0eq : ∀ F, cofAt stk 0 F = cofAt stS 0 F
  noRev : ¬ isKey stk 1 [v, u]
  nbU : v ∈ cofAt stk 0 [u]
  nbV : u ∈ cofAt stk 0 [v]
  hNbE : ∀ x y, y ∈ cofAt stk 0 [x] → isKey stk 1 [x, y] ∨ isKey stk 1 [y, x] ∨
    (x = u ∧ y = v) ∨ (x = v ∧ y = u)
  cntKey : 0 < cnt → isKey stk 1 [u, v]

theorem loop2_pres (fuel : Nat) {u v : Nat} (hne : u ≠ v) {stS : SC}
    (hlen2 : 2 ≤ stS.simplices.length) :
    ∀ nodes : List Nat, ∀ stk cnt res cntR,
      (∀ node ∈ nodes, node ∈ cofAt stS 0 [u] ∧ node ∈ cofAt stS 0 [v]) →
      Loop2Inv stS stk u v cnt →
      scLoop (scAdd fuel) [u, v] nodes (some (stk, cnt)) = some (res, cntR) →
      Loop2Inv stS res u v cntR := by
  intro nodes
  induction nodes with
  | nil =>
    intro stk cnt res cntR hnodes li hrun
    rw [scLoop] at hrun
    have he := Option.some.injEq _ _ ▸ hrun
    have he1 : stk = res := (Prod.mk.injEq _ _ _ _ ▸ he).1
    have he2 : cnt = cntR := (Prod.mk.injEq _ _ _ _ ▸ he).2
    rw [← he1, ← he2]
    exact li
  | cons node rest ihn =>
    intro stk cnt res cntR hnodes li hrun
    rw [scLoop] at hrun
    have hrun2 : (if scCyc stk [u, v] node then
        scLoop (scAdd fuel) [u, v] rest (some (stk, cnt))
        else match scAdd fuel stk (scSuper stk [u, v] node) with
          | none => none
          | some st2 => scLoop (scAdd fuel) [u, v] rest (some (st2, cnt + 1))) =
        some (res, cntR) := hrun
    by_cases hcyc : scCyc stk [u, v] node = true
    · rw [hcyc, if_pos rfl] at hrun2
      exact ihn stk cnt res cntR
        (fun n hn => hnodes n (List.mem_cons_of_mem _ hn)) li hrun2
    · have hcycF : scCyc stk [u, v] node = false := by
        rcases Bool.eq_false_or_eq_true (scCyc stk [u, v] node) with ht | hf
        · exact absurd ht hcyc
        · exact hf
      rw [hcycF, if_neg (by simp)] at hrun2
      cases hrec : scAdd fuel stk (scSuper stk [u, v] node) with
      | none =>
        rw [hrec] at hrun2
        exact absurd hrun2 (by simp)
      | some stN =>
        rw [hrec] at hrun2
        obtain ⟨i, hi, hform, hkeyi, hscan⟩ := scSuper_char2 stk [u, v] node
        have hcu : node ∈ cofAt stk 0 [u] := by
          rw [li.cof0eq]
          exact (hnodes node (List.mem_cons_self _ _)).1
        have hcv : node ∈ cofAt stk 0 [v] := by
          rw [li.cof0eq]
          exact (hnodes node (List.mem_cons_self _ _)).2
        have hnmu : node ≠ u := by
          have := li.inv.cofNotMem 0 [u] node hcu
          simp at this
          exact this
        have hnmv : node ≠ v := by
          have := li.inv.cofNotMem 0 [v] node hcv
          simp at this
          exact this
        have hdir : DirAt stk [u, v] node i :=
          @dirAt_of_scan2 stk [u, v] rfl node hnmu hnmv hcu hcv li.hNbE hcycF
            i hi hkeyi hscan
        have hslen : (scSuper stk [u, v] node).length = 3 := by
          rw [hform, length_insAt]
          rfl
        have hndS : (scSuper stk [u, v] node).Nodup := by
          rw [hform]
          exact nodup_insAt i (by simp [hne]) (by simp [hnmu, hnmv])
        have pre : AddPre stk (scSuper stk [u, v] node) := by
          refine ⟨li.inv, by omega, hndS, ?_, ?_, ?_⟩
          · rw [hslen]
            have := li.monoLen
            omega
          · intro h3 F1 hF1 G hG
            have hlF1 : F1.length + 1 = 3 := by
              rw [← hslen]
              exact length_of_mem_faces hF1
            have hlG : G.length + 1 = F1.length := length_of_mem_faces hG
            have hGs : G = [G.getD 0 0] := list_eq_single (by omega)
            have htG : G.getD 0 0 ∈ G := getD_mem (by omega)
            have htS : G.getD 0 0 ∈ scSuper stk [u, v] node :=
              mem_of_mem_faces hF1 (mem_of_mem_faces hG htG)
            rw [hform, mem_insAt] at htS
            rw [hslen, hGs]
            show isKey stk 0 [G.getD 0 0]
            rcases htS with he | he
            · rw [he]
              exact (li.inv.cof0Keyed u node hcu).1
            · rcases show G.getD 0 0 = u ∨ G.getD 0 0 = v by simpa using he with h2 | h2
              · rw [h2]
                exact li.facetU
              · rw [h2]
                exact li.facetV
          · intro h3 x y hbxy
            rw [hform] at hbxy
            rcases bef_insAt_resolve hi hdir hbxy with hb | hk
            · obtain ⟨hx, hy⟩ := bef_length2
                (show ([u, v] : List Nat).length = 2 from rfl) hb
              refine Or.inr ⟨hslen, ?_⟩
              rw [hx, hy]
              exact ⟨li.noRev, li.nbU, li.nbV⟩
            · exact Or.inl hk
        have post := scAdd_main fuel stk (scSuper stk [u, v] node) stN
          (by omega) pre hrec
        have hcof0N : ∀ F, cofAt stN 0 F = cofAt stk 0 F :=
          fun F => post.cof0eq (by omega) F
        have li2 : Loop2Inv stS stN u v (cnt + 1) := by
          refine ⟨post.inv, ?_, ?_, ?_, ?_, ?_, ?_, ?_, ?_, ?_, ?_⟩
          · exact fun d S h => post.monoKey d S (li.monoKey d S h)
          · exact Nat.le_trans li.monoLen post.monoLen
          · exact post.monoKey 0 [u] li.facetU
          · exact post.monoKey 0 [v] li.facetV
          · intro F
            rw [hcof0N F, li.cof0eq F]
          · intro hk
            rcases post.pairs3 hslen v u hk with hk2 | hb
            · exact li.noRev hk2
            · have hbuv : bef (scSuper stk [u, v] node) u v := by
                rw [hform]
                exact bef_insAt_of_bef i node hi (bef_pair.mpr ⟨rfl, rfl⟩)
              exact bef_antisymm hndS hbuv hb
          · rw [hcof0N]
            exact li.nbU
          · rw [hcof0N]
            exact li.nbV
          · intro x y hy
            rw [hcof0N] at hy
            rcases li.hNbE x y hy with h | h | h | h
            · exact Or.inl (post.monoKey _ _ h)
            · exact Or.inr (Or.inl (post.monoKey _ _ h))
            · exact Or.inr (Or.inr (Or.inl h))
            · exact Or.inr (Or.inr (Or.inr h))
          · intro _
            have hmem : ([u, v] : Simp) ∈ faces (scSuper stk [u, v] node) := by
              rw [hform]
              exact self_mem_faces_insAt node hi
            have := post.facets [u, v] hmem
            rw [hslen] at this
            exact this
        exact ihn stN (cnt + 1) res cntR
          (fun n hn => hnodes n (List.mem_cons_of_mem _ hn)) li2 hrun2

theorem scAddCore_eq (addf : SC → Simp → Option SC) (st : SC) (T : Simp) :
    scAddCore addf st T =
      match scLoop addf T
          (scOptions (scColumn (scStep3 st T).1 T (scStep3 st T).2) T)
          (some (scColumn (scStep3 st T).1 T (scStep3 st T).2, 0)) with
      | none => none
      | some (stq, cnt) => if cnt == 0 then some (scMaximal stq T) else some stq :=
  rfl

/-- Invariant maintained across top-level edge insertions: the structural
store invariant, the edge coverage of the symmetric vertex-neighbour sets,
and a nonempty store list. -/
structure TopInv (st : SC) : Prop where
  inv : SCInv st
  nbE : ∀ x y, y ∈ cofAt st 0 [x] → isKey st 1 [x, y] ∨ isKey st 1 [y, x]
  len1 : 1 ≤ st.simplices.length

theorem scAdd_edge (fuel : Nat) (u v : Nat) (hne : u ≠ v) (st st' : SC)
    (htop : TopInv st) (hrun : scAdd fuel st [u, v] = some st') : TopInv st' := by
  cases fuel with
  | zero =>
    rw [scAdd] at hrun
    exact absurd hrun (by simp)
  | succ fuel =>
    have hLL : ([u, v] : Simp).length = 2 := rfl
    rw [scAdd] at hrun
    rw [if_neg (by simp)] at hrun
    have h2 : (if scDup (scGrow st [u, v].length) [u, v] then
          some (scGrow st [u, v].length)
        else scAddCore (scAdd fuel) (scGrow st [u, v].length) [u, v]) =
        some st' := hrun
    have inv1 : SCInv (scGrow st [u, v].length) := scGrow_inv [u, v].length htop.inv
    have hlen1 : [u, v].length ≤ (scGrow st [u, v].length).simplices.length :=
      scGrow_len st [u, v].length htop.len1
    have nbE1 : ∀ x y, y ∈ cofAt (scGrow st [u, v].length) 0 [x] →
        isKey (scGrow st [u, v].length) 1 [x, y] ∨
          isKey (scGrow st [u, v].length) 1 [y, x] := by
      intro x y hy
      rw [scGrow_cofAt] at hy
      rcases htop.nbE x y hy with h | h
      · exact Or.inl ((scGrow_isKey _ _ _ _).mpr h)
      · exact Or.inr ((scGrow_isKey _ _ _ _).mpr h)
    by_cases hdup : scDup (scGrow st [u, v].length) [u, v] = true
    · rw [if_pos hdup] at h2
      have he : scGrow st [u, v].length = st' := Option.some.injEq _ _ ▸ h2
      rw [← he]
      refine ⟨inv1, nbE1, ?_⟩
      have := scGrow_len_ge st [u, v].length
      have := htop.len1
      omega
    · have hdupF : scDup (scGrow st [u, v].length) [u, v] = false := by
        rcases Bool.eq_false_or_eq_true (scDup (scGrow st [u, v].length) [u, v])
          with ht | hf
        · exact absurd ht hdup
        · exact hf
      rw [hdupF, if_neg (by simp)] at h2
      have hnd : ([u, v] : Simp).Nodup := by simp [hne]
      have hDD : [u, v].length - 2 < (scGrow st [u, v].length).simplices.length := by
        rw [hLL] at hlen1 ⊢
        omega
      have s3 := step3_stage inv1 (by rw [hLL]) hnd hDD
        (fun h3 => absurd h3 (by rw [hLL]; omega))
        (fun h3 => absurd h3 (by rw [hLL]; omega))
      rw [scAddCore_eq] at h2
      set stA := (scStep3 (scGrow st [u, v].length) [u, v]).1 with hstA
      set st2 := scColumn stA [u, v] (scStep3 (scGrow st [u, v].length) [u, v]).2
        with hst2
      have h4 : (match scLoop (scAdd fuel) [u, v] (scOptions st2 [u, v])
            (some (st2, 0)) with
          | none => none
          | some (stq, cnt) =>
            if cnt == 0 then some (scMaximal stq [u, v]) else some stq) =
          some st' := h2
      have inv2 : SCInv st2 := inv_of_eq_stores
        (show st2.simplices = stA.simplices from rfl)
        (show st2.simplex_indices = stA.simplex_indices from rfl) s3.inv
      have hlen2 : 2 ≤ st2.simplices.length := by
        have hA : st2.simplices.length = stA.simplices.length := rfl
        rw [hA, s3.lenS]
        rw [hLL] at hlen1
        exact hlen1
      have hkey21 : ∀ S, isKey st2 1 S ↔ isKey (scGrow st [u, v].length) 1 S := by
        intro S
        have hA : isKey st2 1 S ↔ isKey stA 1 S := Iff.rfl
        rw [hA, s3.keysAll 1 S]
        constructor
        · rintro (h | ⟨hd, _⟩)
          · exact h
          · rw [hLL] at hd
            omega
        · exact fun h => Or.inl h
      have hcof20 : ∀ F x, x ∈ cofAt st2 0 F ↔
          x ∈ cofAt (scGrow st [u, v].length) 0 F ∨
            (F = [v] ∧ x = u) ∨ (F = [u] ∧ x = v) := by
        intro F x
        have hA : (x ∈ cofAt st2 0 F) ↔ x ∈ cofAt stA 0 F := Iff.rfl
        rw [hA, s3.cof0new rfl F x]
        constructor
        · rintro (h | ⟨j, hj, hF, hx⟩)
          · exact Or.inl h
          · rw [hLL] at hj
            interval_cases j
            · exact Or.inr (Or.inl ⟨hF, hx⟩)
            · exact Or.inr (Or.inr ⟨hF, hx⟩)
        · rintro (h | ⟨hF, hx⟩ | ⟨hF, hx⟩)
          · exact Or.inl h
          · exact Or.inr ⟨0, by rw [hLL]; omega, hF, hx⟩
          · exact Or.inr ⟨1, by rw [hLL]; omega, hF, hx⟩
      have hmemU : ([u] : Simp) ∈ faces [u, v] :=
        mem_faces.mpr ⟨1, by rw [hLL]; omega, rfl⟩
      have hmemV : ([v] : Simp) ∈ faces [u, v] :=
        mem_faces.mpr ⟨0, by rw [hLL]; omega, rfl⟩
      have li0 : Loop2Inv st2 st2 u v 0 := by
        refine ⟨inv2, fun d S h => h, Nat.le_refl _, s3.facets [u] hmemU,
          s3.facets [v] hmemV, fun F => rfl, ?_, ?_, ?_, ?_, ?_⟩
        · intro hk
          have hk1 : isKey (scGrow st [u, v].length) 1 [v, u] := (hkey21 _).mp hk
          have hnb : u ∈ cofAt (scGrow st [u, v].length) 0 [v] :=
            inv1.edgeNb v u hk1
          have hsy : v ∈ cofAt (scGrow st [u, v].length) 0 [u] :=
            inv1.cof0Symm v u hnb
          have hd2 : scDup (scGrow st [u, v].length) [u, v] = true :=
            scDup_iff.mpr ⟨rfl, hsy⟩
          rw [hdupF] at hd2
          exact absurd hd2 (by simp)
        · exact (hcof20 [u] v).mpr (Or.inr (Or.inr ⟨rfl, rfl⟩))
        · exact (hcof20 [v] u).mpr (Or.inr (Or.inl ⟨rfl, rfl⟩))
        · intro x y hy
          rcases (hcof20 [x] y).mp hy with h | ⟨hF, hx⟩ | ⟨hF, hx⟩
          · rcases nbE1 x y h with hk | hk
            · exact Or.inl ((hkey21 _).mpr hk)
            · exact Or.inr (Or.inl ((hkey21 _).mpr hk))
          · have hx2 : x = v := by simpa using hF
            exact Or.inr (Or.inr (Or.inr ⟨hx2, hx⟩))
          · have hx2 : x = u := by simpa using hF
            exact Or.inr (Or.inr (Or.inl ⟨hx2, hx⟩))
        · intro hc
          exact absurd hc (by omega)
      cases hloop : scLoop (scAdd fuel) [u, v] (scOptions st2 [u, v])
          (some (st2, 0)) with
      | none =>
        rw [hloop] at h4
        exact absurd h4 (by simp)
      | some pr =>
        obtain ⟨st3, cnt⟩ := pr
        rw [hloop] at h4
        have h5 : (if cnt == 0 then some (scMaximal st3 [u, v]) else some st3) =
            some st' := h4
        have hnodes : ∀ node ∈ scOptions st2 [u, v],
            node ∈ cofAt st2 0 [u] ∧ node ∈ cofAt st2 0 [v] := by
          intro n hn
          have hm := scOptions_mem hn
          exact ⟨hm [u] hmemU, hm [v] hmemV⟩
        have li3 : Loop2Inv st2 st3 u v cnt :=
          loop2_pres fuel hne hlen2 (scOptions st2 [u, v]) st2 0 st3 cnt
            hnodes li0 hloop
        have hfaces3 : ∀ F ∈ faces [u, v], isKey st3 ([u, v].length - 2) F := by
          intro F hF
          rcases mem_faces.mp hF with ⟨j, hj, hFe⟩
          rw [hLL] at hj
          interval_cases j
          · rw [hFe]
            exact li3.facetV
          · rw [hFe]
            exact li3.facetU
        by_cases hcnt : cnt = 0
        · rw [if_pos (by simpa using hcnt)] at h5
          have hst3 : st' = scMaximal st3 [u, v] := (Option.some.injEq _ _ ▸ h5).symm
          have hL3 : [u, v].length - 1 < st3.simplices.length := by
            have := li3.monoLen
            rw [hLL]
            omega
          have mp := maximal_stage li3.inv (by rw [hLL]) hnd hL3 hfaces3 ?_
          · rw [hst3]
            refine ⟨mp.inv, ?_, ?_⟩
            · intro x y hy
              rw [mp.cofEq 0 [x]] at hy
              rcases li3.hNbE x y hy with hk | hk | ⟨hx, hy2⟩ | ⟨hx, hy2⟩
              · exact Or.inl (mp.monoKey 1 [x, y] hk)
              · exact Or.inr (mp.monoKey 1 [y, x] hk)
              · rw [hx, hy2]
                exact Or.inl mp.keyT
              · rw [hx, hy2]
                exact Or.inr mp.keyT
            · rw [mp.lenS]
              have := li3.monoLen
              omega
          · intro x y hb
            obtain ⟨hx, hy⟩ := bef_pair.mp hb
            rw [hx, hy]
            exact Or.inr ⟨rfl, li3.noRev, li3.nbU, li3.nbV⟩
        · rw [if_neg (by simpa using hcnt)] at h5
          have hst3 : st' = st3 := (Option.some.injEq _ _ ▸ h5).symm
          rw [hst3]
          have hkuv : isKey st3 1 [u, v] := li3.cntKey (by omega)
          refine ⟨li3.inv, ?_, ?_⟩
          · intro x y hy
            rcases li3.hNbE x y hy with hk | hk | ⟨hx, hy2⟩ | ⟨hx, hy2⟩
            · exact Or.inl hk
            · exact Or.inr hk
            · rw [hx, hy2]
              exact Or.inl hkuv
            · rw [hx, hy2]
              exact Or.inr hkuv
          · have := li3.monoLen
            omega

def scRunSeq (fuel : Nat) (es : List (Nat × Nat)) : Option SC :=
  es.foldl (fun acc e => acc.bind (fun s => scAdd fuel s [e.1, e.2])) (some scNew)

theorem runFold_none (fuel : Nat) : ∀ es : List (Nat × Nat),
    es.foldl (fun acc e => acc.bind (fun s => scAdd fuel s [e.1, e.2])) none =
      none := by
  intro es
  induction es with
  | nil => rfl
  | cons e rest ih =>
    rw [List.foldl_cons]
    exact ih

theorem scNew_top : TopInv scNew := by
  refine ⟨scNew_inv, ?_, ?_⟩
  · intro x y hy
    have hc : cofAt scNew 0 [x] = [] := by
      rw [cofAt, scNew_smapAt]
      rfl
    rw [hc] at hy
    exact absurd hy (List.not_mem_nil y)
  · exact Nat.le_refl 1

theorem runFold_top (fuel : Nat) : ∀ es : List (Nat × Nat), ∀ st0 st : SC,
    (∀ p ∈ es, p.1 ≠ p.2) → TopInv st0 →
    es.foldl (fun acc e => acc.bind (fun s => scAdd fuel s [e.1, e.2]))
      (some st0) = some st →
    TopInv st := by
  intro es
  induction es with
  | nil =>
    intro st0 st hne htop hrun
    have he : st0 = st := Option.some.injEq _ _ ▸ hrun
    rw [← he]
    exact htop
  | cons e rest ih =>
    intro st0 st hne htop hrun
    rw [List.foldl_cons] at hrun
    have hb : (some st0).bind (fun s => scAdd fuel s [e.1, e.2]) =
        scAdd fuel st0 [e.1, e.2] := rfl
    rw [hb] at hrun
    cases hstep : scAdd fuel st0 [e.1, e.2] with
    | none =>
      rw [hstep, runFold_none fuel rest] at hrun
      exact absurd hrun (by simp)
    | some st1 =>
      rw [hstep] at hrun
      have htop1 : TopInv st1 :=
        scAdd_edge fuel e.1 e.2 (hne e (List.mem_cons_self _ _)) st0 st1 htop hstep
      exact ih st1 st (fun p hp => hne p (List.mem_cons_of_mem _ hp)) htop1 hrun

theorem scRunSeq_top (fuel : Nat) (es : List (Nat × Nat)) (st : SC)
    (hne : ∀ p ∈ es, p.1 ≠ p.2) (hrun : scRunSeq fuel es = some st) :
    TopInv st :=
  runFold_top fuel es scNew st hne scNew_top hrun

/-- C2: after any sequence of edge insertions starting from a fresh complex
(each inserted edge having distinct endpoints, since a self-loop makes the
recursion of method add non-terminating), every simplex present at dimension
d + 1 has all of its facets present at dimension d: the tracked complex is
closed under taking faces. -/
theorem insertion_closure (es : List (Nat × Nat)) (fuel : Nat) (st : SC)
    (hne : ∀ p ∈ es, p.1 ≠ p.2) (hrun : scRunSeq fuel es = some st) :
    ∀ d S, isKey st (d + 1) S → ∀ F ∈ faces S, isKey st d F :=
  (scRunSeq_top fuel es st hne hrun).inv.closed

def c2WitEdges : List (Nat × Nat) := [(0, 1), (1, 2), (0, 2)]

def c2WitState : SC := (scRunSeq 9 c2WitEdges).getD scNew

theorem insertion_closure_witness :
    (∀ p ∈ c2WitEdges, p.1 ≠ p.2) ∧
    (∀ d S, isKey c2WitState (d + 1) S → ∀ F ∈ faces S, isKey c2WitState d F) :=
  ⟨by decide, insertion_closure c2WitEdges 9 c2WitState (by decide) (by rfl)⟩
